import Mathlib

/-!
# Galois `des` circuit library: the netlist tokenizer and parser

A shallow embedding of `apps/des/common/circuitlib/NetlistParser.h`.

* A `std::string` / C string is a `List Char`.
* `NetlistTokenizer` is embedded twice: as the state machine of the source
  (`NetlistTokenizer.readNextToken`, `nextToken`, `hasMoreTokens`) over a file
  given by its lines, and, for the parser, as the stream of tokens it hands
  out (`TokenStream`), where `nextToken` on the empty stream is the failed
  assertion `nextTokPtr != NULL`.
* `strtok` keeps one position for the whole process; the constructor of
  `NetlistTokenizer` calls `strtok (NULL, delim)` before the class has passed a
  string, so it takes the state of `strtok` as an argument
  (`NetlistTokenizer.new`).
* The parser is embedded as built with assertions; the loop of `parseNetlist`
  as built with `NDEBUG` is `parseNetlistLoopNDEBUG`.
* `atol` returns a `long`: a numeral beyond 2^63 - 1 is clamped, as `strtol`
  does.
* `std::map::insert` keeps an existing entry; maps are association lists in
  insertion order (`mapInsert`, `mapFind`).
* A member that is never assigned (`GateRec::delay`, `finishTime`) holds an
  indeterminate value, written `none`.
-/

/-! ## Strings, characters and numbers -/

/-- The content of a `std::string`, also of a C string (no terminator stored). -/
abbrev Token := List Char

/-- Modelled from the spec: the typedef `SimTime` of `comDefs.h` is missing; the
spec speaks of integer time units, and the source casts the `long` result of
`atol` to it. -/
abbrev SimTime := Int

/-- Modelled from the spec: the typedef `LogicVal` of `logicDefs.h` is missing;
the source assigns `token[0]`, a `char`, to it. -/
abbrev LogicVal := Char

/-- The C function `tolower` in the "C" locale. -/
def tolower (c : Char) : Char :=
  if 'A' ≤ c ∧ c ≤ 'Z' then Char.ofNat (c.toNat + 32) else c

/-- Modelled from the spec: `toLowerCase` of `comDefs.h` is missing; it
converts every character of the string to lower case. -/
def toLowerCase (s : Token) : Token := s.map tolower

/-- The expression `token[0]`: the first character, and the terminating NUL
for the empty string. -/
def firstChar (s : Token) : Char := s.headD (Char.ofNat 0)

/-- The method `std::string::substr(1)` on a non-empty string. -/
def substr1 (s : Token) : Token := s.tail

/-- The C function `isspace` in the "C" locale: space, and the controls 9 to 13. -/
def isspace (c : Char) : Bool := c.toNat = 32 ∨ (9 ≤ c.toNat ∧ c.toNat ≤ 13)

/-- The C function `isdigit`. -/
def isdigit (c : Char) : Bool := '0' ≤ c ∧ c ≤ '9'

/-- The value of a decimal digit character. -/
def digitVal (c : Char) : Nat := c.toNat - 48

/-- The largest `long` (LP64). -/
def LONG_MAX : Int := 2 ^ 63 - 1

/-- The smallest `long` (LP64). -/
def LONG_MIN : Int := -(2 ^ 63)

/-- The value of the longest prefix of decimal digits, accumulated from `acc`. -/
def digitsValue : List Char → Nat → Nat
  | [], acc => acc
  | c :: cs, acc => if isdigit c then digitsValue cs (10 * acc + digitVal c) else acc

/-- The C function `atol`, as `strtol (s, NULL, 10)`: leading white space is
skipped, an optional sign is read, then the longest run of decimal digits (value
0 when there is none); a value outside `long` is clamped to `LONG_MAX` or
`LONG_MIN`. It never fails. -/
def atol (s : List Char) : Int :=
  match s.dropWhile isspace with
  | '-' :: r => max LONG_MIN (-(digitsValue r 0 : Int))
  | '+' :: r => min LONG_MAX (digitsValue r 0 : Int)
  | r => min LONG_MAX (digitsValue r 0 : Int)

/-! ## `std::map` -/

/-- The lookup `std::map::find`. -/
def mapFind {β : Type} (m : List (Token × β)) (k : Token) : Option β :=
  match m.find? (fun p => decide (p.1 = k)) with
  | some p => some p.2
  | none => none

/-- The insertion `std::map::insert`: an entry whose key is present already is
not inserted and the map is unchanged. -/
def mapInsert {β : Type} (m : List (Token × β)) (k : Token) (v : β) : List (Token × β) :=
  match mapFind m k with
  | some _ => m
  | none => m ++ [(k, v)]

/-! ## Gate records -/

/-- The struct `GateRec`; `delay` is `none` until `setDelay` is called. -/
structure GateRec where
  name : Token
  outputs : List Token
  inputs : List Token
  delay : Option SimTime
deriving DecidableEq, Repr

namespace GateRec

/-- A default-constructed `GateRec g;`. -/
def new : GateRec := { name := [], outputs := [], inputs := [], delay := none }

def addOutput (g : GateRec) (net : Token) : GateRec := { g with outputs := g.outputs ++ [net] }

def addInput (g : GateRec) (net : Token) : GateRec := { g with inputs := g.inputs ++ [net] }

def setDelay (g : GateRec) (d : SimTime) : GateRec := { g with delay := some d }

def setName (g : GateRec) (n : Token) : GateRec := { g with name := n }

end GateRec

/-! ## The tokenizer -/

/-- The C function `strtok (s, delim)` on the string `s`: the delimiters at the
front are skipped; at the end of the string the result is `NULL`; otherwise the
token runs up to the next delimiter, which is overwritten by NUL. The second
component is the position at which `strtok (NULL, delim)` goes on. -/
def strtok (delim : List Char) (s : List Char) : Option Token × List Char :=
  match s.dropWhile (fun c => decide (c ∈ delim)) with
  | [] => (none, [])
  | c :: cs =>
    (some ((c :: cs).takeWhile (fun c => !decide (c ∈ delim))),
      ((c :: cs).dropWhile (fun c => !decide (c ∈ delim))).tail)

/-- The method `std::string::find (pat)`: the first position at which `pat`
occurs in the string, `none` for `npos`. -/
def strFind (pat : List Char) : List Char → Option Nat
  | [] => if pat = [] then some 0 else none
  | c :: cs =>
    if pat.isPrefixOf (c :: cs) then some 0
    else
      match strFind pat cs with
      | some i => some (i + 1)
      | none => none

/-- The state of `std::ifstream ifs` on a readable text file: the part of the
file not yet read, as the pieces between its newline characters (a file that
ends in a newline has an empty last piece), and the `eofbit`. A piece is the
content of the C string that `getNextLine` copies the line into; a text file
holds no NUL character. -/
structure IfStream where
  lines : List (List Char)
  eof : Bool
deriving DecidableEq, Repr

namespace IfStream

/-- The call `std::getline (ifs, currLine)`: the characters up to the next
newline are extracted and the newline is dropped; `eofbit` is set when the end
of the file is reached while reading. -/
def getline (s : IfStream) : List Char × IfStream :=
  match s.lines with
  | [] => ([], { lines := [], eof := true })
  | l :: rest => (l, { lines := rest, eof := rest.isEmpty })

end IfStream

/-- The members of `NetlistTokenizer` that its methods read: the stream, the
delimiters, the comment marker, the position of `strtok` in the current line
(`strtokSave`; `linePtr` owns that buffer) and `nextTokPtr`. -/
structure NetlistTokenizer where
  ifs : IfStream
  delim : List Char
  comments : List Char
  strtokSave : List Char
  nextTokPtr : Option Token
deriving DecidableEq, Repr

namespace NetlistTokenizer

/-- The method `isCommentBegin`: `tok.find (comments) == 0`. -/
def isCommentBegin (comments : List Char) (tok : Token) : Bool :=
  strFind comments tok = some 0

/-- The while loop of `readNextToken`, entered with `nextTokPtr = tok`:
`while (nextTokPtr == NULL || isCommentBegin ())`. A round calls `getNextLine`,
which gives `NULL` once `eofbit` is set (the loop is left with `NULL`), and
otherwise reads a line with `getline` and takes its first token. The recursion
is on the lines left in the file, so the round on a stream with nothing left
and `eofbit` clear is written out: `getline` extracts nothing and sets `eofbit`,
`strtok` of the empty line is `NULL`, and the next round leaves the loop.
`readNextTokenLoop_eq` states the loop with `IfStream.getline`. -/
def readNextTokenLoop (delim comments : List Char) :
    List (List Char) → Bool → Option Token → List Char → Option Token × List Char × IfStream
  | lines, eof, tok, save =>
    if tok = none ∨ tok.any (isCommentBegin comments) then
      if eof then (none, save, { lines := lines, eof := eof })
      else
        match lines with
        | [] => (none, [], { lines := [], eof := true })
        | l :: rest =>
          readNextTokenLoop delim comments rest rest.isEmpty (strtok delim l).1 (strtok delim l).2
    else (tok, save, { lines := lines, eof := eof })

/-- The method `readNextToken`: `nextTokPtr = strtok (NULL, delim)`, then the
loop. -/
def readNextToken (tk : NetlistTokenizer) : NetlistTokenizer :=
  let r := readNextTokenLoop tk.delim tk.comments tk.ifs.lines tk.ifs.eof
    (strtok tk.delim tk.strtokSave).1 (strtok tk.delim tk.strtokSave).2
  { tk with nextTokPtr := r.1, strtokSave := r.2.1, ifs := r.2.2 }

/-- The members as the constructor sets them on a readable file, before it calls
`readNextToken ()`: the file is open, nothing is read, and `nextTokPtr` is
`NULL`. The class has passed no string to `strtok` yet; `save` is the position
that `strtok`, which keeps one position for the whole process, has from its
last use by other code. -/
def opened (save : List Char) (file : List (List Char)) (delim comments : List Char) :
    NetlistTokenizer :=
  { ifs := { lines := file, eof := false }, delim := delim, comments := comments,
    strtokSave := save, nextTokPtr := none }

/-- The constructor on a readable file. It ends in `readNextToken ()`, whose first
statement is `strtok (NULL, delim)`, before the class has passed any string to
`strtok`. The argument `save` is the state of `strtok` in the process: `none`
when no string was ever passed to it, and then the call has no defined behaviour
(the result is `none`); `some s` when other code has used `strtok` and `s` is
what is left of its string, and then the call goes on in `s`. -/
def new (save : Option (List Char)) (file : List (List Char)) (delim comments : List Char) :
    Option NetlistTokenizer :=
  match save with
  | none => none
  | some s => some (readNextToken (opened s file delim comments))

/-- The constructor in a process whose last call of `strtok` came to the end of
its string: the first `strtok (NULL, delim)` gives `NULL`, which is what the
comment of the class expects ("reading nextTok with null should return null"). -/
def newAtEnd (file : List (List Char)) (delim comments : List Char) : NetlistTokenizer :=
  readNextToken (opened [] file delim comments)

/-- The method `nextToken`; `none` is the failed assertion `nextTokPtr != NULL`. -/
def nextToken (tk : NetlistTokenizer) : Option (Token × NetlistTokenizer) :=
  match tk.nextTokPtr with
  | none => none
  | some retval => some (retval, readNextToken tk)

/-- The method `hasMoreTokens`: `!ifs.eof () || nextTokPtr != NULL`. -/
def hasMoreTokens (tk : NetlistTokenizer) : Bool :=
  !tk.ifs.eof || tk.nextTokPtr != none

/-- The documented use, `while (hasMoreTokens ()) nextToken ()`, for at most
`fuel` calls: the tokens returned, or `none` when an assertion fails or a token
is left after `fuel` calls. -/
def drain : Nat → NetlistTokenizer → Option (List Token)
  | 0, tk => if hasMoreTokens tk then none else some []
  | fuel + 1, tk =>
    if hasMoreTokens tk then
      match nextToken tk with
      | none => none
      | some (t, tk1) =>
        match drain fuel tk1 with
        | none => none
        | some ts => some (t :: ts)
    else some []

/-- The state after `k` calls of `nextToken`, `none` when one of them fails its
assertion. -/
def afterCalls : Nat → NetlistTokenizer → Option NetlistTokenizer
  | 0, tk => some tk
  | k + 1, tk =>
    match nextToken tk with
    | none => none
    | some (_, tk1) => afterCalls k tk1

end NetlistTokenizer

/-! ### What the tokenizer is to return -/

/-- The delimiter-separated tokens of a line: the non-empty pieces between
delimiter characters. -/
def lineTokens (delim : List Char) (line : List Char) : List Token :=
  (line.splitOnP (fun c => decide (c ∈ delim))).filter (fun t => decide (t ≠ []))

/-- The tokens that a line contributes: those before the first one that begins
with the comment marker. -/
def lineContribution (delim comments : List Char) (line : List Char) : List Token :=
  (lineTokens delim line).takeWhile (fun t => !decide (comments <+: t))

/-- The tokens of a file, line after line. -/
def fileTokens (delim comments : List Char) (file : List (List Char)) : List Token :=
  (file.map (lineContribution delim comments)).flatten

/-- The tokens that are delivered when the loop of `readNextToken` is entered
with `tok`, the position `save` of `strtok`, and `lines` left in the file. -/
def loopTokens (delim comments : List Char) (tok : Option Token) (save : List Char)
    (lines : List (List Char)) : List Token :=
  (match tok with
    | none => []
    | some t =>
      if comments <+: t then []
      else t :: (lineTokens delim save).takeWhile (fun t => !decide (comments <+: t))) ++
    fileTokens delim comments lines

/-- The tokens that a tokenizer delivers after the one in `nextTokPtr`: the rest
of the current line, then the lines left in the file. -/
def NetlistTokenizer.ahead (tk : NetlistTokenizer) : List Token :=
  (lineTokens tk.delim tk.strtokSave).takeWhile (fun t => !decide (tk.comments <+: t)) ++
    fileTokens tk.delim tk.comments tk.ifs.lines

/-- The tokens that a tokenizer has still to deliver. -/
def NetlistTokenizer.pending (tk : NetlistTokenizer) : List Token :=
  match tk.nextTokPtr with
  | none => []
  | some t => t :: tk.ahead

/-- The invariant of the tokenizer: at `eofbit` nothing is left to read, and
`nextTokPtr` is `NULL` only at `eofbit`. -/
def NetlistTokenizer.Inv (tk : NetlistTokenizer) : Prop :=
  (tk.ifs.eof = true → tk.ifs.lines = []) ∧ (tk.nextTokPtr = none → tk.ifs.eof = true)

/-! ## The parser -/

/-- The ways in which `NetlistParser::parse` aborts. -/
inductive ParseError where
  /-- The assertion `nextTokPtr != NULL` of `NetlistTokenizer::nextToken`. -/
  | noMoreTokens
  /-- The branch "Unknown type of gate", `assert (false)`. -/
  | unknownGateType (token : Token)
  /-- The embedding's loop bound was reached (never, see `parseLoop_fuel`). -/
  | outOfFuel
deriving DecidableEq, Repr

deriving instance DecidableEq for Except

/-- The tokens that a `NetlistTokenizer` has still to hand out. The parser takes
the head of the stream where the source calls `tokenizer.nextToken ()`: on the
empty stream that call fails its assertion (`ParseError.noMoreTokens`), and
`tokenizer.hasMoreTokens ()` holds exactly of a non-empty stream, as
`nextToken_spec`, `nextToken_none` and `hasMoreTokens_iff` show of the
tokenizer. -/
abbrev TokenStream := List Token


/-- The data members of `NetlistParser` that `parse` fills. -/
structure NetlistParser where
  inputNames : List Token
  outputNames : List Token
  outValues : List (Token × LogicVal)
  inputStimulusMap : List (Token × List (SimTime × LogicVal))
  gates : List GateRec
  finishTime : Option SimTime
deriving DecidableEq, Repr

namespace NetlistParser

/-- The members as the constructor leaves them before it calls `parse`. -/
def init : NetlistParser :=
  { inputNames := [], outputNames := [], outValues := [], inputStimulusMap := [],
    gates := [], finishTime := none }

/-- The string literal "end". -/
def END : Token := ['e', 'n', 'd']

def oneInputGates : List Token := [toLowerCase ['I', 'N', 'V']]

def twoInputGates : List Token :=
  [toLowerCase ['A', 'N', 'D', '2'], toLowerCase ['O', 'R', '2'],
   toLowerCase ['N', 'A', 'N', 'D', '2'], toLowerCase ['N', 'O', 'R', '2'],
   toLowerCase ['X', 'O', 'R', '2'], toLowerCase ['X', 'N', 'O', 'R', '2']]

/-- The while loop of `parsePortList`; `token` is the current, lower-cased token. -/
def parsePortListLoop (token : Token) :
    TokenStream → List Token → Except ParseError (List Token × TokenStream)
  | ts, portNames =>
    if token = END then .ok (portNames, ts)
    else
      match ts with
      | [] => .error .noMoreTokens
      | t :: ts1 => parsePortListLoop (toLowerCase t) ts1 (portNames ++ [token])

def parsePortList (ts : TokenStream) (portNames : List Token) :
    Except ParseError (List Token × TokenStream) :=
  match ts with
  | [] => .error .noMoreTokens
  | t :: ts1 => parsePortListLoop (toLowerCase t) ts1 portNames

/-- The while loop of `parseOutValues`; `token` is the current, lower-cased
token. The insertion follows the third `nextToken` in the source; a failure of
that call discards the map, so the order cannot be observed. -/
def parseOutValuesLoop (token : Token) :
    TokenStream → List (Token × LogicVal) →
      Except ParseError (List (Token × LogicVal) × TokenStream)
  | ts, outValues =>
    if token = END then .ok (outValues, ts)
    else
      match ts with
      | [] => .error .noMoreTokens
      | v :: ts1 =>
        match ts1 with
        | [] => .error .noMoreTokens
        | t :: ts2 =>
          parseOutValuesLoop (toLowerCase t) ts2
            (mapInsert outValues token (firstChar (toLowerCase v)))

def parseOutValues (ts : TokenStream) (outValues : List (Token × LogicVal)) :
    Except ParseError (List (Token × LogicVal) × TokenStream) :=
  match ts with
  | [] => .error .noMoreTokens
  | t :: ts1 => parseOutValuesLoop (toLowerCase t) ts1 outValues

/-- The while loop of `parseInitList`; `token` is the current, lower-cased token. -/
def parseInitListLoop (token : Token) :
    TokenStream → List (SimTime × LogicVal) →
      Except ParseError (List (SimTime × LogicVal) × TokenStream)
  | ts, timeValList =>
    if token = END then .ok (timeValList, ts)
    else
      match ts with
      | [] => .error .noMoreTokens
      | v :: ts1 =>
        match ts1 with
        | [] => .error .noMoreTokens
        | t :: ts2 =>
          parseInitListLoop (toLowerCase t) ts2
            (timeValList ++ [(atol token, firstChar (toLowerCase v))])

def parseInitList (ts : TokenStream)
    (inputStimulusMap : List (Token × List (SimTime × LogicVal))) :
    Except ParseError (List (Token × List (SimTime × LogicVal)) × TokenStream) :=
  match ts with
  | [] => .error .noMoreTokens
  | inp :: ts1 =>
    match ts1 with
    | [] => .error .noMoreTokens
    | t :: ts2 =>
      match parseInitListLoop (toLowerCase t) ts2 [] with
      | .error e => .error e
      | .ok (timeValList, rest) =>
        .ok (mapInsert inputStimulusMap (toLowerCase inp) timeValList, rest)

/-- The while loop of `parseNetlist` in a build with assertions; `token` is the
current, lower-cased token. After the inputs of a gate the next token is read:
when it starts with '#' it is the delay and one more token is read for the next
round; otherwise (`continue`) it is itself the token of the next round. In the
branch of an unknown gate type `assert (false)` aborts the program; the build
with `NDEBUG`, where it does not, is `parseNetlistLoopNDEBUG`. -/
def parseNetlistLoop (token : Token) :
    TokenStream → List GateRec → Except ParseError (List GateRec × TokenStream)
  | ts, gates =>
    if token = END then .ok (gates, ts)
    else if token ∈ oneInputGates then
      match ts with
      | [] => .error .noMoreTokens
      | o :: ts1 =>
        match ts1 with
        | [] => .error .noMoreTokens
        | i :: ts2 =>
          match ts2 with
          | [] => .error .noMoreTokens
          | d :: ts3 =>
            let g := ((GateRec.new.setName token).addOutput (toLowerCase o)).addInput
              (toLowerCase i)
            if firstChar (toLowerCase d) = '#' then
              match ts3 with
              | [] => .error .noMoreTokens
              | t :: ts4 =>
                parseNetlistLoop (toLowerCase t) ts4
                  (gates ++ [g.setDelay (atol (substr1 (toLowerCase d)))])
            else parseNetlistLoop (toLowerCase d) ts3 (gates ++ [g])
    else if token ∈ twoInputGates then
      match ts with
      | [] => .error .noMoreTokens
      | o :: ts1 =>
        match ts1 with
        | [] => .error .noMoreTokens
        | i1 :: ts2 =>
          match ts2 with
          | [] => .error .noMoreTokens
          | i2 :: ts3 =>
            match ts3 with
            | [] => .error .noMoreTokens
            | d :: ts4 =>
              let g := (((GateRec.new.setName token).addOutput (toLowerCase o)).addInput
                (toLowerCase i1)).addInput (toLowerCase i2)
              if firstChar (toLowerCase d) = '#' then
                match ts4 with
                | [] => .error .noMoreTokens
                | t :: ts5 =>
                  parseNetlistLoop (toLowerCase t) ts5
                    (gates ++ [g.setDelay (atol (substr1 (toLowerCase d)))])
              else parseNetlistLoop (toLowerCase d) ts4 (gates ++ [g])
    else .error (.unknownGateType token)

def parseNetlist (ts : TokenStream) (gates : List GateRec) :
    Except ParseError (List GateRec × TokenStream) :=
  match ts with
  | [] => .error .noMoreTokens
  | t :: ts1 => parseNetlistLoop (toLowerCase t) ts1 gates

/-- The while loop of `parseNetlist` in a build with `NDEBUG`, where
`assert (false)` is no statement: the branch of an unknown gate type prints
"Unknown type of gate" and goes on to the statement that ends the loop body,
`token = toLowerCase (tokenizer.nextToken ())`, so the token is skipped and the
loop goes on with the next one. The other branches are those of
`parseNetlistLoop`. A call of `nextToken` with no token left has no defined
behaviour in this build (a `std::string` is made from `NULL`); it stays
`ParseError.noMoreTokens`. -/
def parseNetlistLoopNDEBUG (token : Token) :
    TokenStream → List GateRec → Except ParseError (List GateRec × TokenStream)
  | ts, gates =>
    if token = END then .ok (gates, ts)
    else if token ∈ oneInputGates then
      match ts with
      | [] => .error .noMoreTokens
      | o :: ts1 =>
        match ts1 with
        | [] => .error .noMoreTokens
        | i :: ts2 =>
          match ts2 with
          | [] => .error .noMoreTokens
          | d :: ts3 =>
            let g := ((GateRec.new.setName token).addOutput (toLowerCase o)).addInput
              (toLowerCase i)
            if firstChar (toLowerCase d) = '#' then
              match ts3 with
              | [] => .error .noMoreTokens
              | t :: ts4 =>
                parseNetlistLoopNDEBUG (toLowerCase t) ts4
                  (gates ++ [g.setDelay (atol (substr1 (toLowerCase d)))])
            else parseNetlistLoopNDEBUG (toLowerCase d) ts3 (gates ++ [g])
    else if token ∈ twoInputGates then
      match ts with
      | [] => .error .noMoreTokens
      | o :: ts1 =>
        match ts1 with
        | [] => .error .noMoreTokens
        | i1 :: ts2 =>
          match ts2 with
          | [] => .error .noMoreTokens
          | i2 :: ts3 =>
            match ts3 with
            | [] => .error .noMoreTokens
            | d :: ts4 =>
              let g := (((GateRec.new.setName token).addOutput (toLowerCase o)).addInput
                (toLowerCase i1)).addInput (toLowerCase i2)
              if firstChar (toLowerCase d) = '#' then
                match ts4 with
                | [] => .error .noMoreTokens
                | t :: ts5 =>
                  parseNetlistLoopNDEBUG (toLowerCase t) ts5
                    (gates ++ [g.setDelay (atol (substr1 (toLowerCase d)))])
              else parseNetlistLoopNDEBUG (toLowerCase d) ts4 (gates ++ [g])
    else
      match ts with
      | [] => .error .noMoreTokens
      | t :: ts1 => parseNetlistLoopNDEBUG (toLowerCase t) ts1 gates

/-- The function `parseNetlist` in a build with `NDEBUG`. -/
def parseNetlistNDEBUG (ts : TokenStream) (gates : List GateRec) :
    Except ParseError (List GateRec × TokenStream) :=
  match ts with
  | [] => .error .noMoreTokens
  | t :: ts1 => parseNetlistLoopNDEBUG (toLowerCase t) ts1 gates

/-- The body of the outer while loop of `parse` for the lower-cased `token`:
the section is parsed into the members and the rest of the stream is returned.
A token that is no section keyword is skipped. -/
def parseSection (token : Token) (ts : TokenStream) (p : NetlistParser) :
    Except ParseError (NetlistParser × TokenStream) :=
  if token = "inputs".toList then
    match parsePortList ts p.inputNames with
    | .error e => .error e
    | .ok (names, rest) => .ok ({ p with inputNames := names }, rest)
  else if token = "outputs".toList then
    match parsePortList ts p.outputNames with
    | .error e => .error e
    | .ok (names, rest) => .ok ({ p with outputNames := names }, rest)
  else if token = "outvalues".toList then
    match parseOutValues ts p.outValues with
    | .error e => .error e
    | .ok (m, rest) => .ok ({ p with outValues := m }, rest)
  else if token = "finish".toList then
    match ts with
    | [] => .error .noMoreTokens
    | t :: rest => .ok ({ p with finishTime := some (atol (toLowerCase t)) }, rest)
  else if token = "initlist".toList then
    match parseInitList ts p.inputStimulusMap with
    | .error e => .error e
    | .ok (m, rest) => .ok ({ p with inputStimulusMap := m }, rest)
  else if token = "netlist".toList then
    match parseNetlist ts p.gates with
    | .error e => .error e
    | .ok (gs, rest) => .ok ({ p with gates := gs }, rest)
  else .ok (p, ts)

/-- The outer while loop of `parse`, `while (tokenizer.hasMoreTokens ())`, run
for at most `fuel` rounds. -/
def parseLoop : Nat → TokenStream → NetlistParser → Except ParseError NetlistParser
  | _, [], p => .ok p
  | 0, _ :: _, _ => .error .outOfFuel
  | fuel + 1, t :: ts, p =>
    match parseSection (toLowerCase t) ts p with
    | .error e => .error e
    | .ok (p1, rest) => parseLoop fuel rest p1

/-- The method `parse` continued from the members `p`: every round of the outer
loop takes at least one token, so the length of the stream bounds the rounds. -/
def parseFrom (p : NetlistParser) (ts : TokenStream) : Except ParseError NetlistParser :=
  parseLoop ts.length ts p

/-- The method `NetlistParser::parse` on the tokens of the file. -/
def parse (ts : TokenStream) : Except ParseError NetlistParser := parseFrom init ts

end NetlistParser

namespace NetlistParser

/-- The result of a loop on the lower-cased stream: the rest is lower-cased. -/
def lowerRest {α : Type} (r : Except ParseError (α × TokenStream)) :
    Except ParseError (α × TokenStream) :=
  match r with
  | .error e => .error e
  | .ok (a, rest) => .ok (a, rest.map toLowerCase)

end NetlistParser

/-! ## The netlist format -/

/-- A decimal numeral: a non-empty string of decimal digits. -/
def isNumeral (d : Token) : Prop := d ≠ [] ∧ ∀ c ∈ d, isdigit c = true

instance (d : Token) : Decidable (isNumeral d) := by
  unfold isNumeral; infer_instance

/-- The integer that a decimal numeral denotes. -/
def numeralValue (d : Token) : Nat := d.foldl (fun a c => 10 * a + digitVal c) 0

/-- The seven gate kinds of the format, in lower case. -/
def gateKinds : List Token :=
  ["inv".toList, "and2".toList, "or2".toList, "nand2".toList, "nor2".toList, "xor2".toList,
    "xnor2".toList]

/-- A gate record as it is written in a NETLIST section: the kind token, the
output net, the input nets and, when there is a delay token, the text after its
'#'. -/
structure GateText where
  kind : Token
  out : Token
  ins : List Token
  delay : Option Token
deriving DecidableEq, Repr

namespace GateText

/-- The tokens of a gate record, in file order. -/
def tokens (g : GateText) : List Token :=
  g.kind :: g.out :: (g.ins ++ (match g.delay with
    | none => []
    | some d => [('#' :: d)]))

/-- The kind is one of the seven kinds in any case, and the number of inputs is
the one of the kind. -/
def WellFormed (g : GateText) : Prop :=
  (toLowerCase g.kind ∈ NetlistParser.oneInputGates ∧ g.ins.length = 1) ∨
    (toLowerCase g.kind ∈ NetlistParser.twoInputGates ∧ g.ins.length = 2)

instance (g : GateText) : Decidable g.WellFormed := by
  unfold WellFormed; infer_instance

/-- The record that `parseNetlist` builds from a well-formed gate record. -/
def gateRec (g : GateText) : GateRec :=
  { name := toLowerCase g.kind, outputs := [toLowerCase g.out],
    inputs := g.ins.map toLowerCase,
    delay := g.delay.map (fun d => atol (toLowerCase d)) }

/-- The gate record without its delay token. -/
def dropDelay (g : GateText) : GateText := { g with delay := none }

end GateText

/-- The tokens of the gate records of a NETLIST section, in file order. -/
def recordTokens (recs : List GateText) : List Token := (recs.map GateText.tokens).flatten

/-- The name, the outputs and the inputs of a record. -/
def GateRec.shape (g : GateRec) : Token × List Token × List Token := (g.name, g.outputs, g.inputs)

/-- The kind and the arity of a record are those of the format: the name is one
of the seven kinds, there is one output, and one input for `inv`, two for the
other kinds. -/
def GateRec.KindAndArity (g : GateRec) : Prop :=
  g.name ∈ gateKinds ∧ g.outputs.length = 1 ∧
    (g.name = "inv".toList → g.inputs.length = 1) ∧
    (g.name ≠ "inv".toList → g.inputs.length = 2)

instance (g : GateRec) : Decidable g.KindAndArity := by
  unfold GateRec.KindAndArity; infer_instance

/-- The tokens of a text, split at blanks. -/
def toks (s : String) : TokenStream := (s.toList.splitOn ' ').filter (fun t => decide (t ≠ []))

/-- The record of a gate record with a numeral delay, in the words of the
format: the lower-cased kind, the lower-cased nets in file order and the integer
that the numeral denotes. -/
def GateText.denoted (g : GateText) : GateRec :=
  { name := toLowerCase g.kind, outputs := [toLowerCase g.out],
    inputs := g.ins.map toLowerCase,
    delay := g.delay.map (fun d => (numeralValue d : Int)) }

/-- The tokens of (first, second) entries, in file order. -/
def pairTokens (entries : List (Token × Token)) : List Token :=
  (entries.map (fun x => [x.1, x.2])).flatten

/-- A section of the netlist format as it is written in the file: the keyword
token, the tokens of the body, and the closing END token (FINISH has none). -/
inductive Section where
  | inputs (kw : Token) (nets : List Token) (e : Token)
  | outputs (kw : Token) (nets : List Token) (e : Token)
  | outvalues (kw : Token) (entries : List (Token × Token)) (e : Token)
  | finish (kw : Token) (time : Token)
  | initlist (kw : Token) (net : Token) (entries : List (Token × Token)) (e : Token)
  | netlist (kw : Token) (records : List GateText) (e : Token)
deriving DecidableEq, Repr

namespace Section

/-- The tokens of a section, in file order. -/
def tokens : Section → List Token
  | inputs kw nets e => kw :: (nets ++ [e])
  | outputs kw nets e => kw :: (nets ++ [e])
  | outvalues kw entries e => kw :: (pairTokens entries ++ [e])
  | finish kw time => [kw, time]
  | initlist kw net entries e => kw :: net :: (pairTokens entries ++ [e])
  | netlist kw records e => kw :: (recordTokens records ++ [e])

/-- The layout of a section is that of the format: the keyword and END are the
right words in any case, no net of a port list or of OUTVALUES and no time of
INITLIST reads as END, and the gate records are well formed. The tokens in
number position are not restricted. -/
def Shaped : Section → Prop
  | inputs kw nets e =>
    toLowerCase kw = "inputs".toList ∧ toLowerCase e = NetlistParser.END ∧
      ∀ n ∈ nets, toLowerCase n ≠ NetlistParser.END
  | outputs kw nets e =>
    toLowerCase kw = "outputs".toList ∧ toLowerCase e = NetlistParser.END ∧
      ∀ n ∈ nets, toLowerCase n ≠ NetlistParser.END
  | outvalues kw entries e =>
    toLowerCase kw = "outvalues".toList ∧ toLowerCase e = NetlistParser.END ∧
      ∀ x ∈ entries, toLowerCase x.1 ≠ NetlistParser.END
  | finish kw _ => toLowerCase kw = "finish".toList
  | initlist kw _ entries e =>
    toLowerCase kw = "initlist".toList ∧ toLowerCase e = NetlistParser.END ∧
      ∀ x ∈ entries, toLowerCase x.1 ≠ NetlistParser.END
  | netlist kw records e =>
    toLowerCase kw = "netlist".toList ∧ toLowerCase e = NetlistParser.END ∧
      ∀ g ∈ records, g.WellFormed

instance (s : Section) : Decidable s.Shaped := by
  cases s <;> (unfold Shaped; infer_instance)

/-- The tokens in number position (the time of FINISH, the times of INITLIST,
the delays of the gate records) are decimal numerals that denote an integer of
at most 2^63 - 1. -/
def Numbered : Section → Prop
  | finish _ time => isNumeral time ∧ numeralValue time ≤ 2 ^ 63 - 1
  | initlist _ _ entries _ => ∀ x ∈ entries, isNumeral x.1 ∧ numeralValue x.1 ≤ 2 ^ 63 - 1
  | netlist _ records _ =>
    ∀ g ∈ records, ∀ d ∈ g.delay, isNumeral d ∧ numeralValue d ≤ 2 ^ 63 - 1
  | _ => True

instance (s : Section) : Decidable s.Numbered := by
  cases s <;> (unfold Numbered; infer_instance)

/-- The members of the parser after a section has been parsed from the members
`p`, as `parse` computes them. -/
def effect (p : NetlistParser) : Section → NetlistParser
  | inputs _ nets _ => { p with inputNames := p.inputNames ++ nets.map toLowerCase }
  | outputs _ nets _ => { p with outputNames := p.outputNames ++ nets.map toLowerCase }
  | outvalues _ entries _ =>
    { p with
      outValues := entries.foldl
        (fun m x => mapInsert m (toLowerCase x.1) (firstChar (toLowerCase x.2))) p.outValues }
  | finish _ time => { p with finishTime := some (atol (toLowerCase time)) }
  | initlist _ net entries _ =>
    { p with
      inputStimulusMap := mapInsert p.inputStimulusMap (toLowerCase net)
        (entries.map (fun x => (atol (toLowerCase x.1), firstChar (toLowerCase x.2)))) }
  | netlist _ records _ => { p with gates := p.gates ++ records.map GateText.gateRec }

/-- The lower-cased nets of an INPUTS section. -/
def inputNets : Section → List Token
  | inputs _ nets _ => nets.map toLowerCase
  | _ => []

/-- The lower-cased nets of an OUTPUTS section. -/
def outputNets : Section → List Token
  | outputs _ nets _ => nets.map toLowerCase
  | _ => []

/-- The entries of an OUTVALUES section: the lower-cased net and the first
character of the lower-cased value token. -/
def outValueEntries : Section → List (Token × LogicVal)
  | outvalues _ entries _ =>
    entries.map (fun x => (toLowerCase x.1, firstChar (toLowerCase x.2)))
  | _ => []

/-- The entry of an INITLIST section: the lower-cased net with its list of the
integer that each time numeral denotes and the first character of the
lower-cased value token. -/
def stimulusEntries : Section → List (Token × List (SimTime × LogicVal))
  | initlist _ net entries _ =>
    [(toLowerCase net,
      entries.map (fun x => ((numeralValue x.1 : Int), firstChar (toLowerCase x.2))))]
  | _ => []

/-- The records of a NETLIST section, with the integers that the delay numerals
denote. -/
def gateRecords : Section → List GateRec
  | netlist _ records _ => records.map GateText.denoted
  | _ => []

/-- The integer that the numeral of a FINISH section denotes. -/
def finishValue : Section → Option SimTime
  | finish _ time => some (numeralValue time : Int)
  | _ => none

end Section

/-- The tokens of a list of sections, in file order. -/
def sectionTokens (secs : List Section) : List Token := (secs.map Section.tokens).flatten

/-- The map that `std::map::insert` builds from entries inserted in order: of
several entries with one key the first is kept. -/
def mapOfEntries {β : Type} (entries : List (Token × β)) : List (Token × β) :=
  entries.foldl (fun m x => mapInsert m x.1 x.2) []

/-- The value of the last FINISH section, `none` when there is none. -/
def lastFinish (secs : List Section) : Option SimTime :=
  (secs.filterMap Section.finishValue).getLast?

/-- The scenario of the specification, section by section. -/
def scenarioSections : List Section :=
  [.inputs "INPUTS".toList ["a".toList, "b".toList] "END".toList,
   .outputs "OUTPUTS".toList ["c".toList] "END".toList,
   .outvalues "OUTVALUES".toList [("c".toList, "1".toList)] "END".toList,
   .finish "FINISH".toList "10".toList,
   .initlist "INITLIST".toList "a".toList [("0".toList, "1".toList)] "END".toList,
   .initlist "INITLIST".toList "b".toList [("0".toList, "1".toList)] "END".toList,
   .netlist "NETLIST".toList
     [⟨"and2".toList, "c".toList, ["a".toList, "b".toList], some "2".toList⟩] "END".toList]

/-- A netlist whose three tokens in number position are no numerals. -/
def malformedSections : List Section :=
  [.finish "FINISH".toList "soon".toList,
   .initlist "INITLIST".toList "a".toList [("x1".toList, "1".toList)] "END".toList,
   .netlist "NETLIST".toList
     [⟨"inv".toList, "o".toList, ["i".toList], some "fast".toList⟩] "END".toList]

/-! ## `BaseTwoInputGate` -/

/-- The members of `BaseTwoInputGate`. -/
structure BaseTwoInputGate where
  outputName : Token
  input1Name : Token
  input2Name : Token
  outputVal : LogicVal
  input1Val : LogicVal
  input2Val : LogicVal
deriving DecidableEq, Repr

namespace BaseTwoInputGate

/-- The constructor: the three names are taken, the three values start as '0'. -/
def new (outputName input1Name input2Name : Token) : BaseTwoInputGate :=
  { outputName := outputName, input1Name := input1Name, input2Name := input2Name,
    outputVal := '0', input1Val := '0', input2Val := '0' }

/-- The const method `hasInputName`: `input1Name == net || input2Name == net`. -/
def hasInputName (g : BaseTwoInputGate) (net : Token) : Bool :=
  decide (g.input1Name = net) || decide (g.input2Name = net)

/-- The const method `hasOutputName`: `outputName == net`. -/
def hasOutputName (g : BaseTwoInputGate) (net : Token) : Bool :=
  decide (g.outputName = net)

def getInput1Name (g : BaseTwoInputGate) : Token := g.input1Name

def setInput1Name (g : BaseTwoInputGate) (input1Name : Token) : BaseTwoInputGate :=
  { g with input1Name := input1Name }

def getInput1Val (g : BaseTwoInputGate) : LogicVal := g.input1Val

def setInput1Val (g : BaseTwoInputGate) (input1Val : LogicVal) : BaseTwoInputGate :=
  { g with input1Val := input1Val }

def getInput2Name (g : BaseTwoInputGate) : Token := g.input2Name

def setInput2Name (g : BaseTwoInputGate) (input2Name : Token) : BaseTwoInputGate :=
  { g with input2Name := input2Name }

def getInput2Val (g : BaseTwoInputGate) : LogicVal := g.input2Val

def setInput2Val (g : BaseTwoInputGate) (input2Val : LogicVal) : BaseTwoInputGate :=
  { g with input2Val := input2Val }

def getOutputName (g : BaseTwoInputGate) : Token := g.outputName

def setOutputName (g : BaseTwoInputGate) (outputName : Token) : BaseTwoInputGate :=
  { g with outputName := outputName }

def getOutputVal (g : BaseTwoInputGate) : LogicVal := g.outputVal

def setOutputVal (g : BaseTwoInputGate) (outputVal : LogicVal) : BaseTwoInputGate :=
  { g with outputVal := outputVal }

end BaseTwoInputGate

/-! ## Sections of a netlist, by kind -/

namespace Section

/-- The keyword of the format that a section stands under. -/
def keyword : Section → Token
  | inputs _ _ _ => "inputs".toList
  | outputs _ _ _ => "outputs".toList
  | outvalues _ _ _ => "outvalues".toList
  | finish _ _ => "finish".toList
  | initlist _ _ _ _ => "initlist".toList
  | netlist _ _ _ => "netlist".toList

/-- The value tokens of an OUTVALUES or INITLIST section, in file order. -/
def valueTokens : Section → List Token
  | outvalues _ entries _ => entries.map (fun x => x.2)
  | initlist _ _ entries _ => entries.map (fun x => x.2)
  | _ => []

/-- The records that `parseNetlist` builds from a NETLIST section. -/
def parsedGateRecords : Section → List GateRec
  | netlist _ records _ => records.map GateText.gateRec
  | _ => []

end Section

/-- A netlist without FINISH and without NETLIST section. -/
def portsOnlySections : List Section :=
  [.inputs "INPUTS".toList ["a".toList, "b".toList] "END".toList,
   .outputs "OUTPUTS".toList ["c".toList] "END".toList]

/-- A netlist in which the gates and2 and or2 both drive the net c, and the gate
inv drives the primary input a. -/
def twoDriverSections : List Section :=
  [.inputs "INPUTS".toList ["a".toList, "b".toList] "END".toList,
   .netlist "NETLIST".toList
     [⟨"and2".toList, "c".toList, ["a".toList, "b".toList], some "1".toList⟩,
      ⟨"or2".toList, "c".toList, ["a".toList, "b".toList], some "1".toList⟩,
      ⟨"inv".toList, "a".toList, ["c".toList], some "1".toList⟩] "END".toList]

/-- The text after '#' is read by `atol` with a minus sign: after white space it
starts with '-'. -/
def readsNegative (d : Token) : Bool :=
  ((toLowerCase d).dropWhile isspace).head? = some '-'


/-! ## The k-truss verifier (`exp/apps/ktruss/Verify.cpp`)

The graph is an `LC_CSR_Graph<void, unsigned int>`: the nodes are the numbers
below `g.size ()`, and each node has its array of edges, an edge being a
destination and an `unsigned int` of data. The parallel loops (`do_all_local`)
collect into bags and accumulators, whose content does not depend on the
schedule; they are run in node order here. -/

namespace KTruss

/-- The type `GNode`: a node number. -/
abbrev GNode := Nat

/-- An edge in the edge array of its source node. -/
structure CsrEdge where
  dst : GNode
  data : Nat
deriving DecidableEq, Repr

/-- The type `Graph`: the edge array of every node. -/
abbrev Graph := List (List CsrEdge)

/-- The type `Edge`, `std::pair<GNode, GNode>`. -/
abbrev Edge := GNode × GNode

/-- The constant `valid`. -/
def valid : Nat := 0

/-- The constant `removed`. -/
def removed : Nat := 1

/-- The range `g.edges (n)`; a node outside the graph has no edges here (the
source never asks for one). -/
def edges (g : Graph) (n : GNode) : List CsrEdge := g.getD n []

/-- The test `g.getEdgeData (e) & removed` on an edge. -/
def isRemoved (e : CsrEdge) : Bool := decide (e.data &&& removed ≠ 0)

/-- Modelled from the spec: the method `sortAllEdgesByDst` of the graph class is
missing (the specification does not describe the graph library); by its name it
sorts the edge array of every node by destination. -/
def sortAllEdgesByDst (g : Graph) : Graph :=
  g.map (fun adj => adj.insertionSort (fun a b => a.dst ≤ b.dst))

/-- The function `initialize` (a reserved word here): the edges are sorted by
destination and every edge is set to `removed`. -/
def initGraph (g : Graph) : Graph :=
  (sortAllEdgesByDst g).map (fun adj => adj.map (fun e => { e with data := removed }))

/-- Modelled from the spec: the method `findEdgeSortedByDst` of the graph class
is missing (the specification does not describe the graph library); by its name
and its use it searches the sorted edge array of a node for the first edge whose
destination is not below `d` (`std::lower_bound`) and returns its position when
that destination is `d`, and `edge_end`, here `none`, otherwise. -/
def findEdgeSortedByDst : List CsrEdge → GNode → Option Nat
  | [], _ => none
  | e :: es, d =>
    if e.dst < d then (findEdgeSortedByDst es d).map (fun i => i + 1)
    else if e.dst = d then some 0
    else none

/-- The assignment `g.getEdgeData (it) = v` through the edge at position `i` of
an edge array. -/
def setEdgeData : List CsrEdge → Nat → Nat → List CsrEdge
  | [], _, _ => []
  | e :: es, 0, v => { e with data := v } :: es
  | e :: es, i + 1, v => e :: setEdgeData es i v

/-- The statement `g.getEdgeData (g.findEdgeSortedByDst (n1, n2)) = valid`;
`none` when the edge is not found, where the source writes through `edge_end`. -/
def markValid (g : Graph) (n1 n2 : GNode) : Option Graph :=
  match findEdgeSortedByDst (edges g n1) n2 with
  | none => none
  | some i => some (g.set n1 (setEdgeData (edges g n1) i valid))

/-- The function `readTruss` on the pairs read from the truss file: both
directions of each pair are set to `valid`. -/
def readTruss : Graph → List Edge → Option Graph
  | g, [] => some g
  | g, (n1, n2) :: rest =>
    match markValid g n1 n2 with
    | none => none
    | some g1 =>
      match markValid g1 n2 n1 with
      | none => none
      | some g2 => readTruss g2 rest

/-- The while loop of `countValidEqual`, `while (true)`, for at most `fuel`
rounds; the two iterator ranges are the lists of edges from the iterator to the
end. A round skips the removed edges at the front of both ranges, returns when
one range is empty, and otherwise compares the two destinations. -/
def countValidEqualLoop : Nat → List CsrEdge → List CsrEdge → Nat → Option Nat
  | 0, _, _, _ => none
  | fuel + 1, srcI, dstI, retval =>
    match srcI.dropWhile isRemoved, dstI.dropWhile isRemoved with
    | [], _ => some retval
    | _ :: _, [] => some retval
    | s :: srcRest, d :: dstRest =>
      if s.dst < d.dst then countValidEqualLoop fuel srcRest (d :: dstRest) retval
      else if d.dst < s.dst then countValidEqualLoop fuel (s :: srcRest) dstRest retval
      else countValidEqualLoop fuel srcRest dstRest (retval + 1)

/-- The function `countValidEqual`; every round but the last moves an iterator,
so the two lengths bound the rounds (`countValidEqualLoop_isSome`). -/
def countValidEqual (g : Graph) (src dst : GNode) : Option Nat :=
  countValidEqualLoop ((edges g src).length + (edges g dst).length + 1) (edges g src)
    (edges g dst) 0

/-- The work list of `main`: for every node `n` the pairs `(n, dst)` of its edges
with `dst > n`. -/
def workList (g : Graph) : List Edge :=
  (List.range g.length).flatMap
    (fun n => ((edges g n).filter (fun e => decide (e.dst > n))).map (fun e => (n, e.dst)))

/-- The expression `g.getEdgeData (g.findEdgeSortedByDst (e.first, e.second)) & 0x1`;
the pairs of the work list are edges of the graph, so the edge is found. -/
def isRemovedEdge (g : Graph) (e : Edge) : Bool :=
  match findEdgeSortedByDst (edges g e.1) e.2 with
  | none => false
  | some i =>
    match (edges g e.1)[i]? with
    | none => false
    | some c => decide (c.data &&& 1 ≠ 0)

/-- The value of `support` for a pair of the work list. -/
def supportOf (g : Graph) (e : Edge) : Nat := (countValidEqual g e.1 e.2).getD 0

/-- The ways in which `main` ends. -/
inductive Outcome where
  /-- The message "trussNum >= 2" and `return -1`. -/
  | usage
  /-- The message "Verification succeeded" and `return 0`. -/
  | succeeded
  /-- The lines "should be invalid" and "should be valid" for the two bags, then
  `GALOIS_DIE ("Verification failed!")`. -/
  | failed (shouldBeInvalid shouldBeValid : List Edge)
deriving DecidableEq, Repr

/-- The bag `shouldBeInvalid`: the pairs of the work list that are not removed and
have `support < trussNum - 2`. -/
def shouldBeInvalid (g : Graph) (trussNum : Nat) : List Edge :=
  (workList g).filter (fun e => !isRemovedEdge g e && decide (supportOf g e < trussNum - 2))

/-- The bag `shouldBeValid`: the pairs of the work list that are removed and have
`support >= trussNum - 2` (the `else if` branch; its condition excludes the
first). -/
def shouldBeValid (g : Graph) (trussNum : Nat) : List Edge :=
  (workList g).filter (fun e =>
    !(!isRemovedEdge g e && decide (supportOf g e < trussNum - 2)) &&
      (isRemovedEdge g e && decide (supportOf g e ≥ trussNum - 2)))

/-- The part of `main` behind `readTruss`, for `trussNum >= 2`: the work list,
the two bags and the report. -/
def verify (g : Graph) (trussNum : Nat) : Outcome :=
  if (shouldBeInvalid g trussNum).isEmpty && (shouldBeValid g trussNum).isEmpty then
    .succeeded
  else .failed (shouldBeInvalid g trussNum) (shouldBeValid g trussNum)

/-- The function `main` on the input graph, the pairs of the truss file and
`trussNum`; `none` when `readTruss` writes through `edge_end`. The counts that
are printed, and the assertion on them that `NDEBUG` removes, change nothing. -/
def main (g : Graph) (truss : List Edge) (trussNum : Nat) : Option Outcome :=
  if 2 > trussNum then some .usage
  else
    match readTruss (initGraph g) truss with
    | none => none
    | some g1 => some (verify g1 trussNum)

/-- The destinations of the edges of an edge array that are not removed. -/
def validDsts (adj : List CsrEdge) : List GNode :=
  (adj.filter (fun e => !isRemoved e)).map CsrEdge.dst

/-- The nodes that `src` and `dst` both reach by an edge that is not removed. -/
def commonValidNeighbours (g : Graph) (src dst : GNode) : Finset GNode :=
  (validDsts (edges g src)).toFinset ∩ (validDsts (edges g dst)).toFinset

/-- The support of a pair of nodes: the number of their common neighbours over
edges that are not removed. -/
def support (g : Graph) (src dst : GNode) : Nat := (commonValidNeighbours g src dst).card

/-- The edge arrays are strictly increasing by destination: sorted, and no two
edges of a node have the same destination. -/
def StrictlySorted (g : Graph) : Prop :=
  ∀ adj ∈ g, (adj.map CsrEdge.dst).Pairwise (fun a b => a < b)

instance (g : Graph) : Decidable (StrictlySorted g) := by
  unfold StrictlySorted; infer_instance

/-- The graph has a valid (not removed) edge from `i` to `j`. -/
def ValidEdge (g : Graph) (i j : GNode) : Prop :=
  ∃ c ∈ edges g i, c.dst = j ∧ isRemoved c = false

/-- The graph has a removed edge from `i` to `j`. -/
def RemovedEdge (g : Graph) (i j : GNode) : Prop :=
  ∃ c ∈ edges g i, c.dst = j ∧ isRemoved c = true

/-- The triangle on the nodes 0, 1, 2 as an undirected graph, each edge stored
in both directions. -/
def triangle : Graph :=
  [[⟨1, 0⟩, ⟨2, 0⟩], [⟨0, 0⟩, ⟨2, 0⟩], [⟨0, 0⟩, ⟨1, 0⟩]]

/-- The graph on the nodes 0 and 1 with two parallel edges between them, each
stored in both directions. -/
def doubleEdge : Graph := [[⟨1, 0⟩, ⟨1, 0⟩], [⟨0, 0⟩, ⟨0, 0⟩]]

/-- The triangle after `initialize` and `readTruss` of the one pair (0, 1): the
edge between 0 and 1 is valid, the two others are removed. -/
def triangleOneValid : Graph :=
  [[⟨1, 0⟩, ⟨2, 1⟩], [⟨0, 0⟩, ⟨2, 1⟩], [⟨0, 1⟩, ⟨1, 1⟩]]

end KTruss


namespace KTruss

/-- The triangle in which the edge between 0 and 1 is removed and the two other
edges are valid. -/
def triangleTwoValid : Graph :=
  [[⟨1, 1⟩, ⟨2, 0⟩], [⟨0, 1⟩, ⟨2, 0⟩], [⟨0, 0⟩, ⟨1, 0⟩]]

end KTruss


/-! ## Sloan's reordering (`exp/apps/sloan/serial/sloan.cpp`)

The graph is an `LC_CSR_Graph<SNode, void>`: the nodes are the numbers below
`graph.size ()`, each with its `SNode` and its array of edge destinations. The
globals `graph`, `maxDist`, `perm` and `pq` are the fields of one record that the
functions pass on. The loops `Galois::do_all` run over the nodes in order. -/

namespace Sloan

/-- The type `GNode`: a node number. -/
abbrev GNode := Nat

/-- The weight `W1` of the distance. -/
def W1 : Nat := 1

/-- The weight `W2` of the degree. -/
def W2 : Nat := 2

/-- The status `INACTIVE` of `enum Statuses`. -/
def INACTIVE : Nat := 0

/-- The status `PREACTIVE`. -/
def PREACTIVE : Nat := 1

/-- The status `ACTIVE`. -/
def ACTIVE : Nat := 2

/-- The status `NUMBERED`. -/
def NUMBERED : Nat := 3

/-- The number of values of an `unsigned int`. -/
def UINT_SIZE : Nat := 2 ^ 32

/-- The constant `DIST_INFINITY`, `std::numeric_limits<unsigned int>::max () - 1`. -/
def DIST_INFINITY : Nat := 2 ^ 32 - 1 - 1

/-- The difference of two `unsigned int`, which wraps. -/
def usub (a b : Nat) : Nat := (a % UINT_SIZE + (UINT_SIZE - b % UINT_SIZE)) % UINT_SIZE

/-- The conversion of an `unsigned int` to `int` (two's complement). -/
def toInt (a : Nat) : Int :=
  if a % UINT_SIZE < 2 ^ 31 then ((a % UINT_SIZE : Nat) : Int)
  else ((a % UINT_SIZE : Nat) : Int) - 2 ^ 32

/-- The conversion of an `int` to `unsigned int`. -/
def toUnsigned (a : Int) : Nat := (a % 2 ^ 32).toNat

/-- The struct `SNode`. -/
structure SNode where
  id : Nat
  status : Nat
  dist : Nat
  degree : Nat
  prio : Int
deriving DecidableEq, Repr

/-- The type `Graph`: the edge destinations of every node, and the data of every
node number. -/
structure Graph where
  adj : List (List GNode)
  data : GNode → SNode

namespace Graph

/-- The number of nodes, `graph.size ()`. -/
def size (g : Graph) : Nat := g.adj.length

/-- The destinations of the edges of a node, from `edge_begin` to `edge_end`. -/
def edges (g : Graph) (n : GNode) : List GNode := g.adj.getD n []

/-- The reference `graph.getData (n)`, read. -/
def getData (g : Graph) (n : GNode) : SNode := g.data n

/-- The reference `graph.getData (n)`, assigned. -/
def setData (g : Graph) (n : GNode) (d : SNode) : Graph :=
  { g with data := Function.update g.data n d }

/-- A loop of `Galois::do_all (graph.begin (), graph.end (), f)` whose function
object changes the data of its own node only. -/
def mapData (g : Graph) (f : GNode → SNode → SNode) : Graph :=
  { g with data := fun n => if n < g.size then f n (g.data n) else g.data n }

end Graph

/-- The function `degree`. -/
def degree (g : Graph) (n : GNode) : Nat := (g.edges n).length

/-- The struct `UpdateRequest`. -/
structure UpdateRequest where
  node : GNode
  prio : Int
deriving DecidableEq, Repr

/-- The comparison `UpdateRequestLess`. -/
def UpdateRequestLess (a b : UpdateRequest) : Bool := decide (a.prio ≤ b.prio)

/-- The class `std::priority_queue` of the C++ library with the comparison
`UpdateRequestLess`: it holds its entries and hands out at the top an entry of
the greatest `prio`. Which of several entries of the greatest `prio` is at the
top is not laid down by the library; here it is the one that was pushed
first. -/
abbrev PriorityQueue := List UpdateRequest

namespace PriorityQueue

/-- The method `push`. -/
def push (q : PriorityQueue) (r : UpdateRequest) : PriorityQueue := q ++ [r]

/-- The method `top`; `none` on an empty queue, where the source has no defined
behaviour. -/
def top : PriorityQueue → Option UpdateRequest
  | [] => none
  | r :: rs =>
    match top rs with
    | none => some r
    | some t => if r.prio < t.prio then some t else some r

/-- The method `pop`: the entry at the top leaves the queue. -/
def pop (q : PriorityQueue) : PriorityQueue :=
  match top q with
  | none => q
  | some t => q.erase t

/-- The method `empty`. -/
def empty (q : PriorityQueue) : Bool := q.isEmpty

end PriorityQueue

/-- The globals `graph`, `maxDist`, `perm` and `pq`. -/
structure Globals where
  graph : Graph
  maxDist : Nat
  perm : List GNode
  pq : PriorityQueue

/-- The loop of `readGraph` behind `Galois::Graph::readGraph`: every node gets
the distance `DIST_INFINITY` and its position as id; the source and the terminal
are the nodes at the positions `startNode` and `terminalNode`, and the program
aborts (`none`) when one of them is not found. -/
def readGraph (g : Graph) (startNode terminalNode : Nat) : Option (Graph × GNode × GNode) :=
  if startNode < g.size ∧ terminalNode < g.size then
    some (g.mapData (fun n d => { d with dist := DIST_INFINITY, id := n % UINT_SIZE }),
      startNode, terminalNode)
  else none

/-! ### `SerialSloan::bfsFn` -/

/-- The body of the edge loop of `bfsFn::operator ()` for the destination `dst`:
when the distance of `dst` is above `newDist` it becomes `newDist` and `dst` is
pushed. The compare-and-swap succeeds at once, as no other thread runs. -/
def bfsRelax (newDist : Nat) (st : Graph × List GNode) (dst : GNode) : Graph × List GNode :=
  if newDist < (st.1.getData dst).dist then
    (st.1.setData dst { st.1.getData dst with dist := newDist }, st.2 ++ [dst])
  else st

/-- The operator `bfsFn::operator ()` on the node `n`: the new graph, the new
`maxDist` and the nodes pushed to the context, in the order of the pushes. -/
def bfsOperator (g : Graph) (maxDist : Nat) (n : GNode) : Graph × Nat × List GNode :=
  (((g.edges n).foldl (bfsRelax (((g.getData n).dist + 1) % UINT_SIZE)) (g, [])).1,
    (if maxDist < (g.getData n).dist then (g.getData n).dist else maxDist),
    ((g.edges n).foldl (bfsRelax (((g.getData n).dist + 1) % UINT_SIZE)) (g, [])).2)

/-- The loop `Galois::for_each` with the operator `bfsFn`, for at most `fuel`
applications of the operator. The work list hands out its pending nodes in an
order of its own: `sched k` picks, at the application number `k`, the position
of the node in the list of pending nodes (modulo its length). The loop ends when
no node is pending. -/
def bfsForEach : Nat → (Nat → Nat) → Graph → Nat → List GNode → Option (Graph × Nat)
  | _, _, g, maxDist, [] => some (g, maxDist)
  | 0, _, _, _, _ :: _ => none
  | fuel + 1, sched, g, maxDist, w :: ws =>
    bfsForEach fuel (fun k => sched (k + 1))
      (bfsOperator g maxDist ((w :: ws).getD (sched 0 % (w :: ws).length) w)).1
      (bfsOperator g maxDist ((w :: ws).getD (sched 0 % (w :: ws).length) w)).2.1
      ((w :: ws).eraseIdx (sched 0 % (w :: ws).length) ++
        (bfsOperator g maxDist ((w :: ws).getD (sched 0 % (w :: ws).length) w)).2.2)

/-- A number of applications that is enough for `bfsForEach` on the graph: every
application takes a node from the work list, and every push lowers a distance. -/
def bfsFuel (g : Graph) : Nat := g.size * DIST_INFINITY + 2

/-- The function `bfsFn::go`: the distance of `source` becomes 0 and the loop
starts from `source`. -/
def bfsGo (sched : Nat → Nat) (p : Globals) (source : GNode) : Option Globals :=
  match bfsForEach (bfsFuel p.graph) sched
      (p.graph.setData source { p.graph.getData source with dist := 0 }) p.maxDist [source] with
  | none => none
  | some r => some { p with graph := r.1, maxDist := r.2 }

/-! ### `SerialSloan::initFn` -/

/-- The value `W1 * data.dist - W2 * (data.degree + 1)`, computed in
`unsigned int` and converted to the `int` member `prio`. -/
def initPrio (dist degree : Nat) : Int :=
  toInt (usub (W1 * dist % UINT_SIZE) (W2 * ((degree + 1) % UINT_SIZE) % UINT_SIZE))

/-- The operator `initFn::operator ()` on the data of the node `n`. -/
def initOperator (g : Graph) (n : GNode) (d : SNode) : SNode :=
  { d with
    status := INACTIVE
    degree := degree g n % UINT_SIZE
    prio := initPrio d.dist (degree g n % UINT_SIZE) }

/-- The function `initFn::go`. -/
def initGo (p : Globals) : Globals :=
  { p with graph := p.graph.mapData (initOperator p.graph) }

/-! ### `SerialSloan::sloanFn` -/

/-- The body of the loop over the children of a preactive parent, which is also
the body of the loop over the grandchildren: a node that is not numbered becomes
preactive when it was inactive, its `prio` grows by `W2`, and a request for it is
pushed. -/
def raisePrio (st : Graph × PriorityQueue) (child : GNode) : Graph × PriorityQueue :=
  if (st.1.getData child).status = NUMBERED then st
  else
    (st.1.setData child
      { st.1.getData child with
        status := if (st.1.getData child).status = INACTIVE then PREACTIVE
          else (st.1.getData child).status
        prio := (st.1.getData child).prio + W2 },
     st.2.push ⟨child, (st.1.getData child).prio + W2⟩)

/-- The body of the second loop over the children of the parent: a preactive
child becomes active, its `prio` grows by `W2`, a request for it is pushed, and
its own children are raised. -/
def activate (st : Graph × PriorityQueue) (child : GNode) : Graph × PriorityQueue :=
  if (st.1.getData child).status = PREACTIVE then
    (st.1.edges child).foldl raisePrio
      (st.1.setData child
        { st.1.getData child with
          status := ACTIVE
          prio := (st.1.getData child).prio + W2 },
       st.2.push ⟨child, (st.1.getData child).prio + W2⟩)
  else st

/-- The loop `while (status of next.node == NUMBERED)` for at most `fuel` rounds:
it stops at an empty queue, and otherwise takes the next request from the top. -/
def skipNumbered (g : Graph) :
    Nat → UpdateRequest → PriorityQueue → Option (UpdateRequest × PriorityQueue)
  | 0, _, _ => none
  | fuel + 1, next, pq =>
    if (g.getData next.node).status = NUMBERED then
      match pq.top with
      | none => some (next, pq)
      | some t => skipNumbered g fuel t pq.pop
    else some (next, pq)

/-- The state after the parent, the node of the request taken from the queue,
has been numbered: the children of a preactive parent are raised, the parent is
numbered and appended to `perm`, and its preactive children are activated. -/
def numberParent (p : Globals) (parent : GNode) (pq : PriorityQueue) : Globals :=
  { p with
    graph :=
      ((p.graph.edges parent).foldl activate
        (((if (p.graph.getData parent).status = PREACTIVE then
              (p.graph.edges parent).foldl raisePrio (p.graph, pq)
            else (p.graph, pq)).1.setData parent
            { (if (p.graph.getData parent).status = PREACTIVE then
                (p.graph.edges parent).foldl raisePrio (p.graph, pq)
              else (p.graph, pq)).1.getData parent with status := NUMBERED }),
          (if (p.graph.getData parent).status = PREACTIVE then
              (p.graph.edges parent).foldl raisePrio (p.graph, pq)
            else (p.graph, pq)).2)).1
    perm := p.perm ++ [parent]
    pq :=
      ((p.graph.edges parent).foldl activate
        (((if (p.graph.getData parent).status = PREACTIVE then
              (p.graph.edges parent).foldl raisePrio (p.graph, pq)
            else (p.graph, pq)).1.setData parent
            { (if (p.graph.getData parent).status = PREACTIVE then
                (p.graph.edges parent).foldl raisePrio (p.graph, pq)
              else (p.graph, pq)).1.getData parent with status := NUMBERED }),
          (if (p.graph.getData parent).status = PREACTIVE then
              (p.graph.edges parent).foldl raisePrio (p.graph, pq)
            else (p.graph, pq)).2)).2 }

/-- One round of the loop `for (int i = 0; i < graph.size (); ++i)`; `none`
when `pq.top ()` is called on an empty queue. -/
def sloanRound (p : Globals) : Option Globals :=
  match p.pq.top with
  | none => none
  | some next0 =>
    match skipNumbered p.graph (p.pq.pop.length + 1) next0 p.pq.pop with
    | none => none
    | some r => some (numberParent p r.1.node r.2)

/-- The loop `for (int i = 0; i < graph.size (); ++i)`, `n` rounds of it. -/
def sloanLoop : Nat → Globals → Option Globals
  | 0, p => some p
  | n + 1, p =>
    match sloanRound p with
    | none => none
    | some p1 => sloanLoop n p1

/-- The operator `sloanFn::operator ()`: the source becomes preactive, a request
for it is pushed, and the loop runs `graph.size ()` rounds. -/
def sloanFn (p : Globals) (source : GNode) : Option Globals :=
  sloanLoop p.graph.size
    { p with
      graph := p.graph.setData source { p.graph.getData source with status := PREACTIVE }
      pq := p.pq.push ⟨source, (p.graph.getData source).prio⟩ }

/-- The function `SerialSloan::go`: `bfsFn::go (terminal)`, `initFn::go ()` and
`sloanFn::go (source)`. -/
def go (sched : Nat → Nat) (p : Globals) (source terminal : GNode) : Option Globals :=
  match bfsGo sched p terminal with
  | none => none
  | some p1 => sloanFn (initGo p1) source

/-! ### The functions around the algorithm -/

/-- The function `resetGraph`: `resetNode` on every node, and `perm.clear ()`. -/
def resetGraph (p : Globals) : Globals :=
  { p with
    graph := p.graph.mapData (fun _ d => { d with dist := DIST_INFINITY })
    perm := [] }

/-- The function object `not_consistent` on the node `n`. -/
def not_consistent (g : Graph) (n : GNode) : Bool :=
  (g.edges n).any (fun dst =>
    decide ((g.getData dst).dist > ((g.getData n).dist + 1) % UINT_SIZE))

/-- The function object `not_visited` on the node `n`. -/
def not_visited (g : Graph) (n : GNode) : Bool :=
  decide ((g.getData n).dist ≥ DIST_INFINITY)

/-- The function `verify`; the statistics that it prints are left out. -/
def verify (g : Graph) (source : GNode) : Bool :=
  if (g.getData source).dist ≠ 0 then false
  else
    !(List.range g.size).any (not_consistent g) && !(List.range g.size).any (not_visited g)

/-- The statement `unsigned int diff = abs (sdata.id - ddata.id)`: the
difference wraps, `abs` takes it as an `int`, and the result is converted
back. -/
def absDiff (sid did : Nat) : Nat :=
  toUnsigned ((toInt (usub sid did)).natAbs : Int)

/-- The place at which a thread stands in the edge loop of
`banddiff::operator ()` between two accesses to the shared `maxband`, with its
locals `diff` and `max`. -/
inductive BandPc where
  /-- Before `unsigned int max = maxband`. -/
  | read (diff : Nat)
  /-- Before `maxband.cas (max, diff)`, the condition of the while loop. -/
  | cas (diff max : Nat)
  /-- In the body of the while loop, before `max = maxband`. -/
  | reread (diff : Nat)
deriving DecidableEq, Repr

/-- One access of a thread to `maxband`; the thread's work is the list of the
passes of the edge loop that it has still to do, the first one under way.
At `read`: `max = maxband; if (diff > max)` enters the while loop, otherwise the
pass is over. At `cas`: `maxband.cas (max, diff)` stores `diff` when `maxband` is
`max` still, and the pass is over; otherwise the body of the loop is entered.
At `reread`: `max = maxband; if (!diff > max) break;`, where `!diff > max` is
`(!diff) > max`, the comparison of 1 (when `diff` is 0) or 0 with `max`;
then the condition of the loop is tried again. -/
def banddiffStep (maxband : Nat) : List BandPc → Nat × List BandPc
  | [] => (maxband, [])
  | .read diff :: rest =>
    if diff > maxband then (maxband, .cas diff maxband :: rest) else (maxband, rest)
  | .cas diff max :: rest =>
    if maxband = max then (diff, rest) else (maxband, .reread diff :: rest)
  | .reread diff :: rest =>
    if (if diff = 0 then 1 else 0) > maxband then (maxband, rest)
    else (maxband, .cas diff maxband :: rest)

/-- The values of `diff` in the passes of the edge loop of `banddiff::operator ()`
on the node `source`; `bandwidth` does not change the ids. -/
def banddiffDiffs (g : Graph) (source : GNode) : List Nat :=
  (g.edges source).map (fun dst => absDiff (g.getData source).id (g.getData dst).id)

/-- The operator `banddiff::operator ()` on the node `source`, as the work that
it is for its thread: one pass of the edge loop for every edge. -/
def banddiff (g : Graph) (source : GNode) : List BandPc :=
  (banddiffDiffs g source).map BandPc.read

/-- The loop `Galois::do_all (graph.begin (), graph.end (), banddiff (maxband))`
on the threads with the given work: `sched` names, access by access, the thread
that is the next to touch `maxband`. The result is `maxband` and the work left. -/
def doAllBanddiff (sched : List Nat) (maxband : Nat) (threads : List (List BandPc)) :
    Nat × List (List BandPc) :=
  sched.foldl
    (fun st i =>
      match st.2[i]? with
      | none => st
      | some th => ((banddiffStep st.1 th).1, st.2.set i (banddiffStep st.1 th).2))
    (maxband, threads)

/-- The function `bandwidth`: the value of `maxband` that is printed, when
`do_all` gives the thread `i` the nodes `work[i]` and the threads touch
`maxband` in the order `sched`; `none` when the schedule ends before every
thread has done its work (`do_all` returns when all operators have run). -/
def bandwidth (g : Graph) (work : List (List GNode)) (sched : List Nat) : Option Nat :=
  if (doAllBanddiff sched 0 (work.map (fun ns => ns.flatMap (banddiff g)))).2.all List.isEmpty
  then some (doAllBanddiff sched 0 (work.map (fun ns => ns.flatMap (banddiff g)))).1
  else none

/-- The values of `diff` over all edges of the graph, node after node. -/
def allDiffs (g : Graph) : List Nat := (List.range g.size).flatMap (banddiffDiffs g)

/-- The graph with the given edge arrays in which every node has its position
as id, the distance `DIST_INFINITY` and zeros elsewhere. -/
def freshGraph (adj : List (List GNode)) : Graph :=
  { adj := adj, data := fun n => ⟨n, 0, DIST_INFINITY, 0, 0⟩ }

/-- The globals at the start of the program on the given graph. -/
def startGlobals (g : Graph) : Globals := { graph := g, maxDist := 0, perm := [], pq := [] }

/-- The path of two nodes, 0 - 1. -/
def path2 : Graph := freshGraph [[1], [0]]

/-- The first-in first-out order of the work list. -/
def fifo : Nat → Nat := fun _ => 0

end Sloan

namespace Sloan

/-- The star with the centre 3 and the leaves 0, 1, 2. -/
def star3 : Graph := freshGraph [[3], [3], [3], [0, 1, 2]]

/-- The graph of six nodes with the two edges 0 - 2 and 3 - 4. -/
def twoPairs : Graph := freshGraph [[2], [], [0], [4], [3], []]

end Sloan


/-! ## The simulator of the specification

The gate evaluator, the scheduler and the simulation driver are not among the
sources; they are modelled from sections 3 and 4 of the specification. -/

namespace Simulator

/-- Modelled from the spec: the logic values are missing (the evaluator is not
among the sources); section 3 gives a net a `value ∈ {0, 1, X}`, X being the
undefined value. -/
inductive Value where
  | zero
  | one
  | X
deriving DecidableEq, Repr

/-- Modelled from the spec: the gate kinds are missing as a type; section 3 has
`kind ∈ {INV} ∪ {AND2, OR2, NAND2, NOR2, XOR2, XNOR2}`. -/
inductive GateKind where
  | INV
  | AND2
  | OR2
  | NAND2
  | NOR2
  | XOR2
  | XNOR2
deriving DecidableEq, Repr

namespace GateKind

/-- The number of inputs of a kind: "arity fixed by kind (1 or 2 inputs)". -/
def arity : GateKind → Nat
  | INV => 1
  | _ => 2

/-- The logic of a kind on defined inputs. -/
def logic : GateKind → List Bool → Bool
  | INV, [a] => !a
  | AND2, [a, b] => a && b
  | OR2, [a, b] => a || b
  | NAND2, [a, b] => !(a && b)
  | NOR2, [a, b] => !(a || b)
  | XOR2, [a, b] => xor a b
  | XNOR2, [a, b] => !(xor a b)
  | _, _ => false

/-- The controlling input value of a kind: the value of one input that fixes the
output whatever the other input is, if the kind has one. -/
def controlling : GateKind → Option Value
  | AND2 => some .zero
  | NAND2 => some .zero
  | OR2 => some .one
  | NOR2 => some .one
  | _ => none

end GateKind

/-- The defined values that a value stands for: X stands for both. -/
def Value.completions : Value → List Bool
  | .zero => [false]
  | .one => [true]
  | .X => [false, true]

/-- The ways to replace every undefined input by a defined value. -/
def completions : List Value → List (List Bool)
  | [] => [[]]
  | v :: vs => v.completions.flatMap (fun b => (completions vs).map (fun bs => b :: bs))

/-- Modelled from the spec: the gate evaluator is missing; section 4.3 makes it a
"pure function of gate kind and current input values to an output value, using a
small three-valued truth table per kind (any input X yields output X except
where logic forces a result regardless)". The output is the defined value that
the logic of the kind gives for every replacement of the undefined inputs, and X
when the replacements do not agree. -/
def evalGate (k : GateKind) (inputs : List Value) : Value :=
  if (completions inputs).all (fun bs => k.logic bs) then .one
  else if (completions inputs).all (fun bs => !k.logic bs) then .zero
  else .X

end Simulator

namespace Simulator

/-- A net is known by its name. -/
abbrev Net := Token

/-- Modelled from the spec: the gates of the circuit model are missing; section 3
gives a gate its kind, its input nets and output net, a delay of non-negative
integer time units, and the cached `currentOutputValue`. -/
structure Gate where
  kind : GateKind
  inputNets : List Net
  outputNet : Net
  delay : Nat
  currentOutputValue : Value
deriving DecidableEq, Repr

/-- Modelled from the spec: the events are missing; section 3 has
`(time, net, newValue, sequence)`. -/
structure Event where
  time : SimTime
  net : Net
  newValue : Value
  sequence : Nat
deriving DecidableEq, Repr

/-- Modelled from the spec: the scheduler is missing; section 4.2 makes it a
structure over events ordered by `(time, sequence)`. It is kept here as the list
of the pending events. -/
abbrev Scheduler := List Event

namespace Scheduler

/-- The operation `push`. -/
def push (q : Scheduler) (e : Event) : Scheduler := q ++ [e]

/-- The operation `peekTime`: the least time of a pending event, if there is
one. -/
def peekTime : Scheduler → Option SimTime
  | [] => none
  | e :: q =>
    match peekTime q with
    | none => some e.time
    | some t => some (min e.time t)

/-- The events that a round at the time `t` pops: "all events currently at
exactly `currentSimTime`", in the order of their sequence numbers. -/
def round (q : Scheduler) (t : SimTime) : List Event :=
  (q.filter (fun e => decide (e.time = t))).insertionSort (fun a b => a.sequence ≤ b.sequence)

/-- The events that stay pending behind a round at the time `t`. -/
def rest (q : Scheduler) (t : SimTime) : Scheduler :=
  q.filter (fun e => !decide (e.time = t))

end Scheduler

/-- The states of the driver of section 4.4. -/
inductive Phase where
  | Running
  | Drained
  | Done
deriving DecidableEq, Repr

/-- Modelled from the spec: the simulation driver is missing; section 4.4 makes
it a state machine over `currentSimTime` and the contents of the scheduler. The
state holds the circuit model (the gates and the values of the nets), the
scheduler with the counter of the sequence numbers, and the finish time. -/
structure Driver where
  gates : List Gate
  values : Net → Value
  queue : Scheduler
  nextSequence : Nat
  currentSimTime : SimTime
  finishTime : SimTime
  phase : Phase

/-- Step 3 of the loop: "apply each popped event: set the target net's value". -/
def applyEvents (values : Net → Value) (evs : List Event) : Net → Value :=
  evs.foldl (fun v e => Function.update v e.net e.newValue) values

/-- The gate reads a net whose value is not the same behind the round as before
it. -/
def Gate.affected (g : Gate) (before after : Net → Value) : Bool :=
  g.inputNets.any (fun n => decide (after n ≠ before n))

/-- The evaluator asked to re-evaluate a gate at the time `t` (section 4.3): it
reads the input values and computes the output; when the output is the cached
value nothing happens, otherwise the cached value is updated and one event for
the output net is emitted at `t + delay`, with the next sequence number. The
state is the gates done so far, the events emitted and the counter. -/
def reevaluate (values : Net → Value) (t : SimTime) (st : List Gate × List Event × Nat)
    (g : Gate) : List Gate × List Event × Nat :=
  if evalGate g.kind (g.inputNets.map values) = g.currentOutputValue then
    (st.1 ++ [g], st.2.1, st.2.2)
  else
    (st.1 ++ [{ g with currentOutputValue := evalGate g.kind (g.inputNets.map values) }],
      st.2.1 ++ [⟨t + g.delay, g.outputNet, evalGate g.kind (g.inputNets.map values), st.2.2⟩],
      st.2.2 + 1)

/-- Step 4 of the loop: every gate that reads a changed net is re-evaluated
once, on the values behind the round; the other gates are kept. -/
def evaluateRound (before after : Net → Value) (t : SimTime) (gates : List Gate) (seq : Nat) :
    List Gate × List Event × Nat :=
  gates.foldl
    (fun st g => if g.affected before after then reevaluate after t st g
      else (st.1 ++ [g], st.2.1, st.2.2))
    ([], [], seq)

/-- Steps 2 to 4 of the loop for a round at the time `t`. -/
def doRound (d : Driver) (t : SimTime) : Driver :=
  { d with
    gates :=
      (evaluateRound d.values (applyEvents d.values (d.queue.round t)) t d.gates
        d.nextSequence).1
    values := applyEvents d.values (d.queue.round t)
    queue := d.queue.rest t ++
      (evaluateRound d.values (applyEvents d.values (d.queue.round t)) t d.gates
        d.nextSequence).2.1
    nextSequence :=
      (evaluateRound d.values (applyEvents d.values (d.queue.round t)) t d.gates
        d.nextSequence).2.2
    currentSimTime := t }

/-- One transition of the driver. From `Running`: when no event is pending, or
the least time of a pending event is beyond `finishTime`, the driver is
`Drained`; otherwise it does the round at that time. From `Drained` it goes to
`Done`, which is terminal. -/
def step (d : Driver) : Driver :=
  match d.phase with
  | .Done => d
  | .Drained => { d with phase := .Done }
  | .Running =>
    match d.queue.peekTime with
    | none => { d with phase := .Drained }
    | some t => if t > d.finishTime then { d with phase := .Drained } else doRound d t

/-- The driver after `n` transitions. -/
def run : Nat → Driver → Driver
  | 0, d => d
  | n + 1, d => run n (step d)

/-- The events of the stimulus list of one net, numbered from `seq` on. -/
def expandList (net : Net) : List (SimTime × Value) → Nat → List Event
  | [], _ => []
  | (t, v) :: tvs, seq => ⟨t, net, v, seq⟩ :: expandList net tvs (seq + 1)

/-- The expansion of the stimulus lists into the initial events (section 4.1),
numbered in the order of the lists from `seq` on. -/
def expandStimulus : List (Net × List (SimTime × Value)) → Nat → List Event
  | [], _ => []
  | (net, tvs) :: rest, seq => expandList net tvs seq ++ expandStimulus rest (seq + tvs.length)

/-- The driver at the start: every net and every cached output is X, the
scheduler holds the events of the stimulus, and the driver is `Running`. -/
def start (gates : List Gate) (stimulus : List (Net × List (SimTime × Value)))
    (finishTime : SimTime) : Driver :=
  { gates := gates
    values := fun _ => .X
    queue := expandStimulus stimulus 0
    nextSequence := (expandStimulus stimulus 0).length
    currentSimTime := 0
    finishTime := finishTime
    phase := .Running }

/-- The scenario of section 8, with a stimulus for `a` at the finish time 10 and
one for `b` at the time 11. -/
def scenario : Driver :=
  start [⟨.AND2, ["a".toList, "b".toList], "c".toList, 2, .X⟩]
    [("a".toList, [(0, .one), (10, .zero)]), ("b".toList, [(0, .one), (11, .zero)])] 10

/-- A NAND2 gate of delay 0 that reads its own output: once `a` is 1 and `n` is
defined, every round at the time 5 changes `n` and emits the next change for the
same time. The stimulus of `b` is scheduled at the finish time 10. -/
def oscillator : Driver :=
  start [⟨.NAND2, [['a'], ['n']], ['n'], 0, .X⟩]
    [(['a'], [(0, .zero), (5, .one)]), (['b'], [(10, .one)])] 10

/-- The defined value of a truth value. -/
def Value.ofBool (b : Bool) : Value := if b then .one else .zero

/-- The oscillator between two rounds at the time 5: `a` is 1, `n` has a defined
value, the gate has cached the other value and the change of `n` to it is
pending for the time 5, beside the event of `b` for the time 10. -/
def Oscillating (d : Driver) : Prop :=
  d.phase = .Running ∧ d.finishTime = 10 ∧
  ∃ (b : Bool) (s : Nat),
    d.gates = [⟨.NAND2, [['a'], ['n']], ['n'], 0, Value.ofBool b⟩] ∧
    d.values ['a'] = .one ∧ d.values ['n'] = Value.ofBool (!b) ∧
    d.queue = [⟨10, ['b'], .one, 2⟩, ⟨5, ['n'], Value.ofBool b, s⟩]

end Simulator


namespace KTruss

/-- The body of the edge loop of `countValidNodesAndEdges` for the node `n`, on
the local `numN` and the accumulator `numEdges`. -/
def countEdge (n : GNode) (st : Nat × Nat) (e : CsrEdge) : Nat × Nat :=
  if !isRemoved e then (1, if e.dst > n then st.2 + 1 else st.2) else st

/-- The function object of `countValidNodesAndEdges` on the node `n`, on the
accumulators `numNodes` and `numEdges`. -/
def countNode (g : Graph) (acc : Nat × Nat) (n : GNode) : Nat × Nat :=
  (acc.1 + ((edges g n).foldl (countEdge n) (0, acc.2)).1,
    ((edges g n).foldl (countEdge n) (0, acc.2)).2)

/-- The function `countValidNodesAndEdges`: the number of nodes with a valid
edge, and the number of valid edges with `dst > src`. -/
def countValidNodesAndEdges (g : Graph) : Nat × Nat :=
  (List.range g.length).foldl (countNode g) (0, 0)

/-- The graph is simple: no node has two edges to the same destination or an
edge to itself, and every destination is a node of the graph. -/
def Simple (g : Graph) : Prop :=
  ∀ n, ((edges g n).map CsrEdge.dst).Nodup ∧ ∀ e ∈ edges g n, e.dst ≠ n ∧ e.dst < g.length

/-- The number of valid neighbours of a node. -/
def validDegree (g : Graph) (n : GNode) : Nat := (validDsts (edges g n)).toFinset.card

end KTruss


namespace Sloan

/-- The distance member of the data of a node. -/
def dist (g : Graph) (v : Nat) : Nat := (g.getData v).dist

/-- A walk of `k` edges from `s` to a node. -/
inductive Walk (g : Graph) (s : Nat) : Nat → Nat → Prop where
  | nil : Walk g s s 0
  | snoc {u v k : Nat} : Walk g s u k → v ∈ g.edges u → Walk g s v (k + 1)

/-- The number `k` is the number of edges of a shortest path from `s` to `v`. -/
def IsDist (g : Graph) (s v k : Nat) : Prop := Walk g s v k ∧ ∀ j, Walk g s v j → k ≤ j

/-- Every edge leads to a node of the graph. -/
def WellFormed (g : Graph) : Prop := ∀ n : Nat, ∀ d ∈ g.edges n, d < g.size

/-- The sum of the distances of the nodes. -/
def distSum (g : Graph) : Nat := (Finset.range g.size).sum (fun v => dist g v)

/-- The invariant of the loop of `bfsFn` on the graph `g` from the source `s`, for
the graph `g1` and the list `wl` of pending nodes: no distance is above
`DIST_INFINITY`, the source has the distance 0, a smaller distance is the length
of a walk from the source, and every edge of a node that is not pending is
relaxed. -/
structure BfsInv (g : Graph) (s : Nat) (g1 : Graph) (wl : List Nat) : Prop where
  adj : g1.adj = g.adj
  bound : ∀ v : Nat, v < g.size → dist g1 v ≤ DIST_INFINITY
  source : dist g1 s = 0
  walk : ∀ v : Nat, v < g.size → dist g1 v < DIST_INFINITY → Walk g s v (dist g1 v)
  relaxed : ∀ u : Nat, u < g.size → u ∉ wl → ∀ v ∈ g.edges u, dist g1 v ≤ dist g1 u + 1

end Sloan

namespace Sloan

/-- The status member of the data of a node. -/
def status (g : Graph) (v : Nat) : Nat := (g.getData v).status

/-- The queue holds a request for the node. -/
def Queued (pq : PriorityQueue) (x : Nat) : Prop := ∃ r ∈ pq, r.node = x

/-- The node is neither inactive nor preactive. -/
def Settled (g : Graph) (u : Nat) : Prop := status g u ≠ INACTIVE ∧ status g u ≠ PREACTIVE

/-- How the graph and the queue `b` behind some pushes of requests come from the
graph and the queue `a` before them, in a graph of `N` nodes: the edges and the
numbered nodes are the same, a node that was not inactive is not inactive, the
requests of `a` are in `b` and the others are for nodes that are not inactive,
a node whose status differs has a request, and a node that has become settled
has no inactive child. -/
structure Ext (N : Nat) (a b : Graph × PriorityQueue) : Prop where
  adj : b.1.adj = a.1.adj
  numbered : ∀ x : Nat, status b.1 x = NUMBERED ↔ status a.1 x = NUMBERED
  touched : ∀ x : Nat, status a.1 x ≠ INACTIVE → status b.1 x ≠ INACTIVE
  keep : ∀ r ∈ a.2, r ∈ b.2
  fresh : ∀ r ∈ b.2, r ∈ a.2 ∨ (r.node < N ∧ status b.1 r.node ≠ INACTIVE)
  changed : ∀ x : Nat, status b.1 x ≠ status a.1 x → Queued b.2 x
  settled : ∀ x : Nat, Settled b.1 x →
    Settled a.1 x ∨ ∀ v ∈ b.1.edges x, status b.1 v ≠ INACTIVE

/-- The invariant of the loop of `sloanFn` on the graph `g` from `source`: `perm`
holds the numbered nodes, each once; every node that is neither numbered nor
inactive has a request in the queue, and every request is for a node of the
graph that is not inactive; a settled node has no inactive child; and the source
is not inactive. -/
structure SloanInv (g : Graph) (source : Nat) (p : Globals) : Prop where
  adj : p.graph.adj = g.adj
  permNodup : p.perm.Nodup
  permLt : ∀ x ∈ p.perm, x < g.size ∧ status p.graph x = NUMBERED
  numbered : ∀ x : Nat, x < g.size → status p.graph x = NUMBERED → x ∈ p.perm
  queued : ∀ x : Nat, x < g.size → status p.graph x ≠ NUMBERED →
    status p.graph x ≠ INACTIVE → Queued p.pq x
  entries : ∀ r ∈ p.pq, r.node < g.size ∧ status p.graph r.node ≠ INACTIVE
  settled : ∀ u : Nat, u < g.size → Settled p.graph u →
    ∀ v ∈ g.edges u, status p.graph v ≠ INACTIVE
  source : status p.graph source ≠ INACTIVE

/-- The path 0 - 1 beside the node 2, which has no edges. -/
def pathAndNode : Graph := freshGraph [[1], [0], []]

end Sloan


/-! # Theorems -/

/-! ## The tokenizer hands out the tokens of the file -/

theorem splitOnP_takeWhile_dropWhile (p : Char → Bool) (s : List Char) :
    s.splitOnP p = s.takeWhile (fun c => !p c) ::
      (match s.dropWhile (fun c => !p c) with
        | [] => []
        | _ :: r => r.splitOnP p) := by
  induction s with
  | nil => simp [List.splitOnP_nil]
  | cons x xs ih =>
    rw [List.splitOnP_cons]
    by_cases hx : p x = true
    · simp [hx, List.takeWhile_cons, List.dropWhile_cons]
    · rw [ih]
      simp [hx, List.takeWhile_cons, List.dropWhile_cons, List.modifyHead]

theorem lineTokens_nil (delim : List Char) : lineTokens delim [] = [] := by
  simp [lineTokens, List.splitOnP_nil]

theorem lineTokens_cons_delim (delim : List Char) (c : Char) (s : List Char)
    (hc : c ∈ delim) : lineTokens delim (c :: s) = lineTokens delim s := by
  simp [lineTokens, List.splitOnP_cons, hc]

theorem lineTokens_cons_tok (delim : List Char) (c : Char) (s : List Char)
    (hc : c ∉ delim) :
    lineTokens delim (c :: s) =
      (c :: s.takeWhile (fun c => !decide (c ∈ delim))) ::
        lineTokens delim (s.dropWhile (fun c => !decide (c ∈ delim))).tail := by
  unfold lineTokens
  rw [splitOnP_takeWhile_dropWhile]
  simp only [List.takeWhile_cons, List.dropWhile_cons, hc, decide_False, Bool.not_false,
    if_true]
  cases hd : s.dropWhile (fun c => !decide (c ∈ delim)) with
  | nil => simp [List.splitOnP_nil]
  | cons y r => simp

theorem strtok_spec (delim : List Char) (s : List Char) :
    (strtok delim s).1 = (lineTokens delim s).head? ∧
      lineTokens delim (strtok delim s).2 = (lineTokens delim s).tail := by
  induction s with
  | nil => simp [strtok, lineTokens_nil]
  | cons c s ih =>
    by_cases hc : c ∈ delim
    · have h1 : strtok delim (c :: s) = strtok delim s := by
        simp [strtok, List.dropWhile_cons, hc]
      rw [h1, lineTokens_cons_delim delim c s hc]
      exact ih
    · rw [lineTokens_cons_tok delim c s hc]
      simp [strtok, List.dropWhile_cons, List.takeWhile_cons, hc]

theorem strFind_eq_zero_iff (pat s : List Char) :
    strFind pat s = some 0 ↔ pat <+: s := by
  cases s with
  | nil =>
    simp only [strFind]
    by_cases hp : pat = []
    · simp [hp]
    · simp [hp]
  | cons c cs =>
    simp only [strFind]
    by_cases hp : pat.isPrefixOf (c :: cs) = true
    · simp only [hp, if_true, true_iff]
      exact List.isPrefixOf_iff_prefix.mp hp
    · have hn : ¬ pat <+: c :: cs := fun h => hp (List.isPrefixOf_iff_prefix.mpr h)
      simp only [hp, hn, iff_false]
      cases strFind pat cs <;> simp

theorem isCommentBegin_eq (comments : List Char) (tok : Token) :
    NetlistTokenizer.isCommentBegin comments tok = decide (comments <+: tok) := by
  unfold NetlistTokenizer.isCommentBegin
  by_cases h : comments <+: tok
  · simp [h, (strFind_eq_zero_iff comments tok).mpr h]
  · have := mt (strFind_eq_zero_iff comments tok).mp h
    simp [h, this]

theorem loopTokens_strtok (delim comments : List Char) (s : List Char)
    (lines : List (List Char)) :
    loopTokens delim comments (strtok delim s).1 (strtok delim s).2 lines =
      (lineTokens delim s).takeWhile (fun t => !decide (comments <+: t)) ++
        fileTokens delim comments lines := by
  obtain ⟨h1, h2⟩ := strtok_spec delim s
  unfold loopTokens
  rw [h1, h2]
  cases lineTokens delim s with
  | nil => simp
  | cons t ts =>
    by_cases hc : comments <+: t
    · simp [hc, List.takeWhile_cons]
    · simp [hc, List.takeWhile_cons]

theorem fileTokens_cons (delim comments : List Char) (l : List Char)
    (lines : List (List Char)) :
    fileTokens delim comments (l :: lines) =
      (lineTokens delim l).takeWhile (fun t => !decide (comments <+: t)) ++
        fileTokens delim comments lines := by
  simp [fileTokens, lineContribution]

theorem readNextTokenLoop_eq (delim comments : List Char) (lines : List (List Char))
    (eof : Bool) (tok : Option Token) (save : List Char) :
    NetlistTokenizer.readNextTokenLoop delim comments lines eof tok save =
      if tok = none ∨ tok.any (NetlistTokenizer.isCommentBegin comments) then
        if eof then (none, save, { lines := lines, eof := eof })
        else
          NetlistTokenizer.readNextTokenLoop delim comments
            (IfStream.getline { lines := lines, eof := eof }).2.lines
            (IfStream.getline { lines := lines, eof := eof }).2.eof
            (strtok delim (IfStream.getline { lines := lines, eof := eof }).1).1
            (strtok delim (IfStream.getline { lines := lines, eof := eof }).1).2
      else (tok, save, { lines := lines, eof := eof }) := by
  cases lines with
  | nil =>
    cases eof <;>
      simp [NetlistTokenizer.readNextTokenLoop, IfStream.getline, strtok]
  | cons l rest =>
    rw [NetlistTokenizer.readNextTokenLoop]
    simp [IfStream.getline]

theorem readNextTokenLoop_spec (delim comments : List Char) (lines : List (List Char)) :
    ∀ (eof : Bool) (tok : Option Token) (save : List Char),
      (eof = true → lines = []) →
      (match (NetlistTokenizer.readNextTokenLoop delim comments lines eof tok save) with
        | (none, _, ifs) => loopTokens delim comments tok save lines = [] ∧ ifs.eof = true
        | (some t, save1, ifs) =>
          loopTokens delim comments tok save lines =
            t :: ((lineTokens delim save1).takeWhile (fun t => !decide (comments <+: t)) ++
              fileTokens delim comments ifs.lines)) ∧
      ((NetlistTokenizer.readNextTokenLoop delim comments lines eof tok save).2.2.eof = true →
        (NetlistTokenizer.readNextTokenLoop delim comments lines eof tok save).2.2.lines = []) := by
  induction lines with
  | nil =>
    intro eof tok save _
    unfold NetlistTokenizer.readNextTokenLoop
    cases tok with
    | none => cases eof <;> simp [loopTokens, fileTokens]
    | some t =>
      by_cases hc : comments <+: t
      · cases eof <;> simp [loopTokens, fileTokens, isCommentBegin_eq, hc]
      · simp [loopTokens, fileTokens, isCommentBegin_eq, hc]
  | cons l rest ih =>
    intro eof tok save he
    have hf : eof = false := by
      cases eof with
      | false => rfl
      | true => exact absurd (he rfl) (by simp)
    subst hf
    have hrest : (rest.isEmpty = true → rest = []) := by
      intro h; exact List.isEmpty_iff.mp h
    have key := ih rest.isEmpty (strtok delim l).1 (strtok delim l).2 hrest
    rw [loopTokens_strtok, ← fileTokens_cons] at key
    unfold NetlistTokenizer.readNextTokenLoop
    cases tok with
    | none => simpa [loopTokens] using key
    | some t =>
      by_cases hc : comments <+: t
      · simpa [loopTokens, isCommentBegin_eq, hc] using key
      · simp [loopTokens, isCommentBegin_eq, hc]

theorem readNextToken_spec (tk : NetlistTokenizer) (h : tk.ifs.eof = true → tk.ifs.lines = []) :
    (NetlistTokenizer.readNextToken tk).pending = tk.ahead ∧
      (NetlistTokenizer.readNextToken tk).Inv ∧
      (NetlistTokenizer.readNextToken tk).delim = tk.delim ∧
      (NetlistTokenizer.readNextToken tk).comments = tk.comments := by
  have key := readNextTokenLoop_spec tk.delim tk.comments tk.ifs.lines tk.ifs.eof
    (strtok tk.delim tk.strtokSave).1 (strtok tk.delim tk.strtokSave).2 h
  rw [loopTokens_strtok] at key
  unfold NetlistTokenizer.pending NetlistTokenizer.Inv NetlistTokenizer.readNextToken
  unfold NetlistTokenizer.ahead
  rcases hr : NetlistTokenizer.readNextTokenLoop tk.delim tk.comments tk.ifs.lines tk.ifs.eof
    (strtok tk.delim tk.strtokSave).1 (strtok tk.delim tk.strtokSave).2 with ⟨tok1, save1, ifs1⟩
  rw [hr] at key
  cases tok1 with
  | none =>
    obtain ⟨⟨k1, k2⟩, k3⟩ := key
    simp only at k1 k2 k3
    simp [k1, k2, k3]
  | some t =>
    obtain ⟨k1, k3⟩ := key
    simp only at k1 k3
    simp [k1]
    exact k3

theorem newAtEnd_spec (file : List (List Char)) (delim comments : List Char) :
    (NetlistTokenizer.newAtEnd file delim comments).pending = fileTokens delim comments file ∧
      (NetlistTokenizer.newAtEnd file delim comments).Inv ∧
      (NetlistTokenizer.newAtEnd file delim comments).delim = delim ∧
      (NetlistTokenizer.newAtEnd file delim comments).comments = comments := by
  have h := readNextToken_spec
    { ifs := { lines := file, eof := false }, delim := delim, comments := comments,
      strtokSave := [], nextTokPtr := none } (by simp)
  simpa [NetlistTokenizer.newAtEnd, NetlistTokenizer.opened, NetlistTokenizer.ahead,
    lineTokens_nil] using h

theorem hasMoreTokens_iff (tk : NetlistTokenizer) (h : tk.Inv) :
    NetlistTokenizer.hasMoreTokens tk = true ↔ tk.pending ≠ [] := by
  unfold NetlistTokenizer.hasMoreTokens NetlistTokenizer.pending
  obtain ⟨_, h2⟩ := h
  cases hn : tk.nextTokPtr with
  | none => simp [h2 hn]
  | some t => simp

theorem nextToken_spec (tk : NetlistTokenizer) (h : tk.Inv) (t : Token) (ts : List Token)
    (hp : tk.pending = t :: ts) :
    ∃ tk1, NetlistTokenizer.nextToken tk = some (t, tk1) ∧ tk1.pending = ts ∧ tk1.Inv := by
  unfold NetlistTokenizer.pending at hp
  cases hn : tk.nextTokPtr with
  | none => simp [hn] at hp
  | some t1 =>
    simp only [hn, List.cons.injEq] at hp
    obtain ⟨r1, r2, _, _⟩ := readNextToken_spec tk h.1
    refine ⟨NetlistTokenizer.readNextToken tk, ?_, ?_, r2⟩
    · simp [NetlistTokenizer.nextToken, hn, hp.1]
    · rw [r1, hp.2]

theorem nextToken_none (tk : NetlistTokenizer) (hp : tk.pending = []) :
    NetlistTokenizer.nextToken tk = none := by
  unfold NetlistTokenizer.pending at hp
  cases hn : tk.nextTokPtr with
  | none => simp [NetlistTokenizer.nextToken, hn]
  | some t1 => simp [hn] at hp

theorem drain_spec : ∀ (fuel : Nat) (tk : NetlistTokenizer), tk.Inv →
    tk.pending.length ≤ fuel → NetlistTokenizer.drain fuel tk = some tk.pending := by
  intro fuel
  induction fuel with
  | zero =>
    intro tk hi hl
    have hnil : tk.pending = [] := List.eq_nil_of_length_eq_zero (Nat.le_zero.mp hl)
    have hm : NetlistTokenizer.hasMoreTokens tk = false := by
      cases hh : NetlistTokenizer.hasMoreTokens tk with
      | false => rfl
      | true => exact absurd hnil ((hasMoreTokens_iff tk hi).mp hh)
    simp [NetlistTokenizer.drain, hm, hnil]
  | succ n ih =>
    intro tk hi hl
    cases hp : tk.pending with
    | nil =>
      have hm : NetlistTokenizer.hasMoreTokens tk = false := by
        cases hh : NetlistTokenizer.hasMoreTokens tk with
        | false => rfl
        | true => exact absurd hp ((hasMoreTokens_iff tk hi).mp hh)
      simp [NetlistTokenizer.drain, hm]
    | cons t ts =>
      have hm : NetlistTokenizer.hasMoreTokens tk = true :=
        (hasMoreTokens_iff tk hi).mpr (by simp [hp])
      obtain ⟨tk1, e1, e2, e3⟩ := nextToken_spec tk hi t ts hp
      have hl1 : tk1.pending.length ≤ n := by
        rw [hp] at hl
        rw [e2]
        simpa using hl
      simp [NetlistTokenizer.drain, hm, e1, ih tk1 e3 hl1, e2]

theorem afterCalls_spec : ∀ (k : Nat) (tk : NetlistTokenizer), tk.Inv →
    (k ≤ tk.pending.length → ∃ tk1, NetlistTokenizer.afterCalls k tk = some tk1) ∧
      (∀ tk1, NetlistTokenizer.afterCalls k tk = some tk1 →
        k ≤ tk.pending.length ∧ tk1.pending = tk.pending.drop k ∧ tk1.Inv) := by
  intro k
  induction k with
  | zero =>
    intro tk hi
    simp [NetlistTokenizer.afterCalls, hi]
  | succ n ih =>
    intro tk hi
    cases hp : tk.pending with
    | nil => simp [NetlistTokenizer.afterCalls, nextToken_none tk hp]
    | cons t ts =>
      obtain ⟨tk1, e1, e2, e3⟩ := nextToken_spec tk hi t ts hp
      obtain ⟨i1, i2⟩ := ih tk1 e3
      rw [e2] at i1 i2
      simp only [NetlistTokenizer.afterCalls, e1, List.length_cons, Nat.add_le_add_iff_right,
        List.drop_succ_cons]
      exact ⟨i1, i2⟩

/-- When the last call of `strtok` in the process came to the end of its string:
for every file (a list of lines), every delimiter set and every comment marker,
the documented loop `while (hasMoreTokens ()) nextToken ()` on the tokenizer
just constructed returns exactly `fileTokens`: the concatenation, in line
order, of each line's delimiter-separated tokens up to but excluding the first
token that begins with the comment marker. Every number of calls that is at
least the number of those tokens suffices, and no assertion fails. -/
theorem newAtEnd_returns_fileTokens (file : List (List Char)) (delim comments : List Char)
    (extra : Nat) :
    NetlistTokenizer.drain ((fileTokens delim comments file).length + extra)
        (NetlistTokenizer.newAtEnd file delim comments) =
      some (fileTokens delim comments file) := by
  obtain ⟨h1, h2, _, _⟩ := newAtEnd_spec file delim comments
  have h := drain_spec ((fileTokens delim comments file).length + extra)
    (NetlistTokenizer.newAtEnd file delim comments) h2 (by rw [h1]; exact Nat.le_add_right _ _)
  rw [h, h1]

/-- When the last call of `strtok` in the process came to the end of its string:
in every state that the tokenizer just constructed on a readable file reaches by
`k` calls of `nextToken`, `hasMoreTokens ()` is true if and only if fewer than
all tokens of the file have been returned; when it is true the next `nextToken ()`
passes its assertion and returns the `k`-th token; after the last token it is
false, whatever blank or comment lines follow. Every such state with `k` at most
the number of tokens is reached without a failed assertion. -/
theorem newAtEnd_hasMoreTokens_exact (file : List (List Char)) (delim comments : List Char)
    (k : Nat) :
    (k ≤ (fileTokens delim comments file).length →
      ∃ tk, NetlistTokenizer.afterCalls k (NetlistTokenizer.newAtEnd file delim comments) = some tk) ∧
    (∀ tk, NetlistTokenizer.afterCalls k (NetlistTokenizer.newAtEnd file delim comments) = some tk →
      (NetlistTokenizer.hasMoreTokens tk = true ↔ k < (fileTokens delim comments file).length) ∧
      (NetlistTokenizer.hasMoreTokens tk = true →
        ∃ t tk1, NetlistTokenizer.nextToken tk = some (t, tk1) ∧
          (fileTokens delim comments file)[k]? = some t) ∧
      (k = (fileTokens delim comments file).length →
        NetlistTokenizer.hasMoreTokens tk = false)) := by
  obtain ⟨h1, h2, _, _⟩ := newAtEnd_spec file delim comments
  obtain ⟨a1, a2⟩ := afterCalls_spec k (NetlistTokenizer.newAtEnd file delim comments) h2
  rw [h1] at a1 a2
  refine ⟨a1, ?_⟩
  intro tk htk
  obtain ⟨b1, b2, b3⟩ := a2 tk htk
  have hiff : NetlistTokenizer.hasMoreTokens tk = true ↔
      k < (fileTokens delim comments file).length := by
    rw [hasMoreTokens_iff tk b3, b2]
    simp [List.drop_eq_nil_iff]
  refine ⟨hiff, ?_, ?_⟩
  · intro hm
    have hk := hiff.mp hm
    cases hp : tk.pending with
    | nil => exact absurd hp ((hasMoreTokens_iff tk b3).mp hm)
    | cons t ts =>
      obtain ⟨tk1, e1, _, _⟩ := nextToken_spec tk b3 t ts hp
      refine ⟨t, tk1, e1, ?_⟩
      have hd : (List.drop k (fileTokens delim comments file))[0]? = some t := by
        rw [← b2, hp]; simp
      simpa using hd
  · intro hk
    cases hh : NetlistTokenizer.hasMoreTokens tk with
    | false => rfl
    | true => exact absurd (hiff.mp hh) (by omega)

/-- C6: on the file of the one line `a b`, in a process that has passed no
string to `strtok` the constructor of `NetlistTokenizer` has no defined
behaviour, so no token is returned; and when other code has left the rest `x y`
of its string in `strtok`, the calls of `nextToken` return x, y, a, b. The tokens
of the file, a and b, are returned only when the last call of `strtok` in the
process came to the end of its string. -/
theorem C6_constructor_strtok_state :
    (NetlistTokenizer.new none ["a b".toList] " ".toList "//".toList).isNone = true ∧
    (NetlistTokenizer.new none ["a b".toList] " ".toList "//".toList).bind
        (NetlistTokenizer.drain 8) = none ∧
    (NetlistTokenizer.new (some "x y".toList) ["a b".toList] " ".toList "//".toList).bind
        (NetlistTokenizer.drain 8) =
      some ["x".toList, "y".toList, "a".toList, "b".toList] ∧
    (NetlistTokenizer.new (some []) ["a b".toList] " ".toList "//".toList).bind
        (NetlistTokenizer.drain 8) = some ["a".toList, "b".toList] ∧
    fileTokens " ".toList "//".toList ["a b".toList] = ["a".toList, "b".toList] :=
  ⟨by decide, by decide, by decide, by decide, by decide⟩

/-- C7: on the file of the one line `// c` (a comment line, no token), in a
process that has passed no string to `strtok` the constructor has no defined
behaviour, so there is no state in which to ask `hasMoreTokens ()`; and when
other code has left the rest `x` of its string in `strtok`, `hasMoreTokens ()`
is true on the tokenizer just constructed and `nextToken ()` returns x, though
no token of the file remains. -/
theorem C7_protocol_strtok_state :
    (NetlistTokenizer.new none ["// c".toList] " ".toList "//".toList).isNone = true ∧
    (NetlistTokenizer.new none ["// c".toList] " ".toList "//".toList).map
        NetlistTokenizer.hasMoreTokens = none ∧
    (NetlistTokenizer.new (some "x".toList) ["// c".toList] " ".toList "//".toList).map
        NetlistTokenizer.hasMoreTokens = some true ∧
    ((NetlistTokenizer.new (some "x".toList) ["// c".toList] " ".toList "//".toList).bind
        NetlistTokenizer.nextToken).map Prod.fst = some "x".toList ∧
    fileTokens " ".toList "//".toList ["// c".toList] = [] :=
  ⟨by decide, by decide, by decide, by decide, by decide⟩

/-! ## The parser: unfolding the loops -/

namespace NetlistParser

theorem parsePortListLoop_end (ts : TokenStream) (names : List Token) :
    parsePortListLoop END ts names = .ok (names, ts) := by
  cases ts <;> rfl

theorem parsePortListLoop_nil (token : Token) (names : List Token) (h : token ≠ END) :
    parsePortListLoop token [] names = .error .noMoreTokens := by
  simp [parsePortListLoop, h]

theorem parsePortListLoop_cons (token t : Token) (ts : TokenStream) (names : List Token)
    (h : token ≠ END) :
    parsePortListLoop token (t :: ts) names =
      parsePortListLoop (toLowerCase t) ts (names ++ [token]) := by
  rw [parsePortListLoop]; simp [h]

theorem parseOutValuesLoop_end (ts : TokenStream) (m : List (Token × LogicVal)) :
    parseOutValuesLoop END ts m = .ok (m, ts) := by
  rcases ts with _ | ⟨v, _ | ⟨t, ts⟩⟩ <;> rfl

theorem parseOutValuesLoop_nil (token : Token) (m : List (Token × LogicVal))
    (h : token ≠ END) : parseOutValuesLoop token [] m = .error .noMoreTokens := by
  simp [parseOutValuesLoop, h]

theorem parseOutValuesLoop_one (token v : Token) (m : List (Token × LogicVal))
    (h : token ≠ END) : parseOutValuesLoop token [v] m = .error .noMoreTokens := by
  simp [parseOutValuesLoop, h]

theorem parseOutValuesLoop_cons (token v t : Token) (ts : TokenStream)
    (m : List (Token × LogicVal)) (h : token ≠ END) :
    parseOutValuesLoop token (v :: t :: ts) m =
      parseOutValuesLoop (toLowerCase t) ts (mapInsert m token (firstChar (toLowerCase v))) := by
  rw [parseOutValuesLoop]; simp [h]

theorem parseInitListLoop_end (ts : TokenStream) (l : List (SimTime × LogicVal)) :
    parseInitListLoop END ts l = .ok (l, ts) := by
  rcases ts with _ | ⟨v, _ | ⟨t, ts⟩⟩ <;> rfl

theorem parseInitListLoop_nil (token : Token) (l : List (SimTime × LogicVal))
    (h : token ≠ END) : parseInitListLoop token [] l = .error .noMoreTokens := by
  simp [parseInitListLoop, h]

theorem parseInitListLoop_one (token v : Token) (l : List (SimTime × LogicVal))
    (h : token ≠ END) : parseInitListLoop token [v] l = .error .noMoreTokens := by
  simp [parseInitListLoop, h]

theorem parseInitListLoop_cons (token v t : Token) (ts : TokenStream)
    (l : List (SimTime × LogicVal)) (h : token ≠ END) :
    parseInitListLoop token (v :: t :: ts) l =
      parseInitListLoop (toLowerCase t) ts (l ++ [(atol token, firstChar (toLowerCase v))]) := by
  rw [parseInitListLoop]; simp [h]

theorem parseNetlistLoop_eq (token : Token) (ts : TokenStream) (gates : List GateRec) :
    parseNetlistLoop token ts gates =
      if token = END then .ok (gates, ts)
      else if token ∈ oneInputGates then
        match ts with
        | o :: i :: d :: ts3 =>
          if firstChar (toLowerCase d) = '#' then
            match ts3 with
            | [] => .error .noMoreTokens
            | t :: ts4 =>
              parseNetlistLoop (toLowerCase t) ts4
                (gates ++ [(((GateRec.new.setName token).addOutput (toLowerCase o)).addInput
                  (toLowerCase i)).setDelay (atol (substr1 (toLowerCase d)))])
          else
            parseNetlistLoop (toLowerCase d) ts3
              (gates ++ [((GateRec.new.setName token).addOutput (toLowerCase o)).addInput
                (toLowerCase i)])
        | _ => .error .noMoreTokens
      else if token ∈ twoInputGates then
        match ts with
        | o :: i1 :: i2 :: d :: ts4 =>
          if firstChar (toLowerCase d) = '#' then
            match ts4 with
            | [] => .error .noMoreTokens
            | t :: ts5 =>
              parseNetlistLoop (toLowerCase t) ts5
                (gates ++ [((((GateRec.new.setName token).addOutput (toLowerCase o)).addInput
                  (toLowerCase i1)).addInput (toLowerCase i2)).setDelay
                    (atol (substr1 (toLowerCase d)))])
          else
            parseNetlistLoop (toLowerCase d) ts4
              (gates ++ [(((GateRec.new.setName token).addOutput (toLowerCase o)).addInput
                (toLowerCase i1)).addInput (toLowerCase i2)])
        | _ => .error .noMoreTokens
      else .error (.unknownGateType token) := by
  rcases ts with _ | ⟨o, _ | ⟨i, _ | ⟨d, _ | ⟨t, _ | ⟨u, ts⟩⟩⟩⟩⟩ <;> rfl

theorem parseNetlistLoopNDEBUG_eq (token : Token) (ts : TokenStream) (gates : List GateRec) :
    parseNetlistLoopNDEBUG token ts gates =
      if token = END then .ok (gates, ts)
      else if token ∈ oneInputGates then
        match ts with
        | o :: i :: d :: ts3 =>
          if firstChar (toLowerCase d) = '#' then
            match ts3 with
            | [] => .error .noMoreTokens
            | t :: ts4 =>
              parseNetlistLoopNDEBUG (toLowerCase t) ts4
                (gates ++ [(((GateRec.new.setName token).addOutput (toLowerCase o)).addInput
                  (toLowerCase i)).setDelay (atol (substr1 (toLowerCase d)))])
          else
            parseNetlistLoopNDEBUG (toLowerCase d) ts3
              (gates ++ [((GateRec.new.setName token).addOutput (toLowerCase o)).addInput
                (toLowerCase i)])
        | _ => .error .noMoreTokens
      else if token ∈ twoInputGates then
        match ts with
        | o :: i1 :: i2 :: d :: ts4 =>
          if firstChar (toLowerCase d) = '#' then
            match ts4 with
            | [] => .error .noMoreTokens
            | t :: ts5 =>
              parseNetlistLoopNDEBUG (toLowerCase t) ts5
                (gates ++ [((((GateRec.new.setName token).addOutput (toLowerCase o)).addInput
                  (toLowerCase i1)).addInput (toLowerCase i2)).setDelay
                    (atol (substr1 (toLowerCase d)))])
          else
            parseNetlistLoopNDEBUG (toLowerCase d) ts4
              (gates ++ [(((GateRec.new.setName token).addOutput (toLowerCase o)).addInput
                (toLowerCase i1)).addInput (toLowerCase i2)])
        | _ => .error .noMoreTokens
      else
        match ts with
        | [] => .error .noMoreTokens
        | t :: ts1 => parseNetlistLoopNDEBUG (toLowerCase t) ts1 gates := by
  rcases ts with _ | ⟨o, _ | ⟨i, _ | ⟨d, _ | ⟨t, _ | ⟨u, ts⟩⟩⟩⟩⟩ <;> rfl

theorem parseNetlistLoop_end (ts : TokenStream) (gates : List GateRec) :
    parseNetlistLoop END ts gates = .ok (gates, ts) := by
  rw [parseNetlistLoop_eq]; simp

theorem parseNetlistLoop_unknown (token : Token) (ts : TokenStream) (gates : List GateRec)
    (h : token ≠ END) (h1 : token ∉ oneInputGates) (h2 : token ∉ twoInputGates) :
    parseNetlistLoop token ts gates = .error (.unknownGateType token) := by
  rw [parseNetlistLoop_eq]; simp [h, h1, h2]

theorem parseNetlistLoop_one (token : Token) (ts : TokenStream) (gates : List GateRec)
    (h : token ≠ END) (h1 : token ∈ oneInputGates) :
    parseNetlistLoop token ts gates =
      match ts with
      | o :: i :: d :: ts3 =>
        if firstChar (toLowerCase d) = '#' then
          match ts3 with
          | [] => .error .noMoreTokens
          | t :: ts4 =>
            parseNetlistLoop (toLowerCase t) ts4
              (gates ++ [(((GateRec.new.setName token).addOutput (toLowerCase o)).addInput
                (toLowerCase i)).setDelay (atol (substr1 (toLowerCase d)))])
        else
          parseNetlistLoop (toLowerCase d) ts3
            (gates ++ [((GateRec.new.setName token).addOutput (toLowerCase o)).addInput
              (toLowerCase i)])
      | _ => .error .noMoreTokens := by
  rw [parseNetlistLoop_eq, if_neg h, if_pos h1]

theorem parseNetlistLoop_two (token : Token) (ts : TokenStream) (gates : List GateRec)
    (h : token ≠ END) (h1 : token ∉ oneInputGates) (h2 : token ∈ twoInputGates) :
    parseNetlistLoop token ts gates =
      match ts with
      | o :: i1 :: i2 :: d :: ts4 =>
        if firstChar (toLowerCase d) = '#' then
          match ts4 with
          | [] => .error .noMoreTokens
          | t :: ts5 =>
            parseNetlistLoop (toLowerCase t) ts5
              (gates ++ [((((GateRec.new.setName token).addOutput (toLowerCase o)).addInput
                (toLowerCase i1)).addInput (toLowerCase i2)).setDelay
                  (atol (substr1 (toLowerCase d)))])
        else
          parseNetlistLoop (toLowerCase d) ts4
            (gates ++ [(((GateRec.new.setName token).addOutput (toLowerCase o)).addInput
              (toLowerCase i1)).addInput (toLowerCase i2)])
      | _ => .error .noMoreTokens := by
  rw [parseNetlistLoop_eq, if_neg h, if_neg h1, if_pos h2]

end NetlistParser

/-! ## The parser: a loop reads a prefix of the stream -/

namespace NetlistParser

theorem parsePortListLoop_used (token : Token) (ts : TokenStream) (names : List Token) :
    ∀ r rest, parsePortListLoop token ts names = .ok (r, rest) →
      ∃ used, ts = used ++ rest ∧
        ∀ more, parsePortListLoop token (used ++ more) names = .ok (r, more) := by
  induction token, ts, names using parsePortListLoop.induct with
  | case1 ts names =>
    intro r rest h
    rw [parsePortListLoop_end] at h
    simp only [Except.ok.injEq, Prod.mk.injEq] at h
    obtain ⟨rfl, rfl⟩ := h
    exact ⟨[], rfl, fun more => by simp [parsePortListLoop_end]⟩
  | case2 token names hne =>
    intro r rest h
    simp [parsePortListLoop_nil _ _ hne] at h
  | case3 token names hne t ts ih =>
    intro r rest h
    rw [parsePortListLoop_cons _ _ _ _ hne] at h
    obtain ⟨used, hu, hm⟩ := ih r rest h
    refine ⟨t :: used, by simp [hu], fun more => ?_⟩
    rw [List.cons_append, parsePortListLoop_cons _ _ _ _ hne]
    exact hm more

theorem parseOutValuesLoop_used (token : Token) (ts : TokenStream)
    (m : List (Token × LogicVal)) :
    ∀ r rest, parseOutValuesLoop token ts m = .ok (r, rest) →
      ∃ used, ts = used ++ rest ∧
        ∀ more, parseOutValuesLoop token (used ++ more) m = .ok (r, more) := by
  induction token, ts, m using parseOutValuesLoop.induct with
  | case1 ts m =>
    intro r rest h
    rw [parseOutValuesLoop_end] at h
    simp only [Except.ok.injEq, Prod.mk.injEq] at h
    obtain ⟨rfl, rfl⟩ := h
    exact ⟨[], rfl, fun more => by simp [parseOutValuesLoop_end]⟩
  | case2 token m hne =>
    intro r rest h
    simp [parseOutValuesLoop_nil _ _ hne] at h
  | case3 token m hne v =>
    intro r rest h
    simp [parseOutValuesLoop_one _ _ _ hne] at h
  | case4 token m hne v t ts ih =>
    intro r rest h
    rw [parseOutValuesLoop_cons _ _ _ _ _ hne] at h
    obtain ⟨used, hu, hm⟩ := ih r rest h
    refine ⟨v :: t :: used, by simp [hu], fun more => ?_⟩
    rw [List.cons_append, List.cons_append, parseOutValuesLoop_cons _ _ _ _ _ hne]
    exact hm more

theorem parseInitListLoop_used (token : Token) (ts : TokenStream)
    (l : List (SimTime × LogicVal)) :
    ∀ r rest, parseInitListLoop token ts l = .ok (r, rest) →
      ∃ used, ts = used ++ rest ∧
        ∀ more, parseInitListLoop token (used ++ more) l = .ok (r, more) := by
  induction token, ts, l using parseInitListLoop.induct with
  | case1 ts l =>
    intro r rest h
    rw [parseInitListLoop_end] at h
    simp only [Except.ok.injEq, Prod.mk.injEq] at h
    obtain ⟨rfl, rfl⟩ := h
    exact ⟨[], rfl, fun more => by simp [parseInitListLoop_end]⟩
  | case2 token l hne =>
    intro r rest h
    simp [parseInitListLoop_nil _ _ hne] at h
  | case3 token l hne v =>
    intro r rest h
    simp [parseInitListLoop_one _ _ _ hne] at h
  | case4 token l hne v t ts ih =>
    intro r rest h
    rw [parseInitListLoop_cons _ _ _ _ _ hne] at h
    obtain ⟨used, hu, hm⟩ := ih r rest h
    refine ⟨v :: t :: used, by simp [hu], fun more => ?_⟩
    rw [List.cons_append, List.cons_append, parseInitListLoop_cons _ _ _ _ _ hne]
    exact hm more

theorem parseNetlistLoop_used (token : Token) (ts : TokenStream) (gates : List GateRec) :
    ∀ r rest, parseNetlistLoop token ts gates = .ok (r, rest) →
      ∃ used, ts = used ++ rest ∧
        ∀ more, parseNetlistLoop token (used ++ more) gates = .ok (r, more) := by
  induction token, ts, gates using parseNetlistLoop.induct with
  | case1 ts gates =>
    intro r rest h
    rw [parseNetlistLoop_end] at h
    simp only [Except.ok.injEq, Prod.mk.injEq] at h
    obtain ⟨rfl, rfl⟩ := h
    exact ⟨[], rfl, fun more => by simp [parseNetlistLoop_end]⟩
  | case2 token gates hne h1 =>
    intro r rest h
    simp [parseNetlistLoop_one _ _ _ hne h1] at h
  | case3 token gates hne h1 o =>
    intro r rest h
    simp [parseNetlistLoop_one _ _ _ hne h1] at h
  | case4 token gates hne h1 o i =>
    intro r rest h
    simp [parseNetlistLoop_one _ _ _ hne h1] at h
  | case5 token gates hne h1 o i d hd =>
    intro r rest h
    simp [parseNetlistLoop_one _ _ _ hne h1, hd] at h
  | case6 token gates hne h1 o i d g hd t ts ih =>
    intro r rest h
    rw [parseNetlistLoop_one _ _ _ hne h1] at h
    simp only [hd, if_true] at h
    obtain ⟨used, hu, hm⟩ := ih r rest h
    refine ⟨o :: i :: d :: t :: used, by simp [hu], fun more => ?_⟩
    rw [parseNetlistLoop_one _ _ _ hne h1]
    simp only [List.cons_append, hd, if_true]
    exact hm more
  | case7 token gates hne h1 o i d ts g hd ih =>
    intro r rest h
    rw [parseNetlistLoop_one _ _ _ hne h1] at h
    simp only [hd, if_false] at h
    obtain ⟨used, hu, hm⟩ := ih r rest h
    refine ⟨o :: i :: d :: used, by simp [hu], fun more => ?_⟩
    rw [parseNetlistLoop_one _ _ _ hne h1]
    simp only [List.cons_append, hd, if_false]
    exact hm more
  | case8 token gates hne h1 h2 =>
    intro r rest h
    simp [parseNetlistLoop_two _ _ _ hne h1 h2] at h
  | case9 token gates hne h1 h2 o =>
    intro r rest h
    simp [parseNetlistLoop_two _ _ _ hne h1 h2] at h
  | case10 token gates hne h1 h2 o i1 =>
    intro r rest h
    simp [parseNetlistLoop_two _ _ _ hne h1 h2] at h
  | case11 token gates hne h1 h2 o i1 i2 =>
    intro r rest h
    simp [parseNetlistLoop_two _ _ _ hne h1 h2] at h
  | case12 token gates hne h1 h2 o i1 i2 d hd =>
    intro r rest h
    simp [parseNetlistLoop_two _ _ _ hne h1 h2, hd] at h
  | case13 token gates hne h1 h2 o i1 i2 d g hd t ts ih =>
    intro r rest h
    rw [parseNetlistLoop_two _ _ _ hne h1 h2] at h
    simp only [hd, if_true] at h
    obtain ⟨used, hu, hm⟩ := ih r rest h
    refine ⟨o :: i1 :: i2 :: d :: t :: used, by simp [hu], fun more => ?_⟩
    rw [parseNetlistLoop_two _ _ _ hne h1 h2]
    simp only [List.cons_append, hd, if_true]
    exact hm more
  | case14 token gates hne h1 h2 o i1 i2 d ts g hd ih =>
    intro r rest h
    rw [parseNetlistLoop_two _ _ _ hne h1 h2] at h
    simp only [hd, if_false] at h
    obtain ⟨used, hu, hm⟩ := ih r rest h
    refine ⟨o :: i1 :: i2 :: d :: used, by simp [hu], fun more => ?_⟩
    rw [parseNetlistLoop_two _ _ _ hne h1 h2]
    simp only [List.cons_append, hd, if_false]
    exact hm more
  | case15 token ts gates hne h1 h2 =>
    intro r rest h
    simp [parseNetlistLoop_unknown _ _ _ hne h1 h2] at h

end NetlistParser

namespace NetlistParser

theorem parsePortList_used (ts : TokenStream) (names : List Token) :
    ∀ r rest, parsePortList ts names = .ok (r, rest) →
      ∃ used, ts = used ++ rest ∧ used ≠ [] ∧
        ∀ more, parsePortList (used ++ more) names = .ok (r, more) := by
  intro r rest h
  cases ts with
  | nil => simp [parsePortList] at h
  | cons t ts =>
    obtain ⟨used, hu, hm⟩ := parsePortListLoop_used _ ts names r rest h
    exact ⟨t :: used, by simp [hu], by simp, fun more => hm more⟩

theorem parseOutValues_used (ts : TokenStream) (m : List (Token × LogicVal)) :
    ∀ r rest, parseOutValues ts m = .ok (r, rest) →
      ∃ used, ts = used ++ rest ∧ used ≠ [] ∧
        ∀ more, parseOutValues (used ++ more) m = .ok (r, more) := by
  intro r rest h
  cases ts with
  | nil => simp [parseOutValues] at h
  | cons t ts =>
    obtain ⟨used, hu, hm⟩ := parseOutValuesLoop_used _ ts m r rest h
    exact ⟨t :: used, by simp [hu], by simp, fun more => hm more⟩

theorem parseNetlist_used (ts : TokenStream) (gates : List GateRec) :
    ∀ r rest, parseNetlist ts gates = .ok (r, rest) →
      ∃ used, ts = used ++ rest ∧ used ≠ [] ∧
        ∀ more, parseNetlist (used ++ more) gates = .ok (r, more) := by
  intro r rest h
  cases ts with
  | nil => simp [parseNetlist] at h
  | cons t ts =>
    obtain ⟨used, hu, hm⟩ := parseNetlistLoop_used _ ts gates r rest h
    exact ⟨t :: used, by simp [hu], by simp, fun more => hm more⟩

theorem parseInitList_used (ts : TokenStream)
    (m : List (Token × List (SimTime × LogicVal))) :
    ∀ r rest, parseInitList ts m = .ok (r, rest) →
      ∃ used, ts = used ++ rest ∧ used ≠ [] ∧
        ∀ more, parseInitList (used ++ more) m = .ok (r, more) := by
  intro r rest h
  rcases ts with _ | ⟨inp, _ | ⟨t, ts⟩⟩
  · simp [parseInitList] at h
  · simp [parseInitList] at h
  · simp only [parseInitList] at h
    cases hl : parseInitListLoop (toLowerCase t) ts [] with
    | error e => simp [hl] at h
    | ok res =>
      obtain ⟨l, rest1⟩ := res
      simp only [hl, Except.ok.injEq, Prod.mk.injEq] at h
      obtain ⟨rfl, rfl⟩ := h
      obtain ⟨used, hu, hm⟩ := parseInitListLoop_used _ ts [] l rest1 hl
      refine ⟨inp :: t :: used, by simp [hu], by simp, fun more => ?_⟩
      simp [parseInitList, hm more]

theorem parseSection_used (token : Token) (ts : TokenStream) (p : NetlistParser) :
    ∀ p1 rest, parseSection token ts p = .ok (p1, rest) →
      ∃ used, ts = used ++ rest ∧
        ∀ more, parseSection token (used ++ more) p = .ok (p1, more) := by
  intro p1 rest h
  unfold parseSection at h ⊢
  split_ifs at h ⊢ with c1 c2 c3 c4 c5 c6
  · cases hs : parsePortList ts p.inputNames with
    | error e => simp [hs] at h
    | ok res =>
      obtain ⟨r, rest1⟩ := res
      simp only [hs, Except.ok.injEq, Prod.mk.injEq] at h
      obtain ⟨rfl, rfl⟩ := h
      obtain ⟨used, hu, _, hm⟩ := parsePortList_used ts _ r rest1 hs
      exact ⟨used, hu, fun more => by simp [hm more]⟩
  · cases hs : parsePortList ts p.outputNames with
    | error e => simp [hs] at h
    | ok res =>
      obtain ⟨r, rest1⟩ := res
      simp only [hs, Except.ok.injEq, Prod.mk.injEq] at h
      obtain ⟨rfl, rfl⟩ := h
      obtain ⟨used, hu, _, hm⟩ := parsePortList_used ts _ r rest1 hs
      exact ⟨used, hu, fun more => by simp [hm more]⟩
  · cases hs : parseOutValues ts p.outValues with
    | error e => simp [hs] at h
    | ok res =>
      obtain ⟨r, rest1⟩ := res
      simp only [hs, Except.ok.injEq, Prod.mk.injEq] at h
      obtain ⟨rfl, rfl⟩ := h
      obtain ⟨used, hu, _, hm⟩ := parseOutValues_used ts _ r rest1 hs
      exact ⟨used, hu, fun more => by simp [hm more]⟩
  · cases ts with
    | nil => simp at h
    | cons t ts =>
      simp only [Except.ok.injEq, Prod.mk.injEq] at h
      obtain ⟨rfl, rfl⟩ := h
      exact ⟨[t], by simp, fun more => by simp⟩
  · cases hs : parseInitList ts p.inputStimulusMap with
    | error e => simp [hs] at h
    | ok res =>
      obtain ⟨r, rest1⟩ := res
      simp only [hs, Except.ok.injEq, Prod.mk.injEq] at h
      obtain ⟨rfl, rfl⟩ := h
      obtain ⟨used, hu, _, hm⟩ := parseInitList_used ts _ r rest1 hs
      exact ⟨used, hu, fun more => by simp [hm more]⟩
  · cases hs : parseNetlist ts p.gates with
    | error e => simp [hs] at h
    | ok res =>
      obtain ⟨r, rest1⟩ := res
      simp only [hs, Except.ok.injEq, Prod.mk.injEq] at h
      obtain ⟨rfl, rfl⟩ := h
      obtain ⟨used, hu, _, hm⟩ := parseNetlist_used ts _ r rest1 hs
      exact ⟨used, hu, fun more => by simp [hm more]⟩
  · simp only [Except.ok.injEq, Prod.mk.injEq] at h
    obtain ⟨rfl, rfl⟩ := h
    exact ⟨[], by simp, fun more => by simp⟩

theorem parseSection_length (token : Token) (ts : TokenStream) (p p1 : NetlistParser)
    (rest : TokenStream) (h : parseSection token ts p = .ok (p1, rest)) :
    rest.length ≤ ts.length := by
  obtain ⟨used, hu, _⟩ := parseSection_used token ts p p1 rest h
  rw [hu]; simp

/-- The bound of `parseLoop` is never reached when it is at least the length of
the stream. -/
theorem parseLoop_fuel : ∀ (fuel : Nat) (ts : TokenStream) (p : NetlistParser),
    ts.length ≤ fuel → parseLoop fuel ts p = parseLoop ts.length ts p := by
  intro fuel
  induction fuel using Nat.strong_induction_on with
  | _ fuel ih =>
    intro ts p hl
    cases ts with
    | nil => cases fuel <;> simp [parseLoop]
    | cons t ts =>
      cases fuel with
      | zero => simp at hl
      | succ n =>
        simp only [parseLoop, List.length_cons]
        cases hs : parseSection (toLowerCase t) ts p with
        | error e => rfl
        | ok res =>
          obtain ⟨p1, rest⟩ := res
          have hr := parseSection_length _ _ _ _ _ hs
          simp only [List.length_cons, Nat.add_le_add_iff_right] at hl
          simp only
          rw [ih n (Nat.lt_succ_self n) rest p1 (le_trans hr hl)]
          exact (ih ts.length (by omega) rest p1 hr).symm

theorem parseFrom_nil (p : NetlistParser) : parseFrom p [] = .ok p := rfl

theorem parseFrom_cons (p : NetlistParser) (t : Token) (ts : TokenStream) :
    parseFrom p (t :: ts) =
      match parseSection (toLowerCase t) ts p with
      | .error e => .error e
      | .ok (p1, rest) => parseFrom p1 rest := by
  simp only [parseFrom, List.length_cons, parseLoop]
  cases hs : parseSection (toLowerCase t) ts p with
  | error e => rfl
  | ok res =>
    obtain ⟨p1, rest⟩ := res
    simp only
    exact parseLoop_fuel _ _ _ (parseSection_length _ _ _ _ _ hs)

theorem parseFrom_append : ∀ (n : Nat) (pre : TokenStream), pre.length ≤ n →
    ∀ (p p1 : NetlistParser) (rest : TokenStream),
      parseFrom p pre = .ok p1 → parseFrom p (pre ++ rest) = parseFrom p1 rest := by
  intro n
  induction n with
  | zero =>
    intro pre hl p p1 rest h
    have : pre = [] := List.eq_nil_of_length_eq_zero (Nat.le_zero.mp hl)
    subst this
    simp only [parseFrom_nil, Except.ok.injEq] at h
    subst h; rfl
  | succ n ih =>
    intro pre hl p p1 rest h
    cases pre with
    | nil =>
      simp only [parseFrom_nil, Except.ok.injEq] at h
      subst h; rfl
    | cons t ts =>
      rw [parseFrom_cons] at h
      rw [List.cons_append, parseFrom_cons]
      cases hs : parseSection (toLowerCase t) ts p with
      | error e => simp [hs] at h
      | ok res =>
        obtain ⟨p2, rest2⟩ := res
        simp only [hs] at h
        obtain ⟨used, hu, hm⟩ := parseSection_used _ _ _ _ _ hs
        have hlen : rest2.length ≤ n := by
          have := parseSection_length _ _ _ _ _ hs
          simp only [List.length_cons, Nat.add_le_add_iff_right] at hl
          omega
        rw [hu, List.append_assoc, hm (rest2 ++ rest)]
        exact ih rest2 hlen p2 p1 rest h

end NetlistParser

/-! ## Lower case -/

theorem toNat_ofNat_small (n : Nat) (h : n < 55296) : (Char.ofNat n).toNat = n := by
  have hv : n.isValidChar := Or.inl h
  unfold Char.ofNat
  rw [dif_pos hv]
  simp only [Char.ofNatAux, Char.toNat]
  show (UInt32.ofNat' n _).toNat = n
  rfl

theorem char_le_iff (a b : Char) : a ≤ b ↔ a.toNat ≤ b.toNat := by
  rw [Char.le_def]
  exact UInt32.le_def

theorem tolower_idem (c : Char) : tolower (tolower c) = tolower c := by
  unfold tolower
  by_cases h : 'A' ≤ c ∧ c ≤ 'Z'
  · rw [if_pos h]
    have h1 : 65 ≤ c.toNat := (char_le_iff _ _).mp h.1
    have h2 : c.toNat ≤ 90 := (char_le_iff _ _).mp h.2
    have h3 : (Char.ofNat (c.toNat + 32)).toNat = c.toNat + 32 :=
      toNat_ofNat_small _ (by omega)
    have h4 : ¬ ('A' ≤ Char.ofNat (c.toNat + 32) ∧ Char.ofNat (c.toNat + 32) ≤ 'Z') := by
      rintro ⟨_, hb⟩
      have hb' : (Char.ofNat (c.toNat + 32)).toNat ≤ 90 := (char_le_iff _ _).mp hb
      omega
    rw [if_neg h4]
  · rw [if_neg h, if_neg h]

theorem toLowerCase_idem (s : Token) : toLowerCase (toLowerCase s) = toLowerCase s := by
  simp [toLowerCase, tolower_idem]

namespace NetlistParser

theorem parsePortListLoop_lower (token : Token) (ts : TokenStream) (names : List Token) :
    parsePortListLoop token (ts.map toLowerCase) names =
      lowerRest (parsePortListLoop token ts names) := by
  induction token, ts, names using parsePortListLoop.induct with
  | case1 ts names => simp [parsePortListLoop_end, lowerRest]
  | case2 token names hne => simp [parsePortListLoop_nil _ _ hne, lowerRest]
  | case3 token names hne t ts ih =>
    rw [List.map_cons, parsePortListLoop_cons _ _ _ _ hne, parsePortListLoop_cons _ _ _ _ hne,
      toLowerCase_idem]
    exact ih

theorem parseOutValuesLoop_lower (token : Token) (ts : TokenStream)
    (m : List (Token × LogicVal)) :
    parseOutValuesLoop token (ts.map toLowerCase) m =
      lowerRest (parseOutValuesLoop token ts m) := by
  induction token, ts, m using parseOutValuesLoop.induct with
  | case1 ts m => simp [parseOutValuesLoop_end, lowerRest]
  | case2 token m hne => simp [parseOutValuesLoop_nil _ _ hne, lowerRest]
  | case3 token m hne v => simp [parseOutValuesLoop_one _ _ _ hne, lowerRest]
  | case4 token m hne v t ts ih =>
    rw [List.map_cons, List.map_cons, parseOutValuesLoop_cons _ _ _ _ _ hne,
      parseOutValuesLoop_cons _ _ _ _ _ hne, toLowerCase_idem, toLowerCase_idem]
    exact ih

theorem parseInitListLoop_lower (token : Token) (ts : TokenStream)
    (l : List (SimTime × LogicVal)) :
    parseInitListLoop token (ts.map toLowerCase) l =
      lowerRest (parseInitListLoop token ts l) := by
  induction token, ts, l using parseInitListLoop.induct with
  | case1 ts l => simp [parseInitListLoop_end, lowerRest]
  | case2 token l hne => simp [parseInitListLoop_nil _ _ hne, lowerRest]
  | case3 token l hne v => simp [parseInitListLoop_one _ _ _ hne, lowerRest]
  | case4 token l hne v t ts ih =>
    rw [List.map_cons, List.map_cons, parseInitListLoop_cons _ _ _ _ _ hne,
      parseInitListLoop_cons _ _ _ _ _ hne, toLowerCase_idem, toLowerCase_idem]
    exact ih

theorem parseNetlistLoop_lower (token : Token) (ts : TokenStream) (gates : List GateRec) :
    parseNetlistLoop token (ts.map toLowerCase) gates =
      lowerRest (parseNetlistLoop token ts gates) := by
  induction token, ts, gates using parseNetlistLoop.induct with
  | case1 ts gates => simp [parseNetlistLoop_end, lowerRest]
  | case2 token gates hne h1 => simp [parseNetlistLoop_one _ _ _ hne h1, lowerRest]
  | case3 token gates hne h1 o => simp [parseNetlistLoop_one _ _ _ hne h1, lowerRest]
  | case4 token gates hne h1 o i => simp [parseNetlistLoop_one _ _ _ hne h1, lowerRest]
  | case5 token gates hne h1 o i d hd =>
    simp [parseNetlistLoop_one _ _ _ hne h1, lowerRest, toLowerCase_idem, hd]
  | case6 token gates hne h1 o i d g hd t ts ih =>
    rw [parseNetlistLoop_one _ _ _ hne h1, parseNetlistLoop_one _ _ _ hne h1]
    simp only [List.map_cons, toLowerCase_idem, hd, if_true]
    exact ih
  | case7 token gates hne h1 o i d ts g hd ih =>
    rw [parseNetlistLoop_one _ _ _ hne h1, parseNetlistLoop_one _ _ _ hne h1]
    simp only [List.map_cons, toLowerCase_idem, hd, if_false]
    exact ih
  | case8 token gates hne h1 h2 => simp [parseNetlistLoop_two _ _ _ hne h1 h2, lowerRest]
  | case9 token gates hne h1 h2 o => simp [parseNetlistLoop_two _ _ _ hne h1 h2, lowerRest]
  | case10 token gates hne h1 h2 o i1 =>
    simp [parseNetlistLoop_two _ _ _ hne h1 h2, lowerRest]
  | case11 token gates hne h1 h2 o i1 i2 =>
    simp [parseNetlistLoop_two _ _ _ hne h1 h2, lowerRest]
  | case12 token gates hne h1 h2 o i1 i2 d hd =>
    simp [parseNetlistLoop_two _ _ _ hne h1 h2, lowerRest, toLowerCase_idem, hd]
  | case13 token gates hne h1 h2 o i1 i2 d g hd t ts ih =>
    rw [parseNetlistLoop_two _ _ _ hne h1 h2, parseNetlistLoop_two _ _ _ hne h1 h2]
    simp only [List.map_cons, toLowerCase_idem, hd, if_true]
    exact ih
  | case14 token gates hne h1 h2 o i1 i2 d ts g hd ih =>
    rw [parseNetlistLoop_two _ _ _ hne h1 h2, parseNetlistLoop_two _ _ _ hne h1 h2]
    simp only [List.map_cons, toLowerCase_idem, hd, if_false]
    exact ih
  | case15 token ts gates hne h1 h2 =>
    simp [parseNetlistLoop_unknown _ _ _ hne h1 h2, lowerRest]

theorem parseSection_lower (token : Token) (ts : TokenStream) (p : NetlistParser) :
    parseSection token (ts.map toLowerCase) p = lowerRest (parseSection token ts p) := by
  unfold parseSection
  split_ifs with c1 c2 c3 c4 c5 c6
  · cases ts with
    | nil => simp [parsePortList, lowerRest]
    | cons t ts =>
      simp only [parsePortList, List.map_cons, toLowerCase_idem, parsePortListLoop_lower]
      cases parsePortListLoop (toLowerCase t) ts p.inputNames <;> simp [lowerRest]
  · cases ts with
    | nil => simp [parsePortList, lowerRest]
    | cons t ts =>
      simp only [parsePortList, List.map_cons, toLowerCase_idem, parsePortListLoop_lower]
      cases parsePortListLoop (toLowerCase t) ts p.outputNames <;> simp [lowerRest]
  · cases ts with
    | nil => simp [parseOutValues, lowerRest]
    | cons t ts =>
      simp only [parseOutValues, List.map_cons, toLowerCase_idem, parseOutValuesLoop_lower]
      cases parseOutValuesLoop (toLowerCase t) ts p.outValues <;> simp [lowerRest]
  · cases ts with
    | nil => simp [lowerRest]
    | cons t ts => simp [lowerRest, toLowerCase_idem]
  · rcases ts with _ | ⟨inp, _ | ⟨t, ts⟩⟩
    · simp [parseInitList, lowerRest]
    · simp [parseInitList, lowerRest]
    · simp only [parseInitList, List.map_cons, toLowerCase_idem, parseInitListLoop_lower]
      cases parseInitListLoop (toLowerCase t) ts [] <;> simp [lowerRest]
  · cases ts with
    | nil => simp [parseNetlist, lowerRest]
    | cons t ts =>
      simp only [parseNetlist, List.map_cons, toLowerCase_idem, parseNetlistLoop_lower]
      cases parseNetlistLoop (toLowerCase t) ts p.gates <;> simp [lowerRest]
  · simp [lowerRest]

theorem parseLoop_lower : ∀ (fuel : Nat) (ts : TokenStream) (p : NetlistParser),
    parseLoop fuel (ts.map toLowerCase) p = parseLoop fuel ts p := by
  intro fuel
  induction fuel with
  | zero =>
    intro ts p
    cases ts <;> simp [parseLoop]
  | succ n ih =>
    intro ts p
    cases ts with
    | nil => simp [parseLoop]
    | cons t ts =>
      simp only [List.map_cons, parseLoop, toLowerCase_idem, parseSection_lower]
      cases parseSection (toLowerCase t) ts p with
      | error e => simp [lowerRest]
      | ok res =>
        obtain ⟨p1, rest⟩ := res
        simp only [lowerRest]
        exact ih rest p1

end NetlistParser

/-! ## Gate records -/

namespace NetlistParser

theorem oneInputGates_eq : oneInputGates = ["inv".toList] := by decide

theorem twoInputGates_eq :
    twoInputGates =
      ["and2".toList, "or2".toList, "nand2".toList, "nor2".toList, "xor2".toList,
        "xnor2".toList] := by decide

theorem kind_ne_END (k : Token) (h : k ∈ oneInputGates ∨ k ∈ twoInputGates) : k ≠ END := by
  rw [oneInputGates_eq, twoInputGates_eq] at h
  simp only [List.mem_cons, List.mem_singleton, List.not_mem_nil, or_false] at h
  rcases h with h | h | h | h | h | h | h <;> (subst h; decide)

theorem kind_firstChar (k : Token) (h : k ∈ oneInputGates ∨ k ∈ twoInputGates) :
    firstChar k ≠ '#' := by
  rw [oneInputGates_eq, twoInputGates_eq] at h
  simp only [List.mem_cons, List.mem_singleton, List.not_mem_nil, or_false] at h
  rcases h with h | h | h | h | h | h | h <;> (subst h; decide)

theorem two_not_one (k : Token) (h : k ∈ twoInputGates) : k ∉ oneInputGates := by
  rw [twoInputGates_eq] at h
  rw [oneInputGates_eq]
  simp only [List.mem_cons, List.mem_singleton, List.not_mem_nil, or_false] at h
  rcases h with h | h | h | h | h | h <;> (subst h; decide)

theorem toLowerCase_hash (d : Token) : toLowerCase ('#' :: d) = '#' :: toLowerCase d := by
  simp only [toLowerCase, List.map_cons, List.cons.injEq, and_true]
  decide

/-- One round of the loop of `parseNetlist` on a well-formed gate record that is
followed by the token `t`. -/
theorem parseNetlistLoop_record (g : GateText) (hw : g.WellFormed) (t : Token)
    (rest : TokenStream) (gates : List GateRec)
    (hd : g.delay = none → firstChar (toLowerCase t) ≠ '#') :
    parseNetlistLoop (toLowerCase g.kind) (g.tokens.tail ++ t :: rest) gates =
      parseNetlistLoop (toLowerCase t) rest (gates ++ [g.gateRec]) := by
  obtain ⟨kind, out, ins, delay⟩ := g
  rcases hw with ⟨h1, hl⟩ | ⟨h2, hl⟩
  · have hne := kind_ne_END _ (Or.inl h1)
    simp only at h1 hl
    rcases ins with _ | ⟨i, _ | ⟨i2, ins⟩⟩
    · simp at hl
    · rw [parseNetlistLoop_one _ _ _ hne h1]
      cases delay with
      | none =>
        have hd' := hd rfl
        simp [GateText.tokens, hd', GateText.gateRec, GateRec.new, GateRec.setName,
          GateRec.addOutput, GateRec.addInput]
      | some d =>
        simp [GateText.tokens, toLowerCase_hash, firstChar, substr1, GateText.gateRec,
          GateRec.new, GateRec.setName, GateRec.addOutput, GateRec.addInput, GateRec.setDelay]
    · simp at hl
  · have hne := kind_ne_END _ (Or.inr h2)
    have h1 := two_not_one _ h2
    simp only at h1 h2 hl
    rcases ins with _ | ⟨i, _ | ⟨i2, _ | ⟨i3, ins⟩⟩⟩
    · simp at hl
    · simp at hl
    · rw [parseNetlistLoop_two _ _ _ hne h1 h2]
      cases delay with
      | none =>
        have hd' := hd rfl
        simp [GateText.tokens, hd', GateText.gateRec, GateRec.new, GateRec.setName,
          GateRec.addOutput, GateRec.addInput]
      | some d =>
        simp [GateText.tokens, toLowerCase_hash, firstChar, substr1, GateText.gateRec,
          GateRec.new, GateRec.setName, GateRec.addOutput, GateRec.addInput, GateRec.setDelay]
    · simp at hl

/-- The loop of `parseNetlist` on well-formed gate records that are followed by
the token `t`: the records are appended, and `t` is the token of the next
round. After a record without delay `t` must not start with '#'. -/
theorem parseNetlist_records : ∀ (recs : List GateText), (∀ g ∈ recs, g.WellFormed) →
    ∀ (t : Token) (rest : TokenStream) (gates : List GateRec),
      (∀ g, recs.getLast? = some g → g.delay = none → firstChar (toLowerCase t) ≠ '#') →
      parseNetlist (recordTokens recs ++ t :: rest) gates =
        parseNetlistLoop (toLowerCase t) rest (gates ++ recs.map GateText.gateRec) := by
  intro recs
  induction recs with
  | nil =>
    intro _ t rest gates _
    simp [recordTokens, parseNetlist]
  | cons g gs ih =>
    intro hw t rest gates hlast
    have hwg := hw g (List.mem_cons_self _ _)
    have hwgs : ∀ x ∈ gs, x.WellFormed := fun x hx => hw x (List.mem_cons_of_mem _ hx)
    have e1 : recordTokens (g :: gs) ++ t :: rest =
        g.kind :: (g.tokens.tail ++ (recordTokens gs ++ t :: rest)) := by
      simp [recordTokens, GateText.tokens]
    rw [e1]
    simp only [parseNetlist]
    cases gs with
    | nil =>
      have hd : g.delay = none → firstChar (toLowerCase t) ≠ '#' := hlast g (by simp)
      simp only [recordTokens, List.map_nil, List.flatten_nil, List.nil_append]
      rw [parseNetlistLoop_record g hwg t rest gates hd]
      simp
    | cons g2 gs2 =>
      have hw2 := hwgs g2 (List.mem_cons_self _ _)
      have e2 : recordTokens (g2 :: gs2) ++ t :: rest =
          g2.kind :: (g2.tokens.tail ++ (recordTokens gs2 ++ t :: rest)) := by
        simp [recordTokens, GateText.tokens]
      have hk : firstChar (toLowerCase g2.kind) ≠ '#' := by
        rcases hw2 with ⟨h, _⟩ | ⟨h, _⟩
        · exact kind_firstChar _ (Or.inl h)
        · exact kind_firstChar _ (Or.inr h)
      have step := parseNetlistLoop_record g hwg g2.kind
        (g2.tokens.tail ++ (recordTokens gs2 ++ t :: rest)) gates (fun _ => hk)
      rw [e2, step]
      have hlast2 : ∀ x, (g2 :: gs2).getLast? = some x → x.delay = none →
          firstChar (toLowerCase t) ≠ '#' := by
        intro x hx
        exact hlast x (by simpa [List.getLast?_cons_cons] using hx)
      have := ih hwgs t rest (gates ++ [g.gateRec]) hlast2
      rw [e2] at this
      simp only [parseNetlist] at this
      rw [this]
      simp

end NetlistParser

/-! ## Numbers -/

theorem isdigit_iff (c : Char) : isdigit c = true ↔ 48 ≤ c.toNat ∧ c.toNat ≤ 57 := by
  simp only [isdigit, decide_eq_true_eq, char_le_iff]
  exact Iff.rfl

theorem tolower_digit (c : Char) (h : isdigit c = true) : tolower c = c := by
  have h' := (isdigit_iff c).mp h
  unfold tolower
  rw [if_neg]
  rintro ⟨ha0, hb⟩
  have : c.toNat ≤ 90 := (char_le_iff _ _).mp hb
  have ha : 65 ≤ c.toNat := (char_le_iff _ _).mp ha0
  omega

theorem toLowerCase_numeral (d : Token) (h : isNumeral d) : toLowerCase d = d := by
  unfold toLowerCase
  conv_rhs => rw [← List.map_id d]
  apply List.map_congr_left
  intro c hc
  exact tolower_digit c (h.2 c hc)

theorem digitsValue_eq_foldl (d : List Char) (h : ∀ c ∈ d, isdigit c = true) :
    ∀ acc, digitsValue d acc = d.foldl (fun a c => 10 * a + digitVal c) acc := by
  induction d with
  | nil => intro acc; rfl
  | cons c cs ih =>
    intro acc
    have hc := h c (List.mem_cons_self _ _)
    simp only [digitsValue, hc, if_true, List.foldl_cons]
    exact ih (fun x hx => h x (List.mem_cons_of_mem _ hx)) _

theorem atol_numeral (d : Token) (h : isNumeral d) :
    atol d = min LONG_MAX (numeralValue d : Int) := by
  obtain ⟨hne, hd⟩ := h
  cases d with
  | nil => exact absurd rfl hne
  | cons c cs =>
    have hc := (isdigit_iff c).mp (hd c (List.mem_cons_self _ _))
    have hsp : isspace c = false := by
      simp only [isspace, decide_eq_false_iff_not]
      omega
    have hm : c ≠ '-' := by
      intro e; subst e; revert hc; decide
    have hp : c ≠ '+' := by
      intro e; subst e; revert hc; decide
    unfold atol
    simp only [List.dropWhile_cons, hsp]
    split
    · rename_i heq
      simp only [Bool.false_eq_true, if_false, List.cons.injEq] at heq
      exact absurd heq.1 hm
    · rename_i heq
      simp only [Bool.false_eq_true, if_false, List.cons.injEq] at heq
      exact absurd heq.1 hp
    · simp only [Bool.false_eq_true, if_false]
      rw [digitsValue_eq_foldl (c :: cs) hd 0]
      rfl

theorem atol_numeral_small (d : Token) (h : isNumeral d) (hs : numeralValue d ≤ 2 ^ 63 - 1) :
    atol d = (numeralValue d : Int) := by
  rw [atol_numeral d h]
  apply min_eq_right
  unfold LONG_MAX
  have : (numeralValue d : Int) ≤ ((2 ^ 63 - 1 : Nat) : Int) := Int.ofNat_le.mpr hs
  simpa using this


/-! ## Properties of `parseNetlist` -/

namespace NetlistParser

theorem kindAndArity_one (token : Token) (h1 : token ∈ oneInputGates) (o i : Token)
    (dl : Option SimTime) :
    GateRec.KindAndArity { name := token, outputs := [o], inputs := [i], delay := dl } := by
  rw [oneInputGates_eq, List.mem_singleton] at h1
  subst h1
  exact ⟨(by decide : "inv".toList ∈ gateKinds), rfl, fun _ => rfl, fun h => absurd rfl h⟩

theorem kindAndArity_two (token : Token) (h2 : token ∈ twoInputGates) (o i1 i2 : Token)
    (dl : Option SimTime) :
    GateRec.KindAndArity { name := token, outputs := [o], inputs := [i1, i2], delay := dl } := by
  rw [twoInputGates_eq] at h2
  simp only [List.mem_cons, List.mem_singleton, List.not_mem_nil, or_false] at h2
  rcases h2 with h | h | h | h | h | h
  · subst h
    exact ⟨(by decide : "and2".toList ∈ gateKinds), rfl,
      fun h => absurd h (by decide : "and2".toList ≠ "inv".toList), fun _ => rfl⟩
  · subst h
    exact ⟨(by decide : "or2".toList ∈ gateKinds), rfl,
      fun h => absurd h (by decide : "or2".toList ≠ "inv".toList), fun _ => rfl⟩
  · subst h
    exact ⟨(by decide : "nand2".toList ∈ gateKinds), rfl,
      fun h => absurd h (by decide : "nand2".toList ≠ "inv".toList), fun _ => rfl⟩
  · subst h
    exact ⟨(by decide : "nor2".toList ∈ gateKinds), rfl,
      fun h => absurd h (by decide : "nor2".toList ≠ "inv".toList), fun _ => rfl⟩
  · subst h
    exact ⟨(by decide : "xor2".toList ∈ gateKinds), rfl,
      fun h => absurd h (by decide : "xor2".toList ≠ "inv".toList), fun _ => rfl⟩
  · subst h
    exact ⟨(by decide : "xnor2".toList ∈ gateKinds), rfl,
      fun h => absurd h (by decide : "xnor2".toList ≠ "inv".toList), fun _ => rfl⟩

theorem parseNetlistLoop_kinds (token : Token) (ts : TokenStream) (gates : List GateRec) :
    ∀ gs rest, parseNetlistLoop token ts gates = .ok (gs, rest) →
      ∃ new, gs = gates ++ new ∧ ∀ g ∈ new, g.KindAndArity := by
  induction token, ts, gates using parseNetlistLoop.induct with
  | case1 ts gates =>
    intro gs rest h
    rw [parseNetlistLoop_end] at h
    simp only [Except.ok.injEq, Prod.mk.injEq] at h
    exact ⟨[], by simp [h.1], by simp⟩
  | case2 token gates hne h1 =>
    intro r rest h
    simp [parseNetlistLoop_one _ _ _ hne h1] at h
  | case3 token gates hne h1 o =>
    intro r rest h
    simp [parseNetlistLoop_one _ _ _ hne h1] at h
  | case4 token gates hne h1 o i =>
    intro r rest h
    simp [parseNetlistLoop_one _ _ _ hne h1] at h
  | case5 token gates hne h1 o i d hd =>
    intro r rest h
    simp [parseNetlistLoop_one _ _ _ hne h1, hd] at h
  | case6 token gates hne h1 o i d g hd t ts ih =>
    intro r rest h
    rw [parseNetlistLoop_one _ _ _ hne h1] at h
    simp only [hd, if_true] at h
    obtain ⟨new, hn, hk⟩ := ih r rest h
    refine ⟨g.setDelay (atol (substr1 (toLowerCase d))) :: new, by rw [hn]; simp, ?_⟩
    intro x hx
    rcases List.mem_cons.mp hx with rfl | hx
    · exact kindAndArity_one token h1 _ _ _
    · exact hk x hx
  | case7 token gates hne h1 o i d ts g hd ih =>
    intro r rest h
    rw [parseNetlistLoop_one _ _ _ hne h1] at h
    simp only [hd, if_false] at h
    obtain ⟨new, hn, hk⟩ := ih r rest h
    refine ⟨g :: new, by rw [hn]; simp, ?_⟩
    intro x hx
    rcases List.mem_cons.mp hx with rfl | hx
    · exact kindAndArity_one token h1 _ _ _
    · exact hk x hx
  | case8 token gates hne h1 h2 =>
    intro r rest h
    simp [parseNetlistLoop_two _ _ _ hne h1 h2] at h
  | case9 token gates hne h1 h2 o =>
    intro r rest h
    simp [parseNetlistLoop_two _ _ _ hne h1 h2] at h
  | case10 token gates hne h1 h2 o i1 =>
    intro r rest h
    simp [parseNetlistLoop_two _ _ _ hne h1 h2] at h
  | case11 token gates hne h1 h2 o i1 i2 =>
    intro r rest h
    simp [parseNetlistLoop_two _ _ _ hne h1 h2] at h
  | case12 token gates hne h1 h2 o i1 i2 d hd =>
    intro r rest h
    simp [parseNetlistLoop_two _ _ _ hne h1 h2, hd] at h
  | case13 token gates hne h1 h2 o i1 i2 d g hd t ts ih =>
    intro r rest h
    rw [parseNetlistLoop_two _ _ _ hne h1 h2] at h
    simp only [hd, if_true] at h
    obtain ⟨new, hn, hk⟩ := ih r rest h
    refine ⟨g.setDelay (atol (substr1 (toLowerCase d))) :: new, by rw [hn]; simp, ?_⟩
    intro x hx
    rcases List.mem_cons.mp hx with rfl | hx
    · exact kindAndArity_two token h2 _ _ _ _
    · exact hk x hx
  | case14 token gates hne h1 h2 o i1 i2 d ts g hd ih =>
    intro r rest h
    rw [parseNetlistLoop_two _ _ _ hne h1 h2] at h
    simp only [hd, if_false] at h
    obtain ⟨new, hn, hk⟩ := ih r rest h
    refine ⟨g :: new, by rw [hn]; simp, ?_⟩
    intro x hx
    rcases List.mem_cons.mp hx with rfl | hx
    · exact kindAndArity_two token h2 _ _ _ _
    · exact hk x hx
  | case15 token ts gates hne h1 h2 =>
    intro r rest h
    simp [parseNetlistLoop_unknown _ _ _ hne h1 h2] at h

theorem END_firstChar : firstChar END ≠ '#' := by decide

/-- The method `parseNetlist` on well-formed gate records that are closed by END. -/
theorem parseNetlist_section (recs : List GateText) (hw : ∀ g ∈ recs, g.WellFormed)
    (e : Token) (he : toLowerCase e = END) (rest : TokenStream) (gates : List GateRec) :
    parseNetlist (recordTokens recs ++ e :: rest) gates =
      .ok (gates ++ recs.map GateText.gateRec, rest) := by
  rw [parseNetlist_records recs hw e rest gates (fun _ _ _ => by rw [he]; exact END_firstChar),
    he, parseNetlistLoop_end]

theorem gateRec_dropDelay_shape (recs : List GateText) :
    ((recs.map GateText.dropDelay).map GateText.gateRec).map GateRec.shape =
      (recs.map GateText.gateRec).map GateRec.shape := by
  simp [GateText.dropDelay, GateText.gateRec, GateRec.shape]

theorem dropDelay_wellFormed (recs : List GateText) (hw : ∀ g ∈ recs, g.WellFormed) :
    ∀ g ∈ recs.map GateText.dropDelay, g.WellFormed := by
  intro g hg
  obtain ⟨x, hx, rfl⟩ := List.mem_map.mp hg
  exact hw x hx

theorem gateRec_eq_denoted (g : GateText)
    (hd : ∀ d, g.delay = some d → isNumeral d ∧ numeralValue d ≤ 2 ^ 63 - 1) :
    g.gateRec = g.denoted := by
  obtain ⟨kind, out, ins, delay⟩ := g
  cases delay with
  | none => rfl
  | some d =>
    obtain ⟨h1, h2⟩ := hd d rfl
    simp [GateText.gateRec, GateText.denoted, toLowerCase_numeral d h1,
      atol_numeral_small d h1 h2]

end NetlistParser

/-- C2: every `GateRec` that `parseNetlist` appends to the gate list has a name
that is one of the seven lower-case kinds inv, and2, or2, nand2, nor2, xor2,
xnor2, exactly one output, exactly one input when the name is inv and exactly
two inputs for the other six kinds; the records present before the call are
kept. -/
theorem C2_parseNetlist_kind_and_arity (ts : TokenStream) (gates gs : List GateRec)
    (rest : TokenStream) (h : NetlistParser.parseNetlist ts gates = .ok (gs, rest)) :
    ∃ new, gs = gates ++ new ∧ ∀ g ∈ new, g.KindAndArity := by
  cases ts with
  | nil => simp [NetlistParser.parseNetlist] at h
  | cons t ts => exact NetlistParser.parseNetlistLoop_kinds _ ts gates gs rest h

/-- C2 at the section `INV o i And2 c a b #2 END`. -/
theorem C2_parseNetlist_kind_and_arity_witness :
    NetlistParser.parseNetlist (toks "INV o i And2 c a b #2 END") [] =
        .ok ([{ name := "inv".toList, outputs := ["o".toList], inputs := ["i".toList],
                delay := none },
              { name := "and2".toList, outputs := ["c".toList],
                inputs := ["a".toList, "b".toList], delay := some 2 }], []) ∧
      ∃ new, ([⟨"inv".toList, ["o".toList], ["i".toList], none⟩,
              ⟨"and2".toList, ["c".toList], ["a".toList, "b".toList], some 2⟩] : List GateRec) =
          [] ++ new ∧ ∀ g ∈ new, g.KindAndArity :=
  ⟨by decide, C2_parseNetlist_kind_and_arity (toks "INV o i And2 c a b #2 END") [] _ []
    (by decide)⟩

/-- In a build with assertions: in a NETLIST section, when after well-formed gate
records a token stands in gate-kind position that is not the closing END and
lower-cases to a name in neither the one-input set nor the two-input set,
`parseNetlist` stops in the branch "Unknown type of gate" and returns no gate
list. (After a record without delay a token that starts with '#' stands in
delay position, not in gate-kind position.) -/
theorem parseNetlist_unknown_gate_asserts (recs : List GateText)
    (hw : ∀ g ∈ recs, g.WellFormed)
    (bad : Token) (rest : TokenStream) (gates : List GateRec)
    (hne : toLowerCase bad ≠ NetlistParser.END)
    (h1 : toLowerCase bad ∉ NetlistParser.oneInputGates)
    (h2 : toLowerCase bad ∉ NetlistParser.twoInputGates)
    (hpos : ∀ g, recs.getLast? = some g → g.delay = none → firstChar (toLowerCase bad) ≠ '#') :
    NetlistParser.parseNetlist (recordTokens recs ++ bad :: rest) gates =
      .error (.unknownGateType (toLowerCase bad)) := by
  rw [NetlistParser.parseNetlist_records recs hw bad rest gates hpos,
    NetlistParser.parseNetlistLoop_unknown _ _ _ hne h1 h2]

/-- In a build with `NDEBUG` the loop of `parseNetlist` never stops in the branch
"Unknown type of gate". -/
theorem parseNetlistLoopNDEBUG_no_unknown (ts : TokenStream) :
    ∀ (token : Token) (gates : List GateRec) (x : Token),
      NetlistParser.parseNetlistLoopNDEBUG token ts gates ≠ .error (.unknownGateType x) := by
  induction ts using Nat.strongRecMeasure List.length with
  | ind ts ih =>
    intro token gates x
    rw [NetlistParser.parseNetlistLoopNDEBUG_eq]
    split
    · simp
    · split
      · split
        · split
          · split
            · simp
            · exact ih _ (by simp; omega) _ _ _
          · exact ih _ (by simp; omega) _ _ _
        · simp
      · split
        · split
          · split
            · split
              · simp
              · exact ih _ (by simp; omega) _ _ _
            · exact ih _ (by simp; omega) _ _ _
          · simp
        · split
          · simp
          · exact ih _ (by simp) _ _ _

/-- Whatever `parseNetlist` returns in a build with assertions, it returns in a
build with `NDEBUG` too: the two builds differ only where the assertion fails. -/
theorem parseNetlistLoop_ok_NDEBUG (ts : TokenStream) :
    ∀ (token : Token) (gates : List GateRec) (r : List GateRec × TokenStream),
      NetlistParser.parseNetlistLoop token ts gates = .ok r →
      NetlistParser.parseNetlistLoopNDEBUG token ts gates = .ok r := by
  induction ts using Nat.strongRecMeasure List.length with
  | ind ts ih =>
    intro token gates r h
    rw [NetlistParser.parseNetlistLoop_eq] at h
    rw [NetlistParser.parseNetlistLoopNDEBUG_eq]
    by_cases h0 : token = NetlistParser.END
    · rw [if_pos h0] at h ⊢
      exact h
    · rw [if_neg h0] at h ⊢
      by_cases h1 : token ∈ NetlistParser.oneInputGates
      · rw [if_pos h1] at h ⊢
        rcases ts with _ | ⟨o, _ | ⟨i, _ | ⟨d, ts3⟩⟩⟩
        · simp at h
        · simp at h
        · simp at h
        · simp only at h ⊢
          by_cases hd : firstChar (toLowerCase d) = '#'
          · rw [if_pos hd] at h ⊢
            rcases ts3 with _ | ⟨t, ts4⟩
            · simp at h
            · exact ih _ (by simp; omega) _ _ _ h
          · rw [if_neg hd] at h ⊢
            exact ih _ (by simp; omega) _ _ _ h
      · rw [if_neg h1] at h ⊢
        by_cases h2 : token ∈ NetlistParser.twoInputGates
        · rw [if_pos h2] at h ⊢
          rcases ts with _ | ⟨o, _ | ⟨i, _ | ⟨i2, _ | ⟨d, ts3⟩⟩⟩⟩
          · simp at h
          · simp at h
          · simp at h
          · simp at h
          · simp only at h ⊢
            by_cases hd : firstChar (toLowerCase d) = '#'
            · rw [if_pos hd] at h ⊢
              rcases ts3 with _ | ⟨t, ts4⟩
              · simp at h
              · exact ih _ (by simp; omega) _ _ _ h
            · rw [if_neg hd] at h ⊢
              exact ih _ (by simp; omega) _ _ _ h
        · rw [if_neg h2] at h
          simp at h

theorem parseNetlist_ok_NDEBUG (ts : TokenStream) (gates : List GateRec)
    (r : List GateRec × TokenStream) (h : NetlistParser.parseNetlist ts gates = .ok r) :
    NetlistParser.parseNetlistNDEBUG ts gates = .ok r := by
  cases ts with
  | nil => simp [NetlistParser.parseNetlist] at h
  | cons t ts1 => exact parseNetlistLoop_ok_NDEBUG ts1 _ _ _ h

/-- C3: in a build with `NDEBUG` the section `NETLIST and2 c a b #2 BUF d c END`
is not refused. BUF lower-cases to buf, which is in neither set of gate kinds;
`parseNetlist` skips the tokens BUF, d and c one by one and returns the gate
list of the one record `and2 c a b #2`. Only in a build with assertions does the
section make it stop at `assert (false)`. -/
theorem C3_unknown_gate_skipped :
    toLowerCase "BUF".toList ∉ NetlistParser.oneInputGates ∧
    toLowerCase "BUF".toList ∉ NetlistParser.twoInputGates ∧
    NetlistParser.parseNetlistNDEBUG (toks "and2 c a b #2 BUF d c END") [] =
      .ok ([{ name := "and2".toList, outputs := ["c".toList],
              inputs := ["a".toList, "b".toList], delay := some 2 }], []) ∧
    NetlistParser.parseNetlist (toks "and2 c a b #2 BUF d c END") [] =
      .error (.unknownGateType "buf".toList) :=
  ⟨by decide, by decide, by decide, by decide⟩

/-- C4: a gate record may omit its delay token. When the token `t` after the
inputs of a well-formed record does not start with '#', the loop of `parseNetlist`
appends the record and takes `t` as the token of its next round (the next kind,
or END). For every NETLIST section of well-formed gate records, the section and
the section with every delay token deleted are both accepted, with the same
number of records and the same name, outputs and inputs in each record. -/
theorem C4_delay_optional (recs : List GateText) (hw : ∀ g ∈ recs, g.WellFormed)
    (e : Token) (he : toLowerCase e = NetlistParser.END) (rest : TokenStream)
    (gates : List GateRec) :
    (∀ g ∈ recs, ∀ (t : Token) (more : TokenStream) (gs : List GateRec),
      firstChar (toLowerCase t) ≠ '#' →
      NetlistParser.parseNetlistLoop (toLowerCase g.kind)
          (g.dropDelay.tokens.tail ++ t :: more) gs =
        NetlistParser.parseNetlistLoop (toLowerCase t) more (gs ++ [g.dropDelay.gateRec])) ∧
    NetlistParser.parseNetlist (recordTokens recs ++ e :: rest) gates =
      .ok (gates ++ recs.map GateText.gateRec, rest) ∧
    NetlistParser.parseNetlist (recordTokens (recs.map GateText.dropDelay) ++ e :: rest) gates =
      .ok (gates ++ (recs.map GateText.dropDelay).map GateText.gateRec, rest) ∧
    ((recs.map GateText.dropDelay).map GateText.gateRec).length =
      (recs.map GateText.gateRec).length ∧
    ((recs.map GateText.dropDelay).map GateText.gateRec).map GateRec.shape =
      (recs.map GateText.gateRec).map GateRec.shape := by
  refine ⟨?_, NetlistParser.parseNetlist_section recs hw e he rest gates,
    NetlistParser.parseNetlist_section _ (NetlistParser.dropDelay_wellFormed recs hw) e he rest
      gates, by simp, NetlistParser.gateRec_dropDelay_shape recs⟩
  intro g hg t more gs ht
  exact NetlistParser.parseNetlistLoop_record g.dropDelay (hw g hg) t more gs (fun _ => ht)

/-- C4 at the section `inv n a #1 and2 c n b #2 end`, which without the delay
tokens reads `inv n a and2 c n b end`. -/
theorem C4_delay_optional_witness :
    NetlistParser.parseNetlist (toks "inv n a #1 and2 c n b #2 end") [] =
      .ok ([{ name := "inv".toList, outputs := ["n".toList], inputs := ["a".toList],
              delay := some 1 },
            { name := "and2".toList, outputs := ["c".toList],
              inputs := ["n".toList, "b".toList], delay := some 2 }], []) ∧
    NetlistParser.parseNetlist (toks "inv n a and2 c n b end") [] =
      .ok ([{ name := "inv".toList, outputs := ["n".toList], inputs := ["a".toList],
              delay := none },
            { name := "and2".toList, outputs := ["c".toList],
              inputs := ["n".toList, "b".toList], delay := none }], []) := by
  have h := C4_delay_optional
    [{ kind := "inv".toList, out := "n".toList, ins := ["a".toList], delay := some "1".toList },
     { kind := "and2".toList, out := "c".toList, ins := ["n".toList, "b".toList],
       delay := some "2".toList }] (by decide) "end".toList (by decide) [] []
  exact ⟨h.2.1, h.2.2.1⟩

/-- C5, counterexample: the section `AND2 C A B #2 end` gives outputs [c] and
inputs [a, b], not [C] and [A, B]; and the delay numeral 9223372036854775808
(2^63) of `inv o i #9223372036854775808 end` gives the delay 2^63 - 1, the
largest `long`, not the integer that the numeral denotes. -/
theorem C5_counterexample :
    NetlistParser.parseNetlist (toks "AND2 C A B #2 end") [] =
      .ok ([{ name := "and2".toList, outputs := ["c".toList],
              inputs := ["a".toList, "b".toList], delay := some 2 }], []) ∧
    ["c".toList] ≠ ["C".toList] ∧
    NetlistParser.parseNetlist (toks "inv o i #9223372036854775808 end") [] =
      .ok ([{ name := "inv".toList, outputs := ["o".toList], inputs := ["i".toList],
              delay := some 9223372036854775807 }], []) ∧
    isNumeral "9223372036854775808".toList ∧
    numeralValue "9223372036854775808".toList = 9223372036854775808 := by
  decide

/-- C5, amended: for every NETLIST section of well-formed gate records
`kind out in1 [in2] #d` in which every `d` is a decimal numeral that denotes an
integer of at most 2^63 - 1, `parseNetlist` appends, in file order, for each
record the `GateRec` with name the lower-cased kind token, outputs the
lower-cased `out`, inputs the lower-cased `in1` (and `in2`) in file order, and
delay the integer that `d` denotes. -/
theorem C5_gate_record_fields (recs : List GateText) (hw : ∀ g ∈ recs, g.WellFormed)
    (hd : ∀ g ∈ recs, ∃ d, g.delay = some d ∧ isNumeral d ∧ numeralValue d ≤ 2 ^ 63 - 1)
    (e : Token) (he : toLowerCase e = NetlistParser.END) (rest : TokenStream)
    (gates : List GateRec) :
    NetlistParser.parseNetlist (recordTokens recs ++ e :: rest) gates =
      .ok (gates ++ recs.map (fun g =>
          { name := toLowerCase g.kind, outputs := [toLowerCase g.out],
            inputs := g.ins.map toLowerCase,
            delay := g.delay.map (fun d => (numeralValue d : Int)) }), rest) := by
  rw [NetlistParser.parseNetlist_section recs hw e he rest gates]
  have hm : recs.map GateText.gateRec = recs.map GateText.denoted := by
    apply List.map_congr_left
    intro g hg
    obtain ⟨d, h1, h2, h3⟩ := hd g hg
    apply NetlistParser.gateRec_eq_denoted
    intro d1 hd1
    rw [h1] at hd1
    cases hd1
    exact ⟨h2, h3⟩
  rw [hm]
  rfl

/-- C5 at the section `AND2 C A B #2 inv n c #15 END`. -/
theorem C5_gate_record_fields_witness :
    NetlistParser.parseNetlist (toks "AND2 C A B #2 inv n c #15 END") [] =
      .ok ([{ name := "and2".toList, outputs := ["c".toList],
              inputs := ["a".toList, "b".toList], delay := some 2 },
            { name := "inv".toList, outputs := ["n".toList], inputs := ["c".toList],
              delay := some 15 }], []) :=
  C5_gate_record_fields
    [{ kind := "AND2".toList, out := "C".toList, ins := ["A".toList, "B".toList],
       delay := some "2".toList },
     { kind := "inv".toList, out := "n".toList, ins := ["c".toList],
       delay := some "15".toList }] (by decide) (by decide) "END".toList (by decide) [] []

/-! ## Sections -/

namespace NetlistParser

theorem parseSection_inputs (ts : TokenStream) (p : NetlistParser) :
    parseSection "inputs".toList ts p =
      match parsePortList ts p.inputNames with
      | .error e => .error e
      | .ok (names, rest) => .ok ({ p with inputNames := names }, rest) := by
  unfold parseSection
  rw [if_pos rfl]

theorem parseSection_outputs (ts : TokenStream) (p : NetlistParser) :
    parseSection "outputs".toList ts p =
      match parsePortList ts p.outputNames with
      | .error e => .error e
      | .ok (names, rest) => .ok ({ p with outputNames := names }, rest) := by
  unfold parseSection
  rw [if_neg (by decide), if_pos rfl]

theorem parseSection_outvalues (ts : TokenStream) (p : NetlistParser) :
    parseSection "outvalues".toList ts p =
      match parseOutValues ts p.outValues with
      | .error e => .error e
      | .ok (m, rest) => .ok ({ p with outValues := m }, rest) := by
  unfold parseSection
  rw [if_neg (by decide), if_neg (by decide), if_pos rfl]

theorem parseSection_finish (ts : TokenStream) (p : NetlistParser) :
    parseSection "finish".toList ts p =
      match ts with
      | [] => .error .noMoreTokens
      | t :: rest => .ok ({ p with finishTime := some (atol (toLowerCase t)) }, rest) := by
  unfold parseSection
  rw [if_neg (by decide), if_neg (by decide), if_neg (by decide), if_pos rfl]

theorem parseSection_initlist (ts : TokenStream) (p : NetlistParser) :
    parseSection "initlist".toList ts p =
      match parseInitList ts p.inputStimulusMap with
      | .error e => .error e
      | .ok (m, rest) => .ok ({ p with inputStimulusMap := m }, rest) := by
  unfold parseSection
  rw [if_neg (by decide), if_neg (by decide), if_neg (by decide), if_neg (by decide),
    if_pos rfl]

theorem parseSection_netlist (ts : TokenStream) (p : NetlistParser) :
    parseSection "netlist".toList ts p =
      match parseNetlist ts p.gates with
      | .error e => .error e
      | .ok (gs, rest) => .ok ({ p with gates := gs }, rest) := by
  unfold parseSection
  rw [if_neg (by decide), if_neg (by decide), if_neg (by decide), if_neg (by decide),
    if_neg (by decide), if_pos rfl]

theorem parsePortList_section : ∀ (nets : List Token),
    (∀ n ∈ nets, toLowerCase n ≠ END) →
    ∀ (e : Token), toLowerCase e = END → ∀ (rest : TokenStream) (names : List Token),
      parsePortList (nets ++ e :: rest) names = .ok (names ++ nets.map toLowerCase, rest) := by
  intro nets
  induction nets with
  | nil =>
    intro _ e he rest names
    simp [parsePortList, he, parsePortListLoop_end]
  | cons n ns ih =>
    intro hn e he rest names
    have h1 : toLowerCase n ≠ END := hn n (List.mem_cons_self _ _)
    have h2 := ih (fun x hx => hn x (List.mem_cons_of_mem _ hx)) e he rest
      (names ++ [toLowerCase n])
    cases hX : ns ++ e :: rest with
    | nil => simp at hX
    | cons t ts =>
      rw [hX] at h2
      simp only [List.cons_append, parsePortList, hX]
      rw [parsePortListLoop_cons _ _ _ _ h1]
      simpa [parsePortList] using h2

theorem parseOutValues_section : ∀ (entries : List (Token × Token)),
    (∀ x ∈ entries, toLowerCase x.1 ≠ END) →
    ∀ (e : Token), toLowerCase e = END →
    ∀ (rest : TokenStream) (m : List (Token × LogicVal)),
      parseOutValues (pairTokens entries ++ e :: rest) m =
        .ok (entries.foldl
          (fun m x => mapInsert m (toLowerCase x.1) (firstChar (toLowerCase x.2))) m, rest) := by
  intro entries
  induction entries with
  | nil =>
    intro _ e he rest m
    simp [pairTokens, parseOutValues, he, parseOutValuesLoop_end]
  | cons x xs ih =>
    intro hn e he rest m
    have h1 : toLowerCase x.1 ≠ END := hn x (List.mem_cons_self _ _)
    have h2 := ih (fun y hy => hn y (List.mem_cons_of_mem _ hy)) e he rest
      (mapInsert m (toLowerCase x.1) (firstChar (toLowerCase x.2)))
    have hp : pairTokens (x :: xs) ++ e :: rest = x.1 :: x.2 :: (pairTokens xs ++ e :: rest) := by
      simp [pairTokens]
    rw [hp]
    cases hX : pairTokens xs ++ e :: rest with
    | nil => simp at hX
    | cons t ts =>
      rw [hX] at h2
      simp only [parseOutValues]
      rw [parseOutValuesLoop_cons _ _ _ _ _ h1]
      simpa [parseOutValues] using h2

theorem parseInitListLoop_section : ∀ (entries : List (Token × Token)),
    (∀ x ∈ entries, toLowerCase x.1 ≠ END) →
    ∀ (e : Token), toLowerCase e = END →
    ∀ (rest : TokenStream) (l : List (SimTime × LogicVal)) (t : Token) (ts : TokenStream),
      pairTokens entries ++ e :: rest = t :: ts →
      parseInitListLoop (toLowerCase t) ts l =
        .ok (l ++ entries.map
          (fun x => (atol (toLowerCase x.1), firstChar (toLowerCase x.2))), rest) := by
  intro entries
  induction entries with
  | nil =>
    intro _ e he rest l t ts hX
    simp only [pairTokens, List.map_nil, List.flatten_nil, List.nil_append,
      List.cons.injEq] at hX
    obtain ⟨rfl, rfl⟩ := hX
    simp [he, parseInitListLoop_end]
  | cons x xs ih =>
    intro hn e he rest l t ts hX
    have h1 : toLowerCase x.1 ≠ END := hn x (List.mem_cons_self _ _)
    have hp : pairTokens (x :: xs) ++ e :: rest = x.1 :: x.2 :: (pairTokens xs ++ e :: rest) := by
      simp [pairTokens]
    rw [hp] at hX
    simp only [List.cons.injEq] at hX
    obtain ⟨rfl, rfl⟩ := hX
    cases hY : pairTokens xs ++ e :: rest with
    | nil => simp at hY
    | cons t2 ts2 =>
      rw [parseInitListLoop_cons _ _ _ _ _ h1]
      have h2 := ih (fun y hy => hn y (List.mem_cons_of_mem _ hy)) e he rest
        (l ++ [(atol (toLowerCase x.1), firstChar (toLowerCase x.2))]) t2 ts2 hY
      rw [h2]
      simp

theorem parseInitList_section (net : Token) (entries : List (Token × Token))
    (hn : ∀ x ∈ entries, toLowerCase x.1 ≠ END) (e : Token) (he : toLowerCase e = END)
    (rest : TokenStream) (m : List (Token × List (SimTime × LogicVal))) :
    parseInitList (net :: (pairTokens entries ++ e :: rest)) m =
      .ok (mapInsert m (toLowerCase net)
        (entries.map (fun x => (atol (toLowerCase x.1), firstChar (toLowerCase x.2)))),
        rest) := by
  cases hX : pairTokens entries ++ e :: rest with
  | nil => simp at hX
  | cons t ts =>
    simp only [parseInitList]
    rw [parseInitListLoop_section entries hn e he rest [] t ts hX]
    simp

/-- The outer loop of `parse` on a section of the right layout: the members
change as `Section.effect` says, and the loop goes on behind the section. -/
theorem parseFrom_section (s : Section) (hs : s.Shaped) (p : NetlistParser)
    (rest : TokenStream) :
    parseFrom p (s.tokens ++ rest) = parseFrom (s.effect p) rest := by
  cases s with
  | inputs kw nets e =>
    obtain ⟨h1, h2, h3⟩ := hs
    simp only [Section.tokens, List.cons_append, List.append_assoc, List.singleton_append]
    rw [parseFrom_cons, h1, parseSection_inputs, parsePortList_section nets h3 e h2]
    rfl
  | outputs kw nets e =>
    obtain ⟨h1, h2, h3⟩ := hs
    simp only [Section.tokens, List.cons_append, List.append_assoc, List.singleton_append]
    rw [parseFrom_cons, h1, parseSection_outputs, parsePortList_section nets h3 e h2]
    rfl
  | outvalues kw entries e =>
    obtain ⟨h1, h2, h3⟩ := hs
    simp only [Section.tokens, List.cons_append, List.append_assoc, List.singleton_append]
    rw [parseFrom_cons, h1, parseSection_outvalues, parseOutValues_section entries h3 e h2]
    rfl
  | finish kw time =>
    have h1 : toLowerCase kw = "finish".toList := hs
    simp only [Section.tokens, List.cons_append, List.nil_append]
    rw [parseFrom_cons, h1, parseSection_finish]
    rfl
  | initlist kw net entries e =>
    obtain ⟨h1, h2, h3⟩ := hs
    simp only [Section.tokens, List.cons_append, List.append_assoc, List.singleton_append]
    rw [parseFrom_cons, h1, parseSection_initlist, parseInitList_section net entries h3 e h2]
    rfl
  | netlist kw records e =>
    obtain ⟨h1, h2, h3⟩ := hs
    simp only [Section.tokens, List.cons_append, List.append_assoc, List.singleton_append]
    rw [parseFrom_cons, h1, parseSection_netlist, parseNetlist_section records h3 e h2]
    rfl

theorem parseFrom_sections : ∀ (secs : List Section), (∀ s ∈ secs, s.Shaped) →
    ∀ (p : NetlistParser) (rest : TokenStream),
      parseFrom p (sectionTokens secs ++ rest) = parseFrom (secs.foldl Section.effect p) rest := by
  intro secs
  induction secs with
  | nil =>
    intro _ p rest
    simp [sectionTokens]
  | cons s ss ih =>
    intro hs p rest
    have e1 : sectionTokens (s :: ss) ++ rest = s.tokens ++ (sectionTokens ss ++ rest) := by
      simp [sectionTokens]
    rw [e1, parseFrom_section s (hs s (List.mem_cons_self _ _)), List.foldl_cons]
    exact ih (fun x hx => hs x (List.mem_cons_of_mem _ hx)) _ rest

end NetlistParser

/-! ## A stream that ends inside a section -/

namespace NetlistParser

theorem parsePortListLoop_noEnd (token : Token) (ts : TokenStream) (names : List Token) :
    token ≠ END → (∀ t ∈ ts, toLowerCase t ≠ END) →
      parsePortListLoop token ts names = .error .noMoreTokens := by
  induction token, ts, names using parsePortListLoop.induct with
  | case1 ts names => intro h; exact absurd rfl h
  | case2 token names hne => intro _ _; exact parsePortListLoop_nil _ _ hne
  | case3 token names hne t ts ih =>
    intro _ hts
    rw [parsePortListLoop_cons _ _ _ _ hne]
    exact ih (hts t (List.mem_cons_self _ _)) (fun x hx => hts x (List.mem_cons_of_mem _ hx))

theorem parseOutValuesLoop_noEnd (token : Token) (ts : TokenStream)
    (m : List (Token × LogicVal)) :
    token ≠ END → (∀ t ∈ ts, toLowerCase t ≠ END) →
      parseOutValuesLoop token ts m = .error .noMoreTokens := by
  induction token, ts, m using parseOutValuesLoop.induct with
  | case1 ts m => intro h; exact absurd rfl h
  | case2 token m hne => intro _ _; exact parseOutValuesLoop_nil _ _ hne
  | case3 token m hne v => intro _ _; exact parseOutValuesLoop_one _ _ _ hne
  | case4 token m hne v t ts ih =>
    intro _ hts
    rw [parseOutValuesLoop_cons _ _ _ _ _ hne]
    exact ih (hts t (by simp)) (fun x hx => hts x (by simp [hx]))

theorem parseInitListLoop_noEnd (token : Token) (ts : TokenStream)
    (l : List (SimTime × LogicVal)) :
    token ≠ END → (∀ t ∈ ts, toLowerCase t ≠ END) →
      parseInitListLoop token ts l = .error .noMoreTokens := by
  induction token, ts, l using parseInitListLoop.induct with
  | case1 ts l => intro h; exact absurd rfl h
  | case2 token l hne => intro _ _; exact parseInitListLoop_nil _ _ hne
  | case3 token l hne v => intro _ _; exact parseInitListLoop_one _ _ _ hne
  | case4 token l hne v t ts ih =>
    intro _ hts
    rw [parseInitListLoop_cons _ _ _ _ _ hne]
    exact ih (hts t (by simp)) (fun x hx => hts x (by simp [hx]))

theorem parseNetlistLoop_noEnd (token : Token) (ts : TokenStream) (gates : List GateRec) :
    token ≠ END → (∀ t ∈ ts, toLowerCase t ≠ END) →
      parseNetlistLoop token ts gates = .error .noMoreTokens ∨
        ∃ g, parseNetlistLoop token ts gates = .error (.unknownGateType g) := by
  induction token, ts, gates using parseNetlistLoop.induct with
  | case1 ts gates => intro h; exact absurd rfl h
  | case2 token gates hne h1 =>
    intro _ _; left; simp [parseNetlistLoop_one _ _ _ hne h1]
  | case3 token gates hne h1 o =>
    intro _ _; left; simp [parseNetlistLoop_one _ _ _ hne h1]
  | case4 token gates hne h1 o i =>
    intro _ _; left; simp [parseNetlistLoop_one _ _ _ hne h1]
  | case5 token gates hne h1 o i d hd =>
    intro _ _; left; simp [parseNetlistLoop_one _ _ _ hne h1, hd]
  | case6 token gates hne h1 o i d g hd t ts ih =>
    intro _ hts
    rw [parseNetlistLoop_one _ _ _ hne h1]
    simp only [hd, if_true]
    exact ih (hts t (by simp)) (fun x hx => hts x (by simp [hx]))
  | case7 token gates hne h1 o i d ts g hd ih =>
    intro _ hts
    rw [parseNetlistLoop_one _ _ _ hne h1]
    simp only [hd, if_false]
    exact ih (hts d (by simp)) (fun x hx => hts x (by simp [hx]))
  | case8 token gates hne h1 h2 =>
    intro _ _; left; simp [parseNetlistLoop_two _ _ _ hne h1 h2]
  | case9 token gates hne h1 h2 o =>
    intro _ _; left; simp [parseNetlistLoop_two _ _ _ hne h1 h2]
  | case10 token gates hne h1 h2 o i1 =>
    intro _ _; left; simp [parseNetlistLoop_two _ _ _ hne h1 h2]
  | case11 token gates hne h1 h2 o i1 i2 =>
    intro _ _; left; simp [parseNetlistLoop_two _ _ _ hne h1 h2]
  | case12 token gates hne h1 h2 o i1 i2 d hd =>
    intro _ _; left; simp [parseNetlistLoop_two _ _ _ hne h1 h2, hd]
  | case13 token gates hne h1 h2 o i1 i2 d g hd t ts ih =>
    intro _ hts
    rw [parseNetlistLoop_two _ _ _ hne h1 h2]
    simp only [hd, if_true]
    exact ih (hts t (by simp)) (fun x hx => hts x (by simp [hx]))
  | case14 token gates hne h1 h2 o i1 i2 d ts g hd ih =>
    intro _ hts
    rw [parseNetlistLoop_two _ _ _ hne h1 h2]
    simp only [hd, if_false]
    exact ih (hts d (by simp)) (fun x hx => hts x (by simp [hx]))
  | case15 token ts gates hne h1 h2 =>
    intro _ _; right; exact ⟨token, parseNetlistLoop_unknown _ _ _ hne h1 h2⟩

theorem parsePortList_noEnd (ts : TokenStream) (names : List Token)
    (h : ∀ t ∈ ts, toLowerCase t ≠ END) : parsePortList ts names = .error .noMoreTokens := by
  cases ts with
  | nil => rfl
  | cons t ts =>
    exact parsePortListLoop_noEnd _ ts names (h t (by simp)) (fun x hx => h x (by simp [hx]))

theorem parseOutValues_noEnd (ts : TokenStream) (m : List (Token × LogicVal))
    (h : ∀ t ∈ ts, toLowerCase t ≠ END) : parseOutValues ts m = .error .noMoreTokens := by
  cases ts with
  | nil => rfl
  | cons t ts =>
    exact parseOutValuesLoop_noEnd _ ts m (h t (by simp)) (fun x hx => h x (by simp [hx]))

theorem parseInitList_noEnd (ts : TokenStream) (m : List (Token × List (SimTime × LogicVal)))
    (h : ∀ t ∈ ts, toLowerCase t ≠ END) : parseInitList ts m = .error .noMoreTokens := by
  rcases ts with _ | ⟨inp, _ | ⟨t, ts⟩⟩
  · rfl
  · rfl
  · simp only [parseInitList]
    rw [parseInitListLoop_noEnd _ ts [] (h t (by simp)) (fun x hx => h x (by simp [hx]))]

theorem parseNetlist_noEnd (ts : TokenStream) (gates : List GateRec)
    (h : ∀ t ∈ ts, toLowerCase t ≠ END) :
    parseNetlist ts gates = .error .noMoreTokens ∨
      ∃ g, parseNetlist ts gates = .error (.unknownGateType g) := by
  cases ts with
  | nil => left; rfl
  | cons t ts =>
    exact parseNetlistLoop_noEnd _ ts gates (h t (by simp)) (fun x hx => h x (by simp [hx]))

theorem parseFrom_error (p : NetlistParser) (t : Token) (ts : TokenStream) (e : ParseError)
    (h : parseSection (toLowerCase t) ts p = .error e) : parseFrom p (t :: ts) = .error e := by
  rw [parseFrom_cons, h]

end NetlistParser

/-- C8: parsing is case-insensitive in every token: for every token stream,
`NetlistParser::parse` gives the same outcome (the same six members, or the same
failure) for the stream and for the stream with every token converted to lower
case. -/
theorem C8_parse_case_insensitive (ts : TokenStream) :
    NetlistParser.parse (ts.map toLowerCase) = NetlistParser.parse ts := by
  unfold NetlistParser.parse NetlistParser.parseFrom
  rw [List.length_map]
  exact NetlistParser.parseLoop_lower _ ts _

/-- C9: unexpected end of input is fatal. When `parse` has read the stream `pre`
completely and come back to its outer loop, and the stream goes on with an
INPUTS, OUTPUTS, OUTVALUES, INITLIST or NETLIST keyword and a body without any
END token, or ends with the FINISH keyword, then `parse` fails: the assertion of
`nextToken` fails (in a NETLIST body the failure may be the one of an unknown
gate kind before the end is reached), and no result is produced. -/
theorem C9_unexpected_end_fatal (pre : TokenStream) (p : NetlistParser)
    (hpre : NetlistParser.parse pre = .ok p) (kw : Token) (body : TokenStream)
    (hopen :
      (toLowerCase kw ∈ ["inputs".toList, "outputs".toList, "outvalues".toList,
          "initlist".toList, "netlist".toList] ∧
        ∀ t ∈ body, toLowerCase t ≠ NetlistParser.END) ∨
      (toLowerCase kw = "finish".toList ∧ body = [])) :
    NetlistParser.parse (pre ++ kw :: body) = .error .noMoreTokens ∨
      ∃ g, NetlistParser.parse (pre ++ kw :: body) = .error (.unknownGateType g) := by
  have happ : NetlistParser.parse (pre ++ kw :: body) = NetlistParser.parseFrom p (kw :: body) :=
    NetlistParser.parseFrom_append pre.length pre (le_refl _) _ p (kw :: body) hpre
  rw [happ]
  rcases hopen with ⟨hk, hb⟩ | ⟨hk, hb⟩
  · simp only [List.mem_cons, List.mem_singleton, List.not_mem_nil, or_false] at hk
    rcases hk with hk | hk | hk | hk | hk
    · left
      apply NetlistParser.parseFrom_error
      rw [hk, NetlistParser.parseSection_inputs, NetlistParser.parsePortList_noEnd body _ hb]
    · left
      apply NetlistParser.parseFrom_error
      rw [hk, NetlistParser.parseSection_outputs, NetlistParser.parsePortList_noEnd body _ hb]
    · left
      apply NetlistParser.parseFrom_error
      rw [hk, NetlistParser.parseSection_outvalues, NetlistParser.parseOutValues_noEnd body _ hb]
    · left
      apply NetlistParser.parseFrom_error
      rw [hk, NetlistParser.parseSection_initlist, NetlistParser.parseInitList_noEnd body _ hb]
    · rcases NetlistParser.parseNetlist_noEnd body p.gates hb with h | ⟨g, h⟩
      · left
        apply NetlistParser.parseFrom_error
        rw [hk, NetlistParser.parseSection_netlist, h]
      · right
        refine ⟨g, ?_⟩
        apply NetlistParser.parseFrom_error
        rw [hk, NetlistParser.parseSection_netlist, h]
  · left
    subst hb
    apply NetlistParser.parseFrom_error
    rw [hk, NetlistParser.parseSection_finish]

/-- C9 at the stream `INPUTS a b END FINISH 10 NETLIST and2 c a`, which ends
inside the NETLIST section. -/
theorem C9_unexpected_end_fatal_witness :
    NetlistParser.parse (toks "INPUTS a b END FINISH 10" ++ "NETLIST".toList :: toks "and2 c a") =
        .error .noMoreTokens ∨
      ∃ g, NetlistParser.parse
        (toks "INPUTS a b END FINISH 10" ++ "NETLIST".toList :: toks "and2 c a") =
          .error (.unknownGateType g) :=
  C9_unexpected_end_fatal (toks "INPUTS a b END FINISH 10")
    { inputNames := ["a".toList, "b".toList], outputNames := [], outValues := [],
      inputStimulusMap := [], gates := [], finishTime := some 10 } (by decide)
    "NETLIST".toList (toks "and2 c a") (Or.inl (by decide))

/-! ## The members after a list of sections -/

theorem mapFind_eq_none_iff {β : Type} (m : List (Token × β)) (k : Token) :
    mapFind m k = none ↔ k ∉ m.map Prod.fst := by
  unfold mapFind
  cases h : m.find? (fun p => decide (p.1 = k)) with
  | none =>
    simp only [true_iff]
    rw [List.find?_eq_none] at h
    intro hk
    obtain ⟨x, hx, rfl⟩ := List.mem_map.mp hk
    exact absurd (h x hx) (by simp)
  | some x =>
    have h1 := List.find?_some h
    have h2 := List.mem_of_find?_eq_some h
    simp only [decide_eq_true_eq] at h1
    constructor
    · intro h0; cases h0
    · intro hk; exact absurd (List.mem_map.mpr ⟨x, h2, h1⟩) hk

theorem foldl_mapInsert_nodup {β : Type} : ∀ (entries m : List (Token × β)),
    (m.map Prod.fst ++ entries.map Prod.fst).Nodup →
      entries.foldl (fun m x => mapInsert m x.1 x.2) m = m ++ entries := by
  intro entries
  induction entries with
  | nil => intro m _; simp
  | cons x xs ih =>
    intro m hnd
    have hx : x.1 ∉ m.map Prod.fst := by
      intro hm
      rw [List.nodup_append] at hnd
      exact hnd.2.2 hm (List.mem_map.mpr ⟨x, List.mem_cons_self _ _, rfl⟩)
    have hins : mapInsert m x.1 x.2 = m ++ [x] := by
      unfold mapInsert
      rw [(mapFind_eq_none_iff m x.1).mpr hx]
    rw [List.foldl_cons, hins, ih (m ++ [x]) (by simpa [List.append_assoc] using hnd)]
    simp

theorem mapOfEntries_nodup {β : Type} (entries : List (Token × β))
    (h : (entries.map Prod.fst).Nodup) : mapOfEntries entries = entries := by
  unfold mapOfEntries
  rw [foldl_mapInsert_nodup entries [] (by simpa using h)]
  simp

namespace NetlistParser

theorem effect_inputNames : ∀ (secs : List Section) (p : NetlistParser),
    (secs.foldl Section.effect p).inputNames =
      p.inputNames ++ (secs.map Section.inputNets).flatten := by
  intro secs
  induction secs with
  | nil => intro p; simp
  | cons s ss ih =>
    intro p
    rw [List.foldl_cons, ih]
    cases s <;> simp [Section.effect, Section.inputNets]

theorem effect_outputNames : ∀ (secs : List Section) (p : NetlistParser),
    (secs.foldl Section.effect p).outputNames =
      p.outputNames ++ (secs.map Section.outputNets).flatten := by
  intro secs
  induction secs with
  | nil => intro p; simp
  | cons s ss ih =>
    intro p
    rw [List.foldl_cons, ih]
    cases s <;> simp [Section.effect, Section.outputNets]

theorem effect_outValues : ∀ (secs : List Section) (p : NetlistParser),
    (secs.foldl Section.effect p).outValues =
      ((secs.map Section.outValueEntries).flatten).foldl (fun m x => mapInsert m x.1 x.2)
        p.outValues := by
  intro secs
  induction secs with
  | nil => intro p; simp
  | cons s ss ih =>
    intro p
    rw [List.foldl_cons, ih]
    cases s <;> simp [Section.effect, Section.outValueEntries, List.foldl_map]

theorem effect_gates : ∀ (secs : List Section), (∀ s ∈ secs, s.Numbered) →
    ∀ (p : NetlistParser),
      (secs.foldl Section.effect p).gates = p.gates ++ (secs.map Section.gateRecords).flatten := by
  intro secs
  induction secs with
  | nil => intro _ p; simp
  | cons s ss ih =>
    intro hn p
    rw [List.foldl_cons, ih (fun x hx => hn x (List.mem_cons_of_mem _ hx))]
    have hs := hn s (List.mem_cons_self _ _)
    cases s with
    | netlist kw records e =>
      have hm : records.map GateText.gateRec = records.map GateText.denoted := by
        apply List.map_congr_left
        intro g hg
        apply gateRec_eq_denoted
        intro d hd
        exact hs g hg d (by simp [hd])
      simp [Section.effect, Section.gateRecords, hm]
    | _ => simp [Section.effect, Section.gateRecords]

theorem effect_inputStimulusMap : ∀ (secs : List Section), (∀ s ∈ secs, s.Numbered) →
    ∀ (p : NetlistParser),
      (secs.foldl Section.effect p).inputStimulusMap =
        ((secs.map Section.stimulusEntries).flatten).foldl (fun m x => mapInsert m x.1 x.2)
          p.inputStimulusMap := by
  intro secs
  induction secs with
  | nil => intro _ p; simp
  | cons s ss ih =>
    intro hn p
    rw [List.foldl_cons, ih (fun x hx => hn x (List.mem_cons_of_mem _ hx))]
    have hs := hn s (List.mem_cons_self _ _)
    cases s with
    | initlist kw net entries e =>
      have hm : entries.map (fun x => (atol (toLowerCase x.1), firstChar (toLowerCase x.2))) =
          entries.map (fun x => ((numeralValue x.1 : Int), firstChar (toLowerCase x.2))) := by
        apply List.map_congr_left
        intro x hx
        obtain ⟨h1, h2⟩ := hs x hx
        rw [toLowerCase_numeral x.1 h1, atol_numeral_small x.1 h1 h2]
      simp [Section.effect, Section.stimulusEntries, hm]
    | _ => simp [Section.effect, Section.stimulusEntries]

theorem effect_finishTime : ∀ (secs : List Section), (∀ s ∈ secs, s.Numbered) →
    ∀ (p : NetlistParser),
      (secs.foldl Section.effect p).finishTime =
        match lastFinish secs with
        | some v => some v
        | none => p.finishTime := by
  intro secs
  induction secs with
  | nil => intro _ p; simp [lastFinish]
  | cons s ss ih =>
    intro hn p
    rw [List.foldl_cons, ih (fun x hx => hn x (List.mem_cons_of_mem _ hx))]
    have hs := hn s (List.mem_cons_self _ _)
    cases s with
    | finish kw time =>
      obtain ⟨h1, h2⟩ := hs
      have hv : atol (toLowerCase time) = (numeralValue time : Int) := by
        rw [toLowerCase_numeral time h1, atol_numeral_small time h1 h2]
      simp only [lastFinish, List.filterMap_cons, Section.finishValue, Section.effect, hv]
      cases hl : (List.filterMap Section.finishValue ss).getLast? with
      | none =>
        rw [List.getLast?_eq_none_iff] at hl
        simp [hl]
      | some v =>
        have hne : List.filterMap Section.finishValue ss ≠ [] := by
          intro h0; simp [h0] at hl
        obtain ⟨y, ys, hy⟩ := List.exists_cons_of_ne_nil hne
        rw [hy] at hl ⊢
        simp [List.getLast?_cons_cons, hl]
    | _ => simp [lastFinish, Section.effect, Section.finishValue]

end NetlistParser

theorem atol_no_number (t : Token)
    (h : ∀ c, t.head? = some c →
      isspace c = false ∧ isdigit c = false ∧ c ≠ '-' ∧ c ≠ '+') : atol t = 0 := by
  cases t with
  | nil => decide
  | cons c cs =>
    obtain ⟨h1, h2, h3, h4⟩ := h c rfl
    unfold atol
    simp only [List.dropWhile_cons, h1]
    split
    · rename_i heq
      simp only [Bool.false_eq_true, if_false, List.cons.injEq] at heq
      exact absurd heq.1 h3
    · rename_i heq
      simp only [Bool.false_eq_true, if_false, List.cons.injEq] at heq
      exact absurd heq.1 h4
    · simp only [Bool.false_eq_true, if_false, digitsValue, h2]
      decide

/-- C1, counterexample: the nets of `INPUTS A END` are recorded as [a], not
[A]; the numeral 9223372036854775808 (2^63) after FINISH gives the finish time
2^63 - 1; and of two INITLIST sections for the net a only the first is held, the
entry (5, 0) of the second is dropped. -/
theorem C1_counterexample :
    NetlistParser.parse (toks "INPUTS A END") =
      .ok { NetlistParser.init with inputNames := ["a".toList] } ∧
    ["a".toList] ≠ ["A".toList] ∧
    NetlistParser.parse (toks "FINISH 9223372036854775808") =
      .ok { NetlistParser.init with finishTime := some 9223372036854775807 } ∧
    isNumeral "9223372036854775808".toList ∧
    numeralValue "9223372036854775808".toList = 9223372036854775808 ∧
    NetlistParser.parse (toks "INITLIST a 0 1 END INITLIST a 5 0 END") =
      .ok { NetlistParser.init with inputStimulusMap := [("a".toList, [(0, '1')])] } := by
  decide

/-- C1, amended: `parse` dispatches on the lower-cased section keyword. For
every token stream made only of well-formed INPUTS, OUTPUTS, OUTVALUES, FINISH,
INITLIST and NETLIST sections in any order, whose numerals denote integers of at
most 2^63 - 1, `parse` succeeds; inputNames is the concatenation of the
lower-cased nets of the INPUTS sections, outputNames that of the OUTPUTS
sections, finishTime the integer after the last FINISH, outValues and
inputStimulusMap are the maps of the OUTVALUES and INITLIST entries inserted in
file order (the first entry of a net is kept; they hold exactly the entries
when no net occurs twice), and gates is the concatenation of the records of the
NETLIST sections. On the scenario of the specification this gives inputs
[a, b], outputs [c], outValues c -> 1, finishTime 10, the stimulus a -> [(0, 1)],
b -> [(0, 1)] and the one gate record and2 with output c, inputs [a, b] and
delay 2. -/
theorem C1_parse_sections (secs : List Section) (hs : ∀ s ∈ secs, s.Shaped)
    (hn : ∀ s ∈ secs, s.Numbered) :
    (∃ p, NetlistParser.parse (sectionTokens secs) = .ok p ∧
      p.inputNames = (secs.map Section.inputNets).flatten ∧
      p.outputNames = (secs.map Section.outputNets).flatten ∧
      p.finishTime = lastFinish secs ∧
      p.outValues = mapOfEntries (secs.map Section.outValueEntries).flatten ∧
      p.inputStimulusMap = mapOfEntries (secs.map Section.stimulusEntries).flatten ∧
      p.gates = (secs.map Section.gateRecords).flatten ∧
      ((((secs.map Section.outValueEntries).flatten).map Prod.fst).Nodup →
        p.outValues = (secs.map Section.outValueEntries).flatten) ∧
      ((((secs.map Section.stimulusEntries).flatten).map Prod.fst).Nodup →
        p.inputStimulusMap = (secs.map Section.stimulusEntries).flatten)) ∧
    NetlistParser.parse (toks ("INPUTS a b END OUTPUTS c END OUTVALUES c 1 END FINISH 10 " ++
        "INITLIST a 0 1 END INITLIST b 0 1 END NETLIST and2 c a b #2 END")) =
      .ok { inputNames := ["a".toList, "b".toList], outputNames := ["c".toList],
            outValues := [("c".toList, '1')], finishTime := some 10,
            inputStimulusMap := [("a".toList, [(0, '1')]), ("b".toList, [(0, '1')])],
            gates := [⟨"and2".toList, ["c".toList], ["a".toList, "b".toList], some 2⟩] } := by
  refine ⟨⟨secs.foldl Section.effect NetlistParser.init, ?_, ?_, ?_, ?_, ?_, ?_, ?_, ?_, ?_⟩,
    by decide⟩
  · have h := NetlistParser.parseFrom_sections secs hs NetlistParser.init []
    simpa [NetlistParser.parse, NetlistParser.parseFrom_nil] using h
  · rw [NetlistParser.effect_inputNames]; rfl
  · rw [NetlistParser.effect_outputNames]; rfl
  · rw [NetlistParser.effect_finishTime secs hn]
    cases lastFinish secs <;> rfl
  · rw [NetlistParser.effect_outValues]; rfl
  · rw [NetlistParser.effect_inputStimulusMap secs hn]; rfl
  · rw [NetlistParser.effect_gates secs hn]; rfl
  · intro hd
    rw [NetlistParser.effect_outValues]
    exact mapOfEntries_nodup _ hd
  · intro hd
    rw [NetlistParser.effect_inputStimulusMap secs hn]
    exact mapOfEntries_nodup _ hd

/-- C1 at the scenario of the specification, given section by section. -/
theorem C1_parse_sections_witness :
    ∃ p, NetlistParser.parse (sectionTokens scenarioSections) = .ok p ∧
      p.inputNames = (scenarioSections.map Section.inputNets).flatten ∧
      p.outputNames = (scenarioSections.map Section.outputNets).flatten ∧
      p.finishTime = lastFinish scenarioSections ∧
      p.outValues = mapOfEntries (scenarioSections.map Section.outValueEntries).flatten ∧
      p.inputStimulusMap = mapOfEntries (scenarioSections.map Section.stimulusEntries).flatten ∧
      p.gates = (scenarioSections.map Section.gateRecords).flatten ∧
      ((((scenarioSections.map Section.outValueEntries).flatten).map Prod.fst).Nodup →
        p.outValues = (scenarioSections.map Section.outValueEntries).flatten) ∧
      ((((scenarioSections.map Section.stimulusEntries).flatten).map Prod.fst).Nodup →
        p.inputStimulusMap = (scenarioSections.map Section.stimulusEntries).flatten) :=
  (C1_parse_sections scenarioSections (by decide) (by decide)).1

/-- C10, counterexample: in `FINISH soon`, in `INITLIST a x1 1 END` and in
`NETLIST inv o i #fast END` the token in number position is no decimal numeral,
and `parse` succeeds on each, with the number 0. -/
theorem C10_counterexample :
    ¬ isNumeral "soon".toList ∧
    NetlistParser.parse (toks "FINISH soon") =
      .ok { NetlistParser.init with finishTime := some 0 } ∧
    ¬ isNumeral "x1".toList ∧
    NetlistParser.parse (toks "INITLIST a x1 1 END") =
      .ok { NetlistParser.init with inputStimulusMap := [("a".toList, [(0, '1')])] } ∧
    ¬ isNumeral "fast".toList ∧
    NetlistParser.parse (toks "NETLIST inv o i #fast END") =
      .ok { NetlistParser.init with
            gates := [⟨"inv".toList, ["o".toList], ["i".toList], some 0⟩] } := by
  decide

/-- C10, amended: a malformed number is not fatal. For every netlist made of
sections of the right layout, whatever tokens stand after FINISH, in the time
positions of INITLIST and after '#' in a gate delay, `parse` succeeds: the
members are those of `Section.effect`, where each such token is converted by
`atol`, which accepts every string; a token that starts neither with white
space, a sign nor a digit is read as 0. -/
theorem C10_malformed_number_not_fatal (secs : List Section) (hs : ∀ s ∈ secs, s.Shaped) :
    NetlistParser.parse (sectionTokens secs) =
        .ok (secs.foldl Section.effect NetlistParser.init) ∧
      ∀ t : Token,
        (∀ c, t.head? = some c → isspace c = false ∧ isdigit c = false ∧ c ≠ '-' ∧ c ≠ '+') →
        atol t = 0 := by
  refine ⟨?_, atol_no_number⟩
  have h := NetlistParser.parseFrom_sections secs hs NetlistParser.init []
  simpa [NetlistParser.parse, NetlistParser.parseFrom_nil] using h

/-- C10 at the netlist `FINISH soon INITLIST a x1 1 END NETLIST inv o i #fast END`. -/
theorem C10_malformed_number_not_fatal_witness :
    NetlistParser.parse (sectionTokens malformedSections) =
      .ok { NetlistParser.init with
            finishTime := some 0
            inputStimulusMap := [("a".toList, [(0, '1')])]
            gates := [⟨"inv".toList, ["o".toList], ["i".toList], some 0⟩] } := by
  have h := (C10_malformed_number_not_fatal malformedSections (by decide)).1
  rw [h]
  decide

/-! ## `BaseTwoInputGate` -/

/-- C16, counterexample: the gate constructed for the nets c, a, b has the output
value '0' and the input values '0', which is not the undefined symbol X (in
either case). -/
theorem C16_counterexample :
    (BaseTwoInputGate.new "c".toList "a".toList "b".toList).outputVal = '0' ∧
    (BaseTwoInputGate.new "c".toList "a".toList "b".toList).input1Val = '0' ∧
    (BaseTwoInputGate.new "c".toList "a".toList "b".toList).input2Val = '0' ∧
    (BaseTwoInputGate.new "c".toList "a".toList "b".toList).outputVal ≠ 'X' ∧
    (BaseTwoInputGate.new "c".toList "a".toList "b".toList).outputVal ≠ 'x' := by
  decide

/-- C16, amended: a newly constructed `BaseTwoInputGate` has outputVal, input1Val
and input2Val all equal to '0', and the names it was given; the value '1' of a
first evaluation AND2(1,1) differs from the initial output value. -/
theorem C16_new_gate_values (outputName input1Name input2Name : Token) :
    (BaseTwoInputGate.new outputName input1Name input2Name).getOutputVal = '0' ∧
    (BaseTwoInputGate.new outputName input1Name input2Name).getInput1Val = '0' ∧
    (BaseTwoInputGate.new outputName input1Name input2Name).getInput2Val = '0' ∧
    (BaseTwoInputGate.new outputName input1Name input2Name).getOutputName = outputName ∧
    (BaseTwoInputGate.new outputName input1Name input2Name).getInput1Name = input1Name ∧
    (BaseTwoInputGate.new outputName input1Name input2Name).getInput2Name = input2Name ∧
    '1' ≠ (BaseTwoInputGate.new outputName input1Name input2Name).getOutputVal := by
  refine ⟨rfl, rfl, rfl, rfl, rfl, rfl, ?_⟩
  show '1' ≠ '0'
  decide

/-- C17: for every gate and every net name, `hasInputName (net)` is true if and
only if `net` equals input1Name or input2Name, and `hasOutputName (net)` is true
if and only if `net` equals outputName. The names are those last set: by the
constructor, or by `setInput1Name`, `setInput2Name`, `setOutputName`, each of
which changes its own name only; the value setters change no name. Both tests
are const methods: they return the truth value and no new gate. -/
theorem C17_hasName_iff (g : BaseTwoInputGate) (net : Token) :
    (g.hasInputName net = true ↔ net = g.input1Name ∨ net = g.input2Name) ∧
    (g.hasOutputName net = true ↔ net = g.outputName) ∧
    (∀ o i1 i2 : Token,
      ((BaseTwoInputGate.new o i1 i2).hasInputName net = true ↔ net = i1 ∨ net = i2) ∧
      ((BaseTwoInputGate.new o i1 i2).hasOutputName net = true ↔ net = o)) ∧
    (∀ n : Token,
      ((g.setInput1Name n).hasInputName net = true ↔ net = n ∨ net = g.input2Name) ∧
      ((g.setInput2Name n).hasInputName net = true ↔ net = g.input1Name ∨ net = n) ∧
      ((g.setOutputName n).hasOutputName net = true ↔ net = n) ∧
      (g.setInput1Name n).hasOutputName net = g.hasOutputName net ∧
      (g.setInput2Name n).hasOutputName net = g.hasOutputName net ∧
      (g.setOutputName n).hasInputName net = g.hasInputName net) ∧
    (∀ v : LogicVal,
      (g.setInput1Val v).hasInputName net = g.hasInputName net ∧
      (g.setInput2Val v).hasInputName net = g.hasInputName net ∧
      (g.setOutputVal v).hasInputName net = g.hasInputName net ∧
      (g.setInput1Val v).hasOutputName net = g.hasOutputName net ∧
      (g.setInput2Val v).hasOutputName net = g.hasOutputName net ∧
      (g.setOutputVal v).hasOutputName net = g.hasOutputName net) := by
  have hin : ∀ h : BaseTwoInputGate,
      h.hasInputName net = true ↔ net = h.input1Name ∨ net = h.input2Name := by
    intro h
    simp only [BaseTwoInputGate.hasInputName, Bool.or_eq_true, decide_eq_true_eq]
    constructor
    · rintro (e | e)
      · exact Or.inl e.symm
      · exact Or.inr e.symm
    · rintro (e | e)
      · exact Or.inl e.symm
      · exact Or.inr e.symm
  have hout : ∀ h : BaseTwoInputGate, h.hasOutputName net = true ↔ net = h.outputName := by
    intro h
    simp only [BaseTwoInputGate.hasOutputName, decide_eq_true_eq]
    exact eq_comm
  refine ⟨hin g, hout g, ?_, ?_, ?_⟩
  · intro o i1 i2
    exact ⟨hin _, hout _⟩
  · intro n
    exact ⟨hin _, hin _, hout _, rfl, rfl, rfl⟩
  · intro v
    exact ⟨rfl, rfl, rfl, rfl, rfl, rfl⟩

/-! ## Sections that are missing -/

namespace NetlistParser

theorem parse_sections (secs : List Section) (hs : ∀ s ∈ secs, s.Shaped) :
    parse (sectionTokens secs) = .ok (secs.foldl Section.effect init) := by
  have h := parseFrom_sections secs hs init []
  simpa [parse, parseFrom_nil] using h

theorem effect_keep_inputNames : ∀ (secs : List Section) (p : NetlistParser),
    (∀ s ∈ secs, s.keyword ≠ "inputs".toList) →
      (secs.foldl Section.effect p).inputNames = p.inputNames := by
  intro secs
  induction secs with
  | nil => intro p _; rfl
  | cons s ss ih =>
    intro p h
    rw [List.foldl_cons, ih _ (fun x hx => h x (List.mem_cons_of_mem _ hx))]
    have hs := h s (List.mem_cons_self _ _)
    cases s <;> first | rfl | exact absurd rfl hs

theorem effect_keep_outputNames : ∀ (secs : List Section) (p : NetlistParser),
    (∀ s ∈ secs, s.keyword ≠ "outputs".toList) →
      (secs.foldl Section.effect p).outputNames = p.outputNames := by
  intro secs
  induction secs with
  | nil => intro p _; rfl
  | cons s ss ih =>
    intro p h
    rw [List.foldl_cons, ih _ (fun x hx => h x (List.mem_cons_of_mem _ hx))]
    have hs := h s (List.mem_cons_self _ _)
    cases s <;> first | rfl | exact absurd rfl hs

theorem effect_keep_outValues : ∀ (secs : List Section) (p : NetlistParser),
    (∀ s ∈ secs, s.keyword ≠ "outvalues".toList) →
      (secs.foldl Section.effect p).outValues = p.outValues := by
  intro secs
  induction secs with
  | nil => intro p _; rfl
  | cons s ss ih =>
    intro p h
    rw [List.foldl_cons, ih _ (fun x hx => h x (List.mem_cons_of_mem _ hx))]
    have hs := h s (List.mem_cons_self _ _)
    cases s <;> first | rfl | exact absurd rfl hs

theorem effect_keep_finishTime : ∀ (secs : List Section) (p : NetlistParser),
    (∀ s ∈ secs, s.keyword ≠ "finish".toList) →
      (secs.foldl Section.effect p).finishTime = p.finishTime := by
  intro secs
  induction secs with
  | nil => intro p _; rfl
  | cons s ss ih =>
    intro p h
    rw [List.foldl_cons, ih _ (fun x hx => h x (List.mem_cons_of_mem _ hx))]
    have hs := h s (List.mem_cons_self _ _)
    cases s <;> first | rfl | exact absurd rfl hs

theorem effect_keep_inputStimulusMap : ∀ (secs : List Section) (p : NetlistParser),
    (∀ s ∈ secs, s.keyword ≠ "initlist".toList) →
      (secs.foldl Section.effect p).inputStimulusMap = p.inputStimulusMap := by
  intro secs
  induction secs with
  | nil => intro p _; rfl
  | cons s ss ih =>
    intro p h
    rw [List.foldl_cons, ih _ (fun x hx => h x (List.mem_cons_of_mem _ hx))]
    have hs := h s (List.mem_cons_self _ _)
    cases s <;> first | rfl | exact absurd rfl hs

theorem effect_keep_gates : ∀ (secs : List Section) (p : NetlistParser),
    (∀ s ∈ secs, s.keyword ≠ "netlist".toList) →
      (secs.foldl Section.effect p).gates = p.gates := by
  intro secs
  induction secs with
  | nil => intro p _; rfl
  | cons s ss ih =>
    intro p h
    rw [List.foldl_cons, ih _ (fun x hx => h x (List.mem_cons_of_mem _ hx))]
    have hs := h s (List.mem_cons_self _ _)
    cases s <;> first | rfl | exact absurd rfl hs

theorem effect_gates_parsed : ∀ (secs : List Section) (p : NetlistParser),
    (secs.foldl Section.effect p).gates =
      p.gates ++ (secs.map Section.parsedGateRecords).flatten := by
  intro secs
  induction secs with
  | nil => intro p; simp
  | cons s ss ih =>
    intro p
    rw [List.foldl_cons, ih]
    cases s <;> simp [Section.effect, Section.parsedGateRecords]

end NetlistParser

/-- C11, counterexample: the empty netlist, and the netlist
`INPUTS a b END OUTPUTS c END` without FINISH, INITLIST and NETLIST section, are
both parsed successfully. -/
theorem C11_counterexample :
    NetlistParser.parse [] = .ok NetlistParser.init ∧
    NetlistParser.parse (toks "INPUTS a b END OUTPUTS c END") =
      .ok { NetlistParser.init with
            inputNames := ["a".toList, "b".toList]
            outputNames := ["c".toList] } := by
  decide

/-- C11, amended: a missing section is not fatal. For every netlist made of
well-formed sections, whichever kinds of section are missing, `parse` succeeds,
and the member of a kind without section is as the constructor left it:
inputNames, outputNames and gates empty, outValues and inputStimulusMap empty,
finishTime never assigned. -/
theorem C11_missing_section_not_fatal (secs : List Section) (hs : ∀ s ∈ secs, s.Shaped) :
    ∃ p, NetlistParser.parse (sectionTokens secs) = .ok p ∧
      ((∀ s ∈ secs, s.keyword ≠ "inputs".toList) → p.inputNames = []) ∧
      ((∀ s ∈ secs, s.keyword ≠ "outputs".toList) → p.outputNames = []) ∧
      ((∀ s ∈ secs, s.keyword ≠ "outvalues".toList) → p.outValues = []) ∧
      ((∀ s ∈ secs, s.keyword ≠ "finish".toList) → p.finishTime = none) ∧
      ((∀ s ∈ secs, s.keyword ≠ "initlist".toList) → p.inputStimulusMap = []) ∧
      ((∀ s ∈ secs, s.keyword ≠ "netlist".toList) → p.gates = []) :=
  ⟨secs.foldl Section.effect NetlistParser.init, NetlistParser.parse_sections secs hs,
    NetlistParser.effect_keep_inputNames secs _, NetlistParser.effect_keep_outputNames secs _,
    NetlistParser.effect_keep_outValues secs _, NetlistParser.effect_keep_finishTime secs _,
    NetlistParser.effect_keep_inputStimulusMap secs _, NetlistParser.effect_keep_gates secs _⟩

/-- C11 at the netlist `INPUTS a b END OUTPUTS c END`: it is parsed, and gates
and finishTime are as the constructor left them. -/
theorem C11_missing_section_not_fatal_witness :
    ∃ p, NetlistParser.parse (sectionTokens portsOnlySections) = .ok p ∧
      p.finishTime = none ∧ p.gates = [] := by
  obtain ⟨p, h1, _, _, _, h5, _, h7⟩ :=
    C11_missing_section_not_fatal portsOnlySections (by decide)
  exact ⟨p, h1, h5 (by decide), h7 (by decide)⟩

/-- C18, counterexample: the netlist
`INPUTS a b END NETLIST and2 c a b #1 or2 c a b #1 inv a c #1 END`, in which two
gates name the output net c and a gate names the primary input a as its output,
is parsed successfully and all three gate records are produced. -/
theorem C18_counterexample :
    NetlistParser.parse
        (toks "INPUTS a b END NETLIST and2 c a b #1 or2 c a b #1 inv a c #1 END") =
      .ok { NetlistParser.init with
            inputNames := ["a".toList, "b".toList]
            gates := [⟨"and2".toList, ["c".toList], ["a".toList, "b".toList], some 1⟩,
                      ⟨"or2".toList, ["c".toList], ["a".toList, "b".toList], some 1⟩,
                      ⟨"inv".toList, ["a".toList], ["c".toList], some 1⟩] } := by
  decide

/-- C18, amended: `NetlistParser::parse` does not check the single-driver
invariant. For every netlist made of well-formed sections, whatever the output
nets of its gate records are (two records may name the same output net, and an
output net may be declared under INPUTS), `parse` succeeds, inputNames holds
the nets of the INPUTS sections and gates holds the record of every gate record
of the NETLIST sections, in file order. -/
theorem C18_single_driver_not_checked (secs : List Section) (hs : ∀ s ∈ secs, s.Shaped) :
    ∃ p, NetlistParser.parse (sectionTokens secs) = .ok p ∧
      p.inputNames = (secs.map Section.inputNets).flatten ∧
      p.gates = (secs.map Section.parsedGateRecords).flatten := by
  refine ⟨secs.foldl Section.effect NetlistParser.init, NetlistParser.parse_sections secs hs,
    ?_, ?_⟩
  · rw [NetlistParser.effect_inputNames]; rfl
  · rw [NetlistParser.effect_gates_parsed]; rfl

/-- C18 at a netlist in which and2 and or2 both drive c and inv drives the
primary input a. -/
theorem C18_single_driver_not_checked_witness :
    ∃ p, NetlistParser.parse (sectionTokens twoDriverSections) = .ok p ∧
      p.inputNames = (twoDriverSections.map Section.inputNets).flatten ∧
      p.gates = (twoDriverSections.map Section.parsedGateRecords).flatten :=
  C18_single_driver_not_checked twoDriverSections (by decide)

/-! ## What `parseInitList` and `parseOutValues` store -/

theorem mapFind_eq_none_find {β : Type} (m : List (Token × β)) (k : Token)
    (h : mapFind m k = none) : m.find? (fun p => decide (p.1 = k)) = none := by
  unfold mapFind at h
  cases hf : m.find? (fun p => decide (p.1 = k)) with
  | none => rfl
  | some x => rw [hf] at h; cases h

theorem mapFind_mapInsert_new {β : Type} (m : List (Token × β)) (k : Token) (v : β)
    (h : mapFind m k = none) : mapFind (mapInsert m k v) k = some v := by
  have hf := mapFind_eq_none_find m k h
  unfold mapInsert
  rw [h]
  simp [mapFind, List.find?_append, hf]

theorem mapFind_of_mem_nodup {β : Type} : ∀ (r : List (Token × β)),
    (r.map Prod.fst).Nodup → ∀ (k : Token) (v : β), (k, v) ∈ r → mapFind r k = some v := by
  intro r
  induction r with
  | nil => intro _ k v h; cases h
  | cons x xs ih =>
    intro hnd k v hm
    rw [List.map_cons, List.nodup_cons] at hnd
    rcases List.mem_cons.mp hm with e | hm1
    · subst e
      simp [mapFind]
    · have hne : x.1 ≠ k := by
        intro e
        apply hnd.1
        rw [e]
        exact List.mem_map.mpr ⟨(k, v), hm1, rfl⟩
      have := ih hnd.2 k v hm1
      unfold mapFind at this ⊢
      simpa [List.find?_cons, hne] using this

theorem mapFind_isSome_iff {β : Type} (m : List (Token × β)) (k : Token) :
    (mapFind m k).isSome = true ↔ k ∈ m.map Prod.fst := by
  have h := mapFind_eq_none_iff m k
  cases hf : mapFind m k with
  | none =>
    rw [hf] at h
    simp only [Option.isSome_none, Bool.false_eq_true, false_iff]
    exact h.mp rfl
  | some v =>
    rw [hf] at h
    simp only [Option.isSome_some, true_iff]
    by_contra hk
    have := h.mpr hk
    cases this

theorem foldl_mapInsert_fresh {β : Type} : ∀ (entries m : List (Token × β)),
    (entries.map Prod.fst).Nodup → (∀ x ∈ entries, mapFind m x.1 = none) →
      entries.foldl (fun m x => mapInsert m x.1 x.2) m = m ++ entries := by
  intro entries
  induction entries with
  | nil => intro m _ _; simp
  | cons x xs ih =>
    intro m hnd hm
    rw [List.map_cons, List.nodup_cons] at hnd
    have hx : mapFind m x.1 = none := hm x (List.mem_cons_self _ _)
    have hins : mapInsert m x.1 x.2 = m ++ [x] := by
      unfold mapInsert
      rw [hx]
    rw [List.foldl_cons, hins, ih (m ++ [x]) hnd.2 ?_]
    · simp
    · intro y hy
      rw [mapFind_eq_none_iff]
      have hy1 : y.1 ∉ m.map Prod.fst :=
        (mapFind_eq_none_iff m y.1).mp (hm y (List.mem_cons_of_mem _ hy))
      have hy2 : y.1 ≠ x.1 := by
        intro e
        apply hnd.1
        rw [← e]
        exact List.mem_map.mpr ⟨y, hy, rfl⟩
      simp only [List.map_append, List.map_cons, List.map_nil, List.mem_append,
        List.mem_singleton, not_or]
      exact ⟨hy1, hy2⟩

/-- C12, counterexample: the section `INITLIST a 5 1 0 0 END` is accepted and the
list stored for a is [(5, 1), (0, 0)], whose times decrease. -/
theorem C12_counterexample :
    NetlistParser.parse (toks "INITLIST a 5 1 0 0 END") =
      .ok { NetlistParser.init with
            inputStimulusMap := [("a".toList, [(5, '1'), (0, '0')])] } ∧
    ¬ ([(5 : Int), 0]).Pairwise (fun a b => a ≤ b) := by
  decide

/-- C12, amended: `parseInitList` stores the (time, value) pairs of an INITLIST
section in file order and does not compare the times. For every well-formed
section whose net has no entry in inputStimulusMap yet, the times of the stored
list are the times of the section as `atol` reads them, in file order; so the
stored list is non-decreasing in time if and only if the times are written in
non-decreasing order. -/
theorem C12_stimulus_times_as_written (net : Token) (entries : List (Token × Token))
    (hn : ∀ x ∈ entries, toLowerCase x.1 ≠ NetlistParser.END) (e : Token)
    (he : toLowerCase e = NetlistParser.END) (rest : TokenStream)
    (m : List (Token × List (SimTime × LogicVal)))
    (hm : mapFind m (toLowerCase net) = none) :
    ∃ m1 l, NetlistParser.parseInitList (net :: (pairTokens entries ++ e :: rest)) m =
        .ok (m1, rest) ∧
      mapFind m1 (toLowerCase net) = some l ∧
      l.map Prod.fst = entries.map (fun x => atol (toLowerCase x.1)) ∧
      ((l.map Prod.fst).Pairwise (fun a b => a ≤ b) ↔
        (entries.map (fun x => atol (toLowerCase x.1))).Pairwise (fun a b => a ≤ b)) := by
  refine ⟨_, _, NetlistParser.parseInitList_section net entries hn e he rest m,
    mapFind_mapInsert_new m _ _ hm, ?_, ?_⟩
  · simp [List.map_map, Function.comp_def]
  · simp [List.map_map, Function.comp_def]

/-- C12 at the section `INITLIST a 5 1 0 0 END`. -/
theorem C12_stimulus_times_as_written_witness :
    ∃ m1 l, NetlistParser.parseInitList
        ("a".toList :: (pairTokens [("5".toList, "1".toList), ("0".toList, "0".toList)] ++
          "END".toList :: [])) [] = .ok (m1, []) ∧
      mapFind m1 (toLowerCase "a".toList) = some l ∧
      l.map Prod.fst =
        [("5".toList, "1".toList), ("0".toList, "0".toList)].map
          (fun x => atol (toLowerCase x.1)) ∧
      ((l.map Prod.fst).Pairwise (fun a b => a ≤ b) ↔
        ([("5".toList, "1".toList), ("0".toList, "0".toList)].map
          (fun x => atol (toLowerCase x.1))).Pairwise (fun a b => a ≤ b)) :=
  C12_stimulus_times_as_written "a".toList [("5".toList, "1".toList), ("0".toList, "0".toList)]
    (by decide) "END".toList (by decide) [] [] (by decide)

/-- C13: for every well-formed OUTVALUES section whose nets are pairwise
distinct (as lower-cased names), `parseOutValues` on the empty map consumes the
tokens in (net, value) pairs up to and including END and returns the stream
behind END; the keys of outValues are exactly the listed lower-cased net names,
and each net is sent to the first character of its lower-cased value token. On a
map that holds none of the listed names the same entries are added to it. -/
theorem C13_outValues_mapping (entries : List (Token × Token))
    (hn : ∀ x ∈ entries, toLowerCase x.1 ≠ NetlistParser.END)
    (hd : (entries.map (fun x => toLowerCase x.1)).Nodup) (e : Token)
    (he : toLowerCase e = NetlistParser.END) (rest : TokenStream) :
    (∃ r, NetlistParser.parseOutValues (pairTokens entries ++ e :: rest) [] = .ok (r, rest) ∧
      r.map Prod.fst = entries.map (fun x => toLowerCase x.1) ∧
      (∀ k, (mapFind r k).isSome = true ↔ k ∈ entries.map (fun x => toLowerCase x.1)) ∧
      (∀ x ∈ entries, mapFind r (toLowerCase x.1) = some (firstChar (toLowerCase x.2)))) ∧
    (∀ m : List (Token × LogicVal),
      (∀ x ∈ entries, mapFind m (toLowerCase x.1) = none) →
      NetlistParser.parseOutValues (pairTokens entries ++ e :: rest) m =
        .ok (m ++ entries.map (fun x => (toLowerCase x.1, firstChar (toLowerCase x.2))),
          rest)) := by
  have hkeys : (entries.map (fun x => (toLowerCase x.1, firstChar (toLowerCase x.2)))).map
      Prod.fst = entries.map (fun x => toLowerCase x.1) := by
    simp [List.map_map, Function.comp_def]
  have hfold : ∀ m : List (Token × LogicVal),
      (∀ x ∈ entries, mapFind m (toLowerCase x.1) = none) →
      entries.foldl
          (fun m x => mapInsert m (toLowerCase x.1) (firstChar (toLowerCase x.2))) m =
        m ++ entries.map (fun x => (toLowerCase x.1, firstChar (toLowerCase x.2))) := by
    intro m hm
    have h1 := foldl_mapInsert_fresh
      (entries.map (fun x => (toLowerCase x.1, firstChar (toLowerCase x.2)))) m
      (by rw [hkeys]; exact hd)
      (by
        intro y hy
        obtain ⟨x, hx, rfl⟩ := List.mem_map.mp hy
        exact hm x hx)
    rw [List.foldl_map] at h1
    exact h1
  have hgen : ∀ m : List (Token × LogicVal),
      (∀ x ∈ entries, mapFind m (toLowerCase x.1) = none) →
      NetlistParser.parseOutValues (pairTokens entries ++ e :: rest) m =
        .ok (m ++ entries.map (fun x => (toLowerCase x.1, firstChar (toLowerCase x.2))),
          rest) := by
    intro m hm
    rw [NetlistParser.parseOutValues_section entries hn e he rest m, hfold m hm]
  refine ⟨⟨_, hgen [] (fun _ _ => rfl), ?_, ?_, ?_⟩, hgen⟩
  · simp
  · intro k
    rw [mapFind_isSome_iff, List.nil_append, hkeys]
  · intro x hx
    apply mapFind_of_mem_nodup
    · rw [List.nil_append, hkeys]; exact hd
    · rw [List.nil_append]
      exact List.mem_map.mpr ⟨x, hx, rfl⟩

/-- C13 at the section `C 1 d X END` behind the keyword OUTVALUES. -/
theorem C13_outValues_mapping_witness :
    ∃ r, NetlistParser.parseOutValues
        (pairTokens [("C".toList, "1".toList), ("d".toList, "X".toList)] ++
          "END".toList :: []) [] = .ok (r, []) ∧
      r.map Prod.fst =
        [("C".toList, "1".toList), ("d".toList, "X".toList)].map (fun x => toLowerCase x.1) ∧
      (∀ k, (mapFind r k).isSome = true ↔
        k ∈ [("C".toList, "1".toList), ("d".toList, "X".toList)].map
          (fun x => toLowerCase x.1)) ∧
      (∀ x ∈ [("C".toList, "1".toList), ("d".toList, "X".toList)],
        mapFind r (toLowerCase x.1) = some (firstChar (toLowerCase x.2))) :=
  (C13_outValues_mapping [("C".toList, "1".toList), ("d".toList, "X".toList)] (by decide)
    (by decide) "END".toList (by decide) []).1

/-! ## The values and delays that are recorded -/

theorem mem_mapInsert {β : Type} (m : List (Token × β)) (k : Token) (v : β) (x : Token × β)
    (h : x ∈ mapInsert m k v) : x ∈ m ∨ x = (k, v) := by
  unfold mapInsert at h
  split at h
  · exact Or.inl h
  · rcases List.mem_append.mp h with h1 | h1
    · exact Or.inl h1
    · exact Or.inr (List.mem_singleton.mp h1)

theorem mem_foldl_mapInsert {α β : Type} (f : α → Token) (g : α → β) :
    ∀ (entries : List α) (m : List (Token × β)) (x : Token × β),
      x ∈ entries.foldl (fun m e => mapInsert m (f e) (g e)) m →
        x ∈ m ∨ ∃ e ∈ entries, x = (f e, g e) := by
  intro entries
  induction entries with
  | nil => intro m x h; exact Or.inl h
  | cons a as ih =>
    intro m x h
    rw [List.foldl_cons] at h
    rcases ih _ x h with h1 | ⟨b, hb, hx⟩
    · rcases mem_mapInsert m _ _ x h1 with h2 | h2
      · exact Or.inl h2
      · exact Or.inr ⟨a, List.mem_cons_self _ _, h2⟩
    · exact Or.inr ⟨b, List.mem_cons_of_mem _ hb, hx⟩

namespace NetlistParser

/-- Every value recorded in the two maps is the first character of the
lower-cased form of one of the tokens `T`; sections whose value tokens are among
`T` keep this. -/
theorem effect_values (T : List Token) : ∀ (secs : List Section),
    (∀ s ∈ secs, ∀ t ∈ s.valueTokens, t ∈ T) → ∀ (p : NetlistParser),
      ((∀ kv ∈ p.outValues, ∃ t ∈ T, kv.2 = firstChar (toLowerCase t)) ∧
        (∀ kl ∈ p.inputStimulusMap, ∀ tv ∈ kl.2, ∃ t ∈ T, tv.2 = firstChar (toLowerCase t))) →
      ((∀ kv ∈ (secs.foldl Section.effect p).outValues,
          ∃ t ∈ T, kv.2 = firstChar (toLowerCase t)) ∧
        (∀ kl ∈ (secs.foldl Section.effect p).inputStimulusMap, ∀ tv ∈ kl.2,
          ∃ t ∈ T, tv.2 = firstChar (toLowerCase t))) := by
  intro secs
  induction secs with
  | nil => intro _ p hp; exact hp
  | cons s ss ih =>
    intro hT p hp
    rw [List.foldl_cons]
    apply ih (fun x hx => hT x (List.mem_cons_of_mem _ hx))
    have hs := hT s (List.mem_cons_self _ _)
    obtain ⟨hp1, hp2⟩ := hp
    cases s with
    | outvalues kw entries e =>
      refine ⟨?_, hp2⟩
      intro kv hkv
      rcases mem_foldl_mapInsert (fun x : Token × Token => toLowerCase x.1)
        (fun x => firstChar (toLowerCase x.2)) entries p.outValues kv hkv with h | ⟨x, hx, rfl⟩
      · exact hp1 kv h
      · exact ⟨x.2, hs x.2 (List.mem_map.mpr ⟨x, hx, rfl⟩), rfl⟩
    | initlist kw net entries e =>
      refine ⟨hp1, ?_⟩
      intro kl hkl tv htv
      rcases mem_mapInsert _ _ _ kl hkl with h | h
      · exact hp2 kl h tv htv
      · subst h
        obtain ⟨x, hx, rfl⟩ := List.mem_map.mp htv
        exact ⟨x.2, hs x.2 (List.mem_map.mpr ⟨x, hx, rfl⟩), rfl⟩
    | inputs kw nets e => exact ⟨hp1, hp2⟩
    | outputs kw nets e => exact ⟨hp1, hp2⟩
    | finish kw time => exact ⟨hp1, hp2⟩
    | netlist kw records e => exact ⟨hp1, hp2⟩

end NetlistParser

theorem atol_nonneg (s : List Char) (h : (s.dropWhile isspace).head? ≠ some '-') :
    0 ≤ atol s := by
  unfold atol
  split
  · rename_i r heq
    rw [heq] at h
    exact absurd rfl h
  · exact le_min (by decide) (Int.ofNat_nonneg _)
  · exact le_min (by decide) (Int.ofNat_nonneg _)

theorem atol_le (s : List Char) : atol s ≤ 2 ^ 63 - 1 := by
  have hmax : LONG_MAX = 2 ^ 63 - 1 := rfl
  unfold atol
  split
  · rename_i r heq
    apply max_le
    · decide
    · have h1 : (0 : Int) ≤ 2 ^ 63 - 1 := by decide
      have h2 : (0 : Int) ≤ (digitsValue r 0 : Int) := Int.ofNat_nonneg _
      omega
  · rw [← hmax]; exact min_le_left _ _
  · rw [← hmax]; exact min_le_left _ _

/-- C14, counterexample: `OUTVALUES c high END INITLIST a 0 z END` is accepted;
the value recorded for c is h and the value recorded for a at time 0 is z,
neither of which is one of 0, 1, X. -/
theorem C14_counterexample :
    NetlistParser.parse (toks "OUTVALUES c high END INITLIST a 0 z END") =
      .ok { NetlistParser.init with
            outValues := [("c".toList, 'h')]
            inputStimulusMap := [("a".toList, [(0, 'z')])] } ∧
    'h' ∉ ['0', '1', 'X', 'x'] ∧ 'z' ∉ ['0', '1', 'X', 'x'] := by
  decide

/-- C14, amended: the parser does not check the logic values. For every netlist
made of well-formed sections, every value recorded in outValues and in the
stimulus lists is the first character of the lower-cased form of a value token
of an OUTVALUES or INITLIST section, whatever that character is; when each value
token starts, lower-cased, with 0, 1 or x, every recorded value is one of
0, 1, x. -/
theorem C14_recorded_values (secs : List Section) (hs : ∀ s ∈ secs, s.Shaped) :
    ∃ p, NetlistParser.parse (sectionTokens secs) = .ok p ∧
      (∀ kv ∈ p.outValues,
        ∃ t ∈ (secs.map Section.valueTokens).flatten, kv.2 = firstChar (toLowerCase t)) ∧
      (∀ kl ∈ p.inputStimulusMap, ∀ tv ∈ kl.2,
        ∃ t ∈ (secs.map Section.valueTokens).flatten, tv.2 = firstChar (toLowerCase t)) ∧
      ((∀ t ∈ (secs.map Section.valueTokens).flatten,
          firstChar (toLowerCase t) ∈ ['0', '1', 'x']) →
        (∀ kv ∈ p.outValues, kv.2 ∈ ['0', '1', 'x']) ∧
        (∀ kl ∈ p.inputStimulusMap, ∀ tv ∈ kl.2, tv.2 ∈ ['0', '1', 'x'])) := by
  have hv := NetlistParser.effect_values ((secs.map Section.valueTokens).flatten) secs
    (by
      intro s hs1 t ht
      exact List.mem_flatten.mpr ⟨s.valueTokens, List.mem_map.mpr ⟨s, hs1, rfl⟩, ht⟩)
    NetlistParser.init
    ⟨fun kv h => absurd h (List.not_mem_nil kv), fun kl h => absurd h (List.not_mem_nil kl)⟩
  refine ⟨secs.foldl Section.effect NetlistParser.init, NetlistParser.parse_sections secs hs,
    hv.1, hv.2, ?_⟩
  intro hall
  constructor
  · intro kv hkv
    obtain ⟨t, ht, e⟩ := hv.1 kv hkv
    rw [e]; exact hall t ht
  · intro kl hkl tv htv
    obtain ⟨t, ht, e⟩ := hv.2 kl hkl tv htv
    rw [e]; exact hall t ht

/-- C14 at the scenario of the specification: all recorded values are among
0, 1, x. -/
theorem C14_recorded_values_witness :
    ∃ p, NetlistParser.parse (sectionTokens scenarioSections) = .ok p ∧
      (∀ kv ∈ p.outValues, kv.2 ∈ ['0', '1', 'x']) ∧
      (∀ kl ∈ p.inputStimulusMap, ∀ tv ∈ kl.2, tv.2 ∈ ['0', '1', 'x']) := by
  obtain ⟨p, h1, _, _, h4⟩ := C14_recorded_values scenarioSections (by decide)
  exact ⟨p, h1, h4 (by decide)⟩

/-- C15, counterexample: the section `inv o i #-5 end` is accepted and the delay
of its gate record is -5. -/
theorem C15_counterexample :
    NetlistParser.parseNetlist (toks "inv o i #-5 end") [] =
      .ok ([⟨"inv".toList, ["o".toList], ["i".toList], some (-5)⟩], []) ∧
    ¬ (0 : Int) ≤ -5 := by
  decide

/-- C15, amended: for every NETLIST section of well-formed gate records, which
`parseNetlist` accepts, the delay of every gate record with a delay token whose
text `atol` does not read with a minus sign is a non-negative integer of at most
2^63 - 1 time units (a text without digits gives 0). A text that starts with '-'
can give a negative delay. -/
theorem C15_delay_nonneg (recs : List GateText) (hw : ∀ g ∈ recs, g.WellFormed)
    (hd : ∀ g ∈ recs, ∀ d ∈ g.delay, readsNegative d = false) (e : Token)
    (he : toLowerCase e = NetlistParser.END) (rest : TokenStream) (gates : List GateRec) :
    NetlistParser.parseNetlist (recordTokens recs ++ e :: rest) gates =
        .ok (gates ++ recs.map GateText.gateRec, rest) ∧
      ∀ g ∈ recs.map GateText.gateRec, ∀ v ∈ g.delay, 0 ≤ v ∧ v ≤ 2 ^ 63 - 1 := by
  refine ⟨NetlistParser.parseNetlist_section recs hw e he rest gates, ?_⟩
  intro g hg v hv
  obtain ⟨t, ht, rfl⟩ := List.mem_map.mp hg
  simp only [GateText.gateRec, Option.mem_def, Option.map_eq_some'] at hv
  obtain ⟨d, hd1, rfl⟩ := hv
  have hneg := hd t ht d (by simp [hd1])
  refine ⟨atol_nonneg _ ?_, atol_le _⟩
  intro h
  simp [readsNegative, h] at hneg

/-- C15 at the section `and2 c a b #2 inv n c #x end`. -/
theorem C15_delay_nonneg_witness :
    NetlistParser.parseNetlist (toks "and2 c a b #2 inv n c #x end") [] =
        .ok ([⟨"and2".toList, ["c".toList], ["a".toList, "b".toList], some 2⟩,
              ⟨"inv".toList, ["n".toList], ["c".toList], some 0⟩], []) ∧
      ∀ g ∈ ([⟨"and2".toList, ["c".toList], ["a".toList, "b".toList], some 2⟩,
              ⟨"inv".toList, ["n".toList], ["c".toList], some 0⟩] : List GateRec),
        ∀ v ∈ g.delay, 0 ≤ v ∧ v ≤ 2 ^ 63 - 1 :=
  C15_delay_nonneg
    [⟨"and2".toList, "c".toList, ["a".toList, "b".toList], some "2".toList⟩,
     ⟨"inv".toList, "n".toList, ["c".toList], some "x".toList⟩] (by decide) (by decide)
    "end".toList (by decide) [] []

/-! ## The k-truss verifier -/

namespace KTruss

theorem validDsts_dropWhile (l : List CsrEdge) :
    validDsts (l.dropWhile isRemoved) = validDsts l := by
  induction l with
  | nil => rfl
  | cons a r ih =>
    by_cases h : isRemoved a = true
    · simp only [List.dropWhile_cons, h, if_true, ih]
      simp [validDsts, List.filter_cons, h]
    · simp [List.dropWhile_cons, h]

theorem dropWhile_head (l : List CsrEdge) (a : CsrEdge) (r : List CsrEdge)
    (h : l.dropWhile isRemoved = a :: r) :
    isRemoved a = false ∧ validDsts l = a.dst :: validDsts r := by
  have h1 : isRemoved a = false := by
    have := List.head_dropWhile_not isRemoved l (by rw [h]; simp)
    simpa [h] using this
  refine ⟨h1, ?_⟩
  rw [← validDsts_dropWhile l, h]
  simp [validDsts, List.filter_cons, h1]

theorem dropWhile_sorted (l : List CsrEdge)
    (h : (l.map CsrEdge.dst).Pairwise (fun a b => a < b)) :
    ((l.dropWhile isRemoved).map CsrEdge.dst).Pairwise (fun a b => a < b) :=
  List.Pairwise.sublist ((List.dropWhile_sublist isRemoved).map CsrEdge.dst) h

theorem validDsts_subset (l : List CsrEdge) (x : GNode) (h : x ∈ validDsts l) :
    x ∈ l.map CsrEdge.dst := by
  unfold validDsts at h
  obtain ⟨c, hc, rfl⟩ := List.mem_map.mp h
  exact List.mem_map.mpr ⟨c, (List.mem_filter.mp hc).1, rfl⟩

theorem lt_validDsts (a : CsrEdge) (r : List CsrEdge)
    (h : ((a :: r).map CsrEdge.dst).Pairwise (fun a b => a < b)) :
    ∀ y ∈ validDsts r, a.dst < y := by
  intro y hy
  rw [List.map_cons, List.pairwise_cons] at h
  exact h.1 y (validDsts_subset r y hy)

theorem dropWhile_length_le (l : List CsrEdge) :
    (l.dropWhile isRemoved).length ≤ l.length := by
  induction l with
  | nil => simp
  | cons a r ih =>
    rw [List.dropWhile_cons]
    split
    · exact Nat.le_succ_of_le ih
    · exact Nat.le_refl _

/-- The loop of `countValidEqual` returns: every round but the last moves an
iterator, so more rounds than the two ranges have edges are enough, whatever
the order of the edges. -/
theorem countValidEqualLoop_isSome (fuel : Nat) :
    ∀ (s d : List CsrEdge) (acc : Nat), s.length + d.length < fuel →
      (countValidEqualLoop fuel s d acc).isSome = true := by
  induction fuel with
  | zero => intro s d acc h; omega
  | succ n ih =>
    intro s d acc h
    have hs := dropWhile_length_le s
    have hd := dropWhile_length_le d
    unfold countValidEqualLoop
    split
    · rfl
    · rfl
    · rename_i a sr b dr hs1 hd1
      rw [hs1] at hs
      rw [hd1] at hd
      simp only [List.length_cons] at hs hd
      split
      · exact ih _ _ _ (by simp only [List.length_cons]; omega)
      · split
        · exact ih _ _ _ (by simp only [List.length_cons]; omega)
        · exact ih _ _ _ (by omega)

/-- The function `countValidEqual` returns on every graph. -/
theorem countValidEqual_isSome (g : Graph) (src dst : GNode) :
    (countValidEqual g src dst).isSome = true :=
  countValidEqualLoop_isSome _ _ _ _ (by omega)

theorem countValidEqualLoop_spec : ∀ (fuel : Nat) (s d : List CsrEdge) (acc : Nat),
    (s.map CsrEdge.dst).Pairwise (fun a b => a < b) →
    (d.map CsrEdge.dst).Pairwise (fun a b => a < b) →
    s.length + d.length < fuel →
    countValidEqualLoop fuel s d acc =
      some (acc + ((validDsts s).toFinset ∩ (validDsts d).toFinset).card) := by
  intro fuel
  induction fuel with
  | zero => intro s d acc _ _ h; omega
  | succ n ih =>
    intro s d acc hs hd hl
    have hs1 := dropWhile_sorted s hs
    have hd1 := dropWhile_sorted d hd
    have hls : (s.dropWhile isRemoved).length ≤ s.length :=
      (List.dropWhile_sublist isRemoved).length_le
    have hld : (d.dropWhile isRemoved).length ≤ d.length :=
      (List.dropWhile_sublist isRemoved).length_le
    rw [← validDsts_dropWhile s, ← validDsts_dropWhile d]
    unfold countValidEqualLoop
    cases hs2 : s.dropWhile isRemoved with
    | nil => simp [validDsts]
    | cons a sr =>
      cases hd2 : d.dropWhile isRemoved with
      | nil => simp [validDsts]
      | cons b dr =>
        rw [hs2] at hs1 hls
        rw [hd2] at hd1 hld
        obtain ⟨ha, hva⟩ := dropWhile_head s a sr hs2
        obtain ⟨hb, hvb⟩ := dropWhile_head d b dr hd2
        have hva1 : validDsts (a :: sr) = a.dst :: validDsts sr := by
          simp [validDsts, List.filter_cons, ha]
        have hvb1 : validDsts (b :: dr) = b.dst :: validDsts dr := by
          simp [validDsts, List.filter_cons, hb]
        have hsr : (sr.map CsrEdge.dst).Pairwise (fun a b => a < b) := by
          rw [List.map_cons, List.pairwise_cons] at hs1; exact hs1.2
        have hdr : (dr.map CsrEdge.dst).Pairwise (fun a b => a < b) := by
          rw [List.map_cons, List.pairwise_cons] at hd1; exact hd1.2
        have hasr := lt_validDsts a sr hs1
        have hbdr := lt_validDsts b dr hd1
        simp only [List.length_cons] at hls hld
        simp only
        by_cases h1 : a.dst < b.dst
        · rw [if_pos h1, ih sr (b :: dr) acc hsr hd1 (by simp only [List.length_cons]; omega)]
          have hnot : a.dst ∉ (validDsts (b :: dr)).toFinset := by
            rw [hvb1]
            simp only [List.toFinset_cons, Finset.mem_insert, List.mem_toFinset, not_or]
            refine ⟨Nat.ne_of_lt h1, ?_⟩
            intro hm
            have h3 := hbdr _ hm
            exact absurd (Nat.lt_trans h1 h3) (Nat.lt_irrefl _)
          rw [hva1, List.toFinset_cons, Finset.insert_inter_of_not_mem hnot]
        · rw [if_neg h1]
          by_cases h2 : b.dst < a.dst
          · rw [if_pos h2, ih (a :: sr) dr acc hs1 hdr (by simp only [List.length_cons]; omega)]
            have hnot : b.dst ∉ (validDsts (a :: sr)).toFinset := by
              rw [hva1]
              simp only [List.toFinset_cons, Finset.mem_insert, List.mem_toFinset, not_or]
              refine ⟨Nat.ne_of_lt h2, ?_⟩
              intro hm
              have h3 := hasr _ hm
              exact absurd (Nat.lt_trans h2 h3) (Nat.lt_irrefl _)
            rw [hvb1, List.toFinset_cons, Finset.inter_insert_of_not_mem hnot]
          · rw [if_neg h2, ih sr dr (acc + 1) hsr hdr (by omega)]
            have he : a.dst = b.dst :=
              Nat.le_antisymm (Nat.le_of_not_lt h2) (Nat.le_of_not_lt h1)
            have hnot : a.dst ∉ (validDsts sr).toFinset ∩ (validDsts dr).toFinset := by
              simp only [Finset.mem_inter, List.mem_toFinset, not_and]
              intro hm
              exact absurd (hasr _ hm) (Nat.lt_irrefl _)
            have hmem : a.dst ∈ insert a.dst (validDsts dr).toFinset :=
              Finset.mem_insert_self _ _
            rw [hva1, hvb1, ← he, List.toFinset_cons, List.toFinset_cons,
              Finset.insert_inter_of_mem hmem, Finset.inter_insert_of_not_mem,
              Finset.card_insert_of_not_mem hnot]
            · congr 1
              omega
            · simp only [List.mem_toFinset]
              intro hm
              exact absurd (hasr _ hm) (Nat.lt_irrefl _)

theorem edges_sorted (g : Graph) (hs : StrictlySorted g) (n : GNode) :
    ((edges g n).map CsrEdge.dst).Pairwise (fun a b => a < b) := by
  unfold edges
  by_cases hn : n < g.length
  · have hm : g.getD n [] ∈ g := by
      rw [List.getD_eq_getElem g [] hn]
      exact List.getElem_mem hn
    exact hs _ hm
  · rw [List.getD_eq_default g [] (Nat.le_of_not_lt hn)]
    exact List.Pairwise.nil

theorem countValidEqual_eq (g : Graph) (hs : StrictlySorted g) (src dst : GNode) :
    countValidEqual g src dst = some (support g src dst) := by
  unfold countValidEqual
  rw [countValidEqualLoop_spec _ _ _ 0 (edges_sorted g hs src) (edges_sorted g hs dst)
    (Nat.lt_succ_self _)]
  simp [support, commonValidNeighbours]

theorem supportOf_eq (g : Graph) (hs : StrictlySorted g) (e : Edge) :
    supportOf g e = support g e.1 e.2 := by
  unfold supportOf
  rw [countValidEqual_eq g hs]
  rfl

theorem findEdgeSortedByDst_mem : ∀ (adj : List CsrEdge),
    (adj.map CsrEdge.dst).Pairwise (fun a b => a < b) → ∀ c ∈ adj,
      ∃ i, findEdgeSortedByDst adj c.dst = some i ∧ adj[i]? = some c := by
  intro adj
  induction adj with
  | nil => intro _ c hc; cases hc
  | cons a r ih =>
    intro hs c hc
    rw [List.map_cons, List.pairwise_cons] at hs
    rcases List.mem_cons.mp hc with e | hr
    · subst e
      exact ⟨0, by simp [findEdgeSortedByDst], by simp⟩
    · have hlt : a.dst < c.dst := hs.1 _ (List.mem_map.mpr ⟨c, hr, rfl⟩)
      obtain ⟨i, h1, h2⟩ := ih hs.2 c hr
      exact ⟨i + 1, by simp [findEdgeSortedByDst, hlt, h1], by simpa using h2⟩

theorem isRemovedEdge_eq (g : Graph) (hs : StrictlySorted g) (n : GNode) (c : CsrEdge)
    (hc : c ∈ edges g n) : isRemovedEdge g (n, c.dst) = isRemoved c := by
  obtain ⟨i, h1, h2⟩ := findEdgeSortedByDst_mem (edges g n) (edges_sorted g hs n) c hc
  simp only [isRemovedEdge, h1, h2]
  rfl

theorem mem_workList (g : Graph) (e : Edge) :
    e ∈ workList g ↔ e.1 < e.2 ∧ ∃ c ∈ edges g e.1, c.dst = e.2 := by
  unfold workList
  simp only [List.mem_flatMap, List.mem_range, List.mem_map, List.mem_filter,
    decide_eq_true_eq]
  constructor
  · rintro ⟨n, _, c, ⟨hc, hlt⟩, rfl⟩
    exact ⟨hlt, c, hc, rfl⟩
  · rintro ⟨hlt, c, hc, hd⟩
    have hn : e.1 < g.length := by
      by_contra hge
      unfold edges at hc
      rw [List.getD_eq_default g [] (Nat.le_of_not_lt hge)] at hc
      cases hc
    refine ⟨e.1, hn, c, ⟨hc, by rw [hd]; exact hlt⟩, ?_⟩
    rw [hd]

theorem workList_nodup (g : Graph) (hs : StrictlySorted g) : (workList g).Nodup := by
  unfold workList
  rw [List.nodup_flatMap]
  constructor
  · intro n _
    have h1 : ((edges g n).map CsrEdge.dst).Nodup :=
      (edges_sorted g hs n).imp (fun h => Nat.ne_of_lt h)
    have h2 : (((edges g n).filter (fun e => decide (e.dst > n))).map CsrEdge.dst).Nodup :=
      List.Nodup.sublist ((List.filter_sublist _).map CsrEdge.dst) h1
    have h3 := List.Nodup.map (f := fun d : GNode => (n, d))
      (fun a b h => (Prod.mk.inj h).2) h2
    simpa [List.map_map, Function.comp_def] using h3
  · refine List.Pairwise.imp ?_ (List.nodup_range g.length)
    intro a b hab
    simp only [Function.onFun]
    intro x hx hy
    obtain ⟨c, _, rfl⟩ := List.mem_map.mp hx
    obtain ⟨c2, _, h2⟩ := List.mem_map.mp hy
    exact hab (Prod.mk.inj h2).1.symm

theorem initGraph_sorted (g : Graph) (hnp : ∀ adj ∈ g, (adj.map CsrEdge.dst).Nodup) :
    StrictlySorted (initGraph g) := by
  intro adj1 h1
  simp only [initGraph, sortAllEdgesByDst, List.map_map, List.mem_map,
    Function.comp_apply] at h1
  obtain ⟨adj, hadj, rfl⟩ := h1
  have hdst : ((adj.insertionSort (fun a b => a.dst ≤ b.dst)).map
      (fun e => ({ e with data := removed } : CsrEdge))).map CsrEdge.dst =
      (adj.insertionSort (fun a b => a.dst ≤ b.dst)).map CsrEdge.dst := by
    simp [List.map_map, Function.comp_def]
  rw [hdst]
  haveI : IsTotal CsrEdge (fun a b => a.dst ≤ b.dst) := ⟨fun a b => Nat.le_total _ _⟩
  haveI : IsTrans CsrEdge (fun a b => a.dst ≤ b.dst) := ⟨fun a b c => Nat.le_trans⟩
  have hsorted := List.sorted_insertionSort (fun a b : CsrEdge => a.dst ≤ b.dst) adj
  have hle : ((adj.insertionSort (fun a b => a.dst ≤ b.dst)).map CsrEdge.dst).Pairwise
      (fun a b => a ≤ b) := List.pairwise_map.mpr hsorted
  have hperm := (List.perm_insertionSort (fun a b : CsrEdge => a.dst ≤ b.dst) adj).map
    CsrEdge.dst
  have hnd : ((adj.insertionSort (fun a b => a.dst ≤ b.dst)).map CsrEdge.dst).Nodup :=
    hperm.nodup_iff.mpr (hnp adj hadj)
  exact (hle.and hnd).imp (fun h => Nat.lt_of_le_of_ne h.1 h.2)

theorem setEdgeData_dst : ∀ (adj : List CsrEdge) (i v : Nat),
    (setEdgeData adj i v).map CsrEdge.dst = adj.map CsrEdge.dst := by
  intro adj
  induction adj with
  | nil => intro i v; rfl
  | cons a r ih =>
    intro i v
    cases i with
    | zero => rfl
    | succ j => simp [setEdgeData, ih]

theorem markValid_sorted (g g1 : Graph) (n1 n2 : GNode) (h : markValid g n1 n2 = some g1)
    (hs : StrictlySorted g) : StrictlySorted g1 := by
  unfold markValid at h
  cases hf : findEdgeSortedByDst (edges g n1) n2 with
  | none => simp [hf] at h
  | some i =>
    simp only [hf, Option.some.injEq] at h
    subst h
    intro adj hadj
    rcases List.mem_or_eq_of_mem_set hadj with h1 | h1
    · exact hs adj h1
    · rw [h1, setEdgeData_dst]
      exact edges_sorted g hs n1

theorem readTruss_sorted : ∀ (truss : List Edge) (g g1 : Graph),
    readTruss g truss = some g1 → StrictlySorted g → StrictlySorted g1 := by
  intro truss
  induction truss with
  | nil =>
    intro g g1 h hs
    simp only [readTruss, Option.some.injEq] at h
    subst h; exact hs
  | cons e rest ih =>
    intro g g1 h hs
    obtain ⟨n1, n2⟩ := e
    simp only [readTruss] at h
    cases h1 : markValid g n1 n2 with
    | none => simp [h1] at h
    | some ga =>
      simp only [h1] at h
      cases h2 : markValid ga n2 n1 with
      | none => simp [h2] at h
      | some gb =>
        simp only [h2] at h
        exact ih gb g1 h (markValid_sorted ga gb n2 n1 h2 (markValid_sorted g ga n1 n2 h1 hs))

theorem mem_shouldBeInvalid (g : Graph) (hs : StrictlySorted g) (k : Nat) (i j : GNode) :
    (i, j) ∈ shouldBeInvalid g k ↔ i < j ∧ ValidEdge g i j ∧ support g i j < k - 2 := by
  unfold shouldBeInvalid
  simp only [List.mem_filter, mem_workList, Bool.and_eq_true, Bool.not_eq_true',
    decide_eq_true_eq, supportOf_eq g hs]
  constructor
  · rintro ⟨⟨hlt, c, hc, hd⟩, hr, hsup⟩
    subst hd
    rw [isRemovedEdge_eq g hs i c hc] at hr
    exact ⟨hlt, ⟨c, hc, rfl, hr⟩, hsup⟩
  · rintro ⟨hlt, ⟨c, hc, hd, hr⟩, hsup⟩
    subst hd
    refine ⟨⟨hlt, c, hc, rfl⟩, ?_, hsup⟩
    rw [isRemovedEdge_eq g hs i c hc]
    exact hr

theorem mem_shouldBeValid (g : Graph) (hs : StrictlySorted g) (k : Nat) (i j : GNode) :
    (i, j) ∈ shouldBeValid g k ↔ i < j ∧ RemovedEdge g i j ∧ k - 2 ≤ support g i j := by
  unfold shouldBeValid
  simp only [List.mem_filter, mem_workList, Bool.and_eq_true, Bool.not_eq_true',
    decide_eq_true_eq, supportOf_eq g hs, Bool.and_eq_false_imp, Bool.not_eq_eq_eq_not,
    Bool.not_true, decide_eq_false_iff_not, ge_iff_le]
  constructor
  · rintro ⟨⟨hlt, c, hc, hd⟩, _, hr, hsup⟩
    subst hd
    rw [isRemovedEdge_eq g hs i c hc] at hr
    exact ⟨hlt, ⟨c, hc, rfl, hr⟩, hsup⟩
  · rintro ⟨hlt, ⟨c, hc, hd, hr⟩, hsup⟩
    subst hd
    have hre : isRemovedEdge g (i, c.dst) = true := by
      rw [isRemovedEdge_eq g hs i c hc]; exact hr
    refine ⟨⟨hlt, c, hc, rfl⟩, ?_, hre, hsup⟩
    intro hf
    rw [hre] at hf
    cases hf

end KTruss

/-- C19: on the triangle with trussNum 3 the program reports "Verification
succeeded" for the empty truss file and also for the truss file that lists all
three edges. The two edge lists differ, so the one that is not the maximal
3-truss is accepted as well: with all edges valid every edge of the triangle has
support 1 = 3 - 2, so the maximal 3-truss is the triangle and the empty list is
not. -/
theorem C19_two_edge_lists_accepted :
    KTruss.main KTruss.triangle [] 3 = some .succeeded ∧
    KTruss.main KTruss.triangle [(0, 1), (0, 2), (1, 2)] 3 = some .succeeded ∧
    ([] : List KTruss.Edge) ≠ [(0, 1), (0, 2), (1, 2)] ∧
    KTruss.support KTruss.triangle 0 1 = 1 ∧ KTruss.support KTruss.triangle 0 2 = 1 ∧
    KTruss.support KTruss.triangle 1 2 = 1 := by
  decide

/-- C20, counterexample: for trussNum 1 and the graph without nodes there is no
edge at all, so no edge offends, yet the program prints "trussNum >= 2" and
returns -1 instead of reporting success; and for the graph with two parallel
edges between 0 and 1, the empty truss file and trussNum 2, the offending edge
(0, 1) is listed twice as "should be valid". -/
theorem C20_counterexample :
    KTruss.workList [] = [] ∧
    KTruss.main [] [] 1 = some .usage ∧
    KTruss.main KTruss.doubleEdge [] 2 = some (.failed [] [(0, 1), (0, 1)]) := by
  decide

/-- C20, amended: let the input graph have no parallel edges, let `readTruss`
succeed, and let trussNum be at least 2; in the graph `g1` that `readTruss`
leaves, let support (i, j) be the number of common neighbours of i and j over
valid edges. The program reports "Verification succeeded" and returns 0 if and
only if no edge (i, j) with i < j is valid with support < trussNum - 2 and none
is removed with support >= trussNum - 2. Otherwise it dies with "Verification
failed!" after listing every offending edge exactly once, the former as "should
be invalid", the latter as "should be valid". For trussNum below 2 the program
prints "trussNum >= 2" and returns -1. -/
theorem C20_verification_outcome (g : KTruss.Graph) (truss : List KTruss.Edge) (trussNum : Nat)
    (g1 : KTruss.Graph) (hnp : ∀ adj ∈ g, (adj.map KTruss.CsrEdge.dst).Nodup)
    (hread : KTruss.readTruss (KTruss.initGraph g) truss = some g1) (hk : 2 ≤ trussNum) :
    (KTruss.main g truss trussNum = some .succeeded ↔
      ∀ i j, i < j →
        ¬ (KTruss.ValidEdge g1 i j ∧ KTruss.support g1 i j < trussNum - 2) ∧
        ¬ (KTruss.RemovedEdge g1 i j ∧ trussNum - 2 ≤ KTruss.support g1 i j)) ∧
    (KTruss.main g truss trussNum ≠ some .succeeded →
      ∃ inv val, KTruss.main g truss trussNum = some (.failed inv val) ∧
        inv.Nodup ∧ val.Nodup ∧
        (∀ i j, (i, j) ∈ inv ↔
          i < j ∧ KTruss.ValidEdge g1 i j ∧ KTruss.support g1 i j < trussNum - 2) ∧
        (∀ i j, (i, j) ∈ val ↔
          i < j ∧ KTruss.RemovedEdge g1 i j ∧ trussNum - 2 ≤ KTruss.support g1 i j)) ∧
    (∀ k, k < 2 → KTruss.main g truss k = some .usage) := by
  have hs : KTruss.StrictlySorted g1 :=
    KTruss.readTruss_sorted truss _ g1 hread (KTruss.initGraph_sorted g hnp)
  have hmain : KTruss.main g truss trussNum = some (KTruss.verify g1 trussNum) := by
    unfold KTruss.main
    rw [if_neg (by omega), hread]
  have hinv := KTruss.mem_shouldBeInvalid g1 hs trussNum
  have hval := KTruss.mem_shouldBeValid g1 hs trussNum
  have hempty : KTruss.verify g1 trussNum = .succeeded ↔
      KTruss.shouldBeInvalid g1 trussNum = [] ∧ KTruss.shouldBeValid g1 trussNum = [] := by
    unfold KTruss.verify
    split
    · rename_i h
      simp only [Bool.and_eq_true, List.isEmpty_iff] at h
      simp [h]
    · rename_i h
      simp only [Bool.and_eq_true, List.isEmpty_iff] at h
      simp [h]
  refine ⟨?_, ?_, ?_⟩
  · rw [hmain, Option.some.injEq, hempty]
    constructor
    · rintro ⟨h1, h2⟩ i j hlt
      constructor
      · rintro ⟨hv, hsup⟩
        have := (hinv i j).mpr ⟨hlt, hv, hsup⟩
        rw [h1] at this
        cases this
      · rintro ⟨hv, hsup⟩
        have := (hval i j).mpr ⟨hlt, hv, hsup⟩
        rw [h2] at this
        cases this
    · intro h
      constructor
      · apply List.eq_nil_iff_forall_not_mem.mpr
        rintro ⟨i, j⟩ hm
        obtain ⟨hlt, hv, hsup⟩ := (hinv i j).mp hm
        exact (h i j hlt).1 ⟨hv, hsup⟩
      · apply List.eq_nil_iff_forall_not_mem.mpr
        rintro ⟨i, j⟩ hm
        obtain ⟨hlt, hv, hsup⟩ := (hval i j).mp hm
        exact (h i j hlt).2 ⟨hv, hsup⟩
  · intro hne
    rw [hmain] at hne
    have hne1 : KTruss.verify g1 trussNum ≠ .succeeded := fun h => hne (by rw [h])
    refine ⟨KTruss.shouldBeInvalid g1 trussNum, KTruss.shouldBeValid g1 trussNum, ?_,
      List.Nodup.sublist (List.filter_sublist _) (KTruss.workList_nodup g1 hs),
      List.Nodup.sublist (List.filter_sublist _) (KTruss.workList_nodup g1 hs), hinv, hval⟩
    rw [hmain]
    unfold KTruss.verify at hne1 ⊢
    split
    · rename_i h
      rw [if_pos h] at hne1
      exact absurd rfl hne1
    · rfl
  · intro k hk2
    unfold KTruss.main
    rw [if_pos (by omega)]

/-- C20 at the triangle with the truss file of the one pair (0, 1) and trussNum
2: the two removed edges are listed, each once, as "should be valid". -/
theorem C20_verification_outcome_witness :
    ∃ inv val, KTruss.main KTruss.triangle [(0, 1)] 2 = some (.failed inv val) ∧
      inv.Nodup ∧ val.Nodup ∧
      (∀ i j, (i, j) ∈ inv ↔
        i < j ∧ KTruss.ValidEdge KTruss.triangleOneValid i j ∧
          KTruss.support KTruss.triangleOneValid i j < 2 - 2) ∧
      (∀ i j, (i, j) ∈ val ↔
        i < j ∧ KTruss.RemovedEdge KTruss.triangleOneValid i j ∧
          2 - 2 ≤ KTruss.support KTruss.triangleOneValid i j) :=
  (C20_verification_outcome KTruss.triangle [(0, 1)] 2 KTruss.triangleOneValid (by decide)
    (by decide) (by decide)).2.1 (by decide)

/-! ## The stimulus list of an INITLIST section -/

/-- C29, counterexample: the section `INITLIST a 2 0 END` read when the net a has
the stimulus [(1, 1)] already leaves that list as it is, so its pair (2, 0) is
dropped; and the time numeral 9223372036854775808 (2^63) of the section
`INITLIST b 9223372036854775808 1 END` is stored as 2^63 - 1. -/
theorem C29_counterexample :
    (NetlistParser.parseInitList (toks "a 2 0 END") [("a".toList, [(1, '1')])]).toOption =
      some ([("a".toList, [(1, '1')])], []) ∧
    mapFind [("a".toList, [((1 : SimTime), '1')])] "a".toList ≠ some [(2, '0')] ∧
    (NetlistParser.parseInitList (toks "b 9223372036854775808 1 END") []).toOption =
      some ([("b".toList, [(9223372036854775807, '1')])], []) ∧
    isNumeral "9223372036854775808".toList ∧
    numeralValue "9223372036854775808".toList = 9223372036854775808 :=
  ⟨by decide, by decide, by decide, by decide, by decide⟩

/-- C29, amended: for every well-formed section `INITLIST net t1 v1 ... tk vk END`
`parseInitList` consumes the section. When the lower-cased net has no entry in
inputStimulusMap yet, it stores under that name a list of exactly k pairs, the
i-th of which is (`atol` of ti, the first character of the lower-cased vi), in
file order: nothing is sorted, merged or dropped; and when ti is a decimal
numeral of at most 2^63 - 1, `atol` of ti is the integer that ti denotes. When
the net has an entry already, the map is left as it is and the pairs of the
section are dropped. -/
theorem C29_stimulus_as_written (net : Token) (entries : List (Token × Token))
    (hn : ∀ x ∈ entries, toLowerCase x.1 ≠ NetlistParser.END) (e : Token)
    (he : toLowerCase e = NetlistParser.END) (rest : TokenStream)
    (m : List (Token × List (SimTime × LogicVal))) :
    ∃ m1, NetlistParser.parseInitList (net :: (pairTokens entries ++ e :: rest)) m =
        .ok (m1, rest) ∧
      (mapFind m (toLowerCase net) = none →
        ∃ l, mapFind m1 (toLowerCase net) = some l ∧
          l.length = entries.length ∧
          l = entries.map (fun x => (atol (toLowerCase x.1), firstChar (toLowerCase x.2))) ∧
          (∀ (i : Nat) (x : Token × Token), entries[i]? = some x →
            l[i]? = some (atol (toLowerCase x.1), firstChar (toLowerCase x.2)) ∧
            (isNumeral x.1 → numeralValue x.1 ≤ 2 ^ 63 - 1 →
              l[i]? = some ((numeralValue x.1 : Int), firstChar (toLowerCase x.2))))) ∧
      (∀ l0, mapFind m (toLowerCase net) = some l0 → m1 = m) := by
  refine ⟨_, NetlistParser.parseInitList_section net entries hn e he rest m, ?_, ?_⟩
  · intro hm
    refine ⟨_, mapFind_mapInsert_new m _ _ hm, by simp, rfl, ?_⟩
    intro i x hx
    have h1 : (entries.map
        (fun x => (atol (toLowerCase x.1), firstChar (toLowerCase x.2))))[i]? =
        some (atol (toLowerCase x.1), firstChar (toLowerCase x.2)) := by
      rw [List.getElem?_map, hx]
      rfl
    refine ⟨h1, ?_⟩
    intro hnum hsmall
    rw [h1, toLowerCase_numeral x.1 hnum, atol_numeral_small x.1 hnum hsmall]
  · intro l0 hl0
    unfold mapInsert
    rw [hl0]

/-- C29 at the section `INITLIST A 5 1 0 x END`: read first, the two pairs are
stored under a as written, the later time first; read once more, the map stays
as it is. -/
theorem C29_stimulus_as_written_witness :
    (∃ m1 l, NetlistParser.parseInitList
        ("A".toList :: (pairTokens [("5".toList, "1".toList), ("0".toList, "X".toList)] ++
          "END".toList :: [])) [] = .ok (m1, []) ∧
      mapFind m1 (toLowerCase "A".toList) = some l ∧
      l.length = 2 ∧ l = [(5, '1'), (0, 'x')]) ∧
    NetlistParser.parseInitList
        ("A".toList :: (pairTokens [("5".toList, "1".toList), ("0".toList, "X".toList)] ++
          "END".toList :: [])) [("a".toList, [(7, '0')])] =
      .ok ([("a".toList, [(7, '0')])], []) := by
  constructor
  · obtain ⟨m1, h1, h2, _⟩ :=
      C29_stimulus_as_written "A".toList [("5".toList, "1".toList), ("0".toList, "X".toList)]
        (by decide) "END".toList (by decide) [] []
    obtain ⟨l, k1, k2, k3, _⟩ := h2 (by decide)
    refine ⟨m1, l, h1, k1, k2, ?_⟩
    rw [k3]
    decide
  · obtain ⟨m1, h1, _, h3⟩ :=
      C29_stimulus_as_written "A".toList [("5".toList, "1".toList), ("0".toList, "X".toList)]
        (by decide) "END".toList (by decide) []
        [("a".toList, [(7, '0')])]
    rw [h1, h3 [(7, '0')] (by decide)]

/-! ## `countValidEqual` counts the common valid neighbours -/

namespace KTruss

theorem mem_validDsts (adj : List CsrEdge) (n : GNode) :
    n ∈ validDsts adj ↔ ∃ c ∈ adj, c.dst = n ∧ isRemoved c = false := by
  simp only [validDsts, List.mem_map, List.mem_filter, Bool.not_eq_true']
  constructor
  · rintro ⟨c, ⟨h1, h2⟩, h3⟩
    exact ⟨c, h1, h3, h2⟩
  · rintro ⟨c, h1, h3, h2⟩
    exact ⟨c, ⟨h1, h2⟩, h3⟩

theorem mem_commonValidNeighbours (g : Graph) (src dst n : GNode) :
    n ∈ commonValidNeighbours g src dst ↔ ValidEdge g src n ∧ ValidEdge g dst n := by
  simp only [commonValidNeighbours, Finset.mem_inter, List.mem_toFinset, mem_validDsts,
    ValidEdge]

theorem support_comm (g : Graph) (src dst : GNode) : support g src dst = support g dst src := by
  unfold support commonValidNeighbours
  rw [Finset.inter_comm]

end KTruss

/-- C30: for every graph whose edge arrays are strictly increasing by
destination and every pair of nodes src, dst, the loop of `countValidEqual`
terminates and the result is the number of nodes n such that src has a
non-removed edge to n and dst has a non-removed edge to n; so the result is the
same for (src, dst) and (dst, src). The graph that `initialize` leaves is of this
kind when the input graph has no parallel edges. -/
theorem C30_countValidEqual_support (g : KTruss.Graph) (hs : KTruss.StrictlySorted g)
    (src dst : KTruss.GNode) :
    KTruss.countValidEqual g src dst = some (KTruss.commonValidNeighbours g src dst).card ∧
    (∀ n, n ∈ KTruss.commonValidNeighbours g src dst ↔
      KTruss.ValidEdge g src n ∧ KTruss.ValidEdge g dst n) ∧
    KTruss.countValidEqual g src dst = KTruss.countValidEqual g dst src ∧
    (∀ g0 : KTruss.Graph, (∀ adj ∈ g0, (adj.map KTruss.CsrEdge.dst).Nodup) →
      KTruss.StrictlySorted (KTruss.initGraph g0)) := by
  refine ⟨KTruss.countValidEqual_eq g hs src dst, KTruss.mem_commonValidNeighbours g src dst,
    ?_, KTruss.initGraph_sorted⟩
  rw [KTruss.countValidEqual_eq g hs src dst, KTruss.countValidEqual_eq g hs dst src,
    KTruss.support_comm]

/-- C30 at the triangle in which only the edge between 0 and 1 is removed: the
nodes 0 and 1 have the one common valid neighbour 2. -/
theorem C30_countValidEqual_support_witness :
    KTruss.countValidEqual KTruss.triangleTwoValid 0 1 = some 1 ∧
    KTruss.countValidEqual KTruss.triangleTwoValid 1 0 = some 1 ∧
    (2 ∈ KTruss.commonValidNeighbours KTruss.triangleTwoValid 0 1 ↔
      KTruss.ValidEdge KTruss.triangleTwoValid 0 2 ∧
        KTruss.ValidEdge KTruss.triangleTwoValid 1 2) := by
  have h := C30_countValidEqual_support KTruss.triangleTwoValid (by decide) 0 1
  refine ⟨?_, ?_, h.2.1 2⟩
  · rw [h.1]; decide
  · rw [← h.2.2.1, h.1]; decide

/-! ## Sloan's reordering: the bandwidth -/

namespace Sloan

theorem absDiff_small (a b : Nat) (ha : a < 2 ^ 31) (hb : b < 2 ^ 31) :
    absDiff a b = ((a : Int) - (b : Int)).natAbs := by
  unfold absDiff usub toInt toUnsigned UINT_SIZE
  have h1 : a % 2 ^ 32 = a := Nat.mod_eq_of_lt (by omega)
  have h2 : b % 2 ^ 32 = b := Nat.mod_eq_of_lt (by omega)
  rw [h1, h2]
  by_cases hab : b ≤ a
  · have h3 : (a + (2 ^ 32 - b)) % 2 ^ 32 = a - b := by omega
    rw [h3]
    have h4 : (a - b) % 2 ^ 32 = a - b := Nat.mod_eq_of_lt (by omega)
    rw [h4, if_pos (by omega)]
    omega
  · have h3 : (a + (2 ^ 32 - b)) % 2 ^ 32 = 2 ^ 32 - (b - a) := by omega
    rw [h3]
    have h4 : (2 ^ 32 - (b - a)) % 2 ^ 32 = 2 ^ 32 - (b - a) := Nat.mod_eq_of_lt (by omega)
    rw [h4, if_neg (by omega)]
    omega

/-- A fold that keeps the greater of the value so far and `f x` ends at a value
that is at least the start and every `f x`, and is the start or some `f x`. -/
theorem foldl_max_spec {α : Type} (f : α → Nat) : ∀ (l : List α) (m : Nat),
    m ≤ l.foldl (fun m x => if f x > m then f x else m) m ∧
    (∀ x ∈ l, f x ≤ l.foldl (fun m x => if f x > m then f x else m) m) ∧
    (l.foldl (fun m x => if f x > m then f x else m) m = m ∨
      ∃ x ∈ l, l.foldl (fun m x => if f x > m then f x else m) m = f x) := by
  intro l
  induction l with
  | nil => intro m; simp
  | cons a r ih =>
    intro m
    rw [List.foldl_cons]
    by_cases hc : f a > m
    · rw [if_pos hc]
      obtain ⟨h1, h2, h3⟩ := ih (f a)
      refine ⟨by omega, ?_, ?_⟩
      · intro x hx
        rcases List.mem_cons.mp hx with rfl | hx
        · exact h1
        · exact h2 x hx
      · right
        rcases h3 with h3 | ⟨x, hx, h3⟩
        · exact ⟨a, List.mem_cons_self _ _, h3⟩
        · exact ⟨x, List.mem_cons_of_mem _ hx, h3⟩
    · rw [if_neg hc]
      obtain ⟨h1, h2, h3⟩ := ih m
      refine ⟨h1, ?_, ?_⟩
      · intro x hx
        rcases List.mem_cons.mp hx with rfl | hx
        · omega
        · exact h2 x hx
      · rcases h3 with h3 | ⟨x, hx, h3⟩
        · left; exact h3
        · right; exact ⟨x, List.mem_cons_of_mem _ hx, h3⟩

theorem doAllBanddiff_cons_one (sched : List Nat) (m : Nat) (th : List BandPc) :
    doAllBanddiff (0 :: sched) m [th] =
      doAllBanddiff sched (banddiffStep m th).1 [(banddiffStep m th).2] := by
  simp [doAllBanddiff]

theorem doAllBanddiff_idle (n m : Nat) :
    doAllBanddiff (List.replicate n 0) m [[]] = (m, [[]]) := by
  induction n with
  | zero => rfl
  | succ k ih =>
    rw [List.replicate_succ, doAllBanddiff_cons_one]
    exact ih

/-- A thread that runs alone stores every `diff` above `maxband` at its first
compare-and-swap, so two accesses for each pass of the edge loop suffice. -/
theorem doAllBanddiff_alone : ∀ (ds : List Nat) (n m : Nat), 2 * ds.length ≤ n →
    doAllBanddiff (List.replicate n 0) m [ds.map BandPc.read] =
      (ds.foldl (fun m d => if d > m then d else m) m, [[]]) := by
  intro ds
  induction ds with
  | nil =>
    intro n m _
    exact doAllBanddiff_idle n m
  | cons d r ih =>
    intro n m hn
    have hlen : (d :: r).length = r.length + 1 := rfl
    obtain ⟨k, rfl⟩ : ∃ k, n = k + 2 := ⟨n - 2, by omega⟩
    rw [List.replicate_succ, doAllBanddiff_cons_one, List.foldl_cons]
    by_cases hd : d > m
    · have h1 : banddiffStep m ((d :: r).map BandPc.read) =
          (m, BandPc.cas d m :: r.map BandPc.read) := by
        simp [banddiffStep, hd]
      have h2 : banddiffStep m (BandPc.cas d m :: r.map BandPc.read) =
          (d, r.map BandPc.read) := by
        simp [banddiffStep]
      rw [h1, List.replicate_succ, doAllBanddiff_cons_one, h2, if_pos hd]
      exact ih k d (by omega)
    · have h1 : banddiffStep m ((d :: r).map BandPc.read) = (m, r.map BandPc.read) := by
        simp [banddiffStep, hd]
      rw [h1, if_neg hd]
      exact ih (k + 1) m (by omega)

theorem flatMap_banddiff (g : Graph) (ns : List GNode) :
    ns.flatMap (banddiff g) = (ns.flatMap (banddiffDiffs g)).map BandPc.read := by
  induction ns with
  | nil => rfl
  | cons a r ih => simp [List.flatMap_cons, banddiff, ih]

theorem mem_allDiffs (g : Graph) (x : Nat) :
    x ∈ allDiffs g ↔ ∃ u < g.size, ∃ v ∈ g.edges u,
      x = absDiff (g.getData u).id (g.getData v).id := by
  unfold allDiffs banddiffDiffs
  simp only [List.mem_flatMap, List.mem_range, List.mem_map]
  constructor
  · rintro ⟨u, hu, v, hv, rfl⟩
    exact ⟨u, hu, v, hv, rfl⟩
  · rintro ⟨u, hu, v, hv, rfl⟩
    exact ⟨u, hu, v, hv, rfl⟩

/-- With one thread, which runs the operator on the nodes in their order, the
value that `bandwidth` prints is the greatest `diff` of an edge, or 0. -/
theorem bandwidth_one_thread (g : Graph) (n : Nat) (hn : 2 * (allDiffs g).length ≤ n) :
    bandwidth g [List.range g.size] (List.replicate n 0) =
      some ((allDiffs g).foldl
        (fun m d => if d > m then d else m) 0) := by
  have h := doAllBanddiff_alone (allDiffs g) n 0 hn
  unfold bandwidth
  simp only [List.map_cons, List.map_nil]
  rw [flatMap_banddiff]
  unfold allDiffs at h
  rw [h]
  rfl

/-- With one thread: for every graph in which the ids of the nodes and of the
destinations of their edges are below 2^31, the value that `bandwidth` prints
is at least |id (u) - id (v)| for every edge (u, v), and it is |id (u) - id (v)|
for some edge (u, v) or 0; so it is the maximum over all edges, and it is 0 when
the graph has no edge. The wrapped 32-bit subtraction, read by `abs` as an
`int`, gives the absolute difference of the two ids. -/
theorem bandwidth_one_thread_maximum (g : Graph)
    (hid : ∀ u < g.size, (g.getData u).id < 2 ^ 31 ∧
      ∀ v ∈ g.edges u, (g.getData v).id < 2 ^ 31)
    (n : Nat) (hn : 2 * (allDiffs g).length ≤ n) :
    ∃ M, bandwidth g [List.range g.size] (List.replicate n 0) = some M ∧
      (∀ u < g.size, ∀ v ∈ g.edges u,
        (((g.getData u).id : Int) - ((g.getData v).id : Int)).natAbs ≤ M) ∧
      ((∃ u < g.size, ∃ v ∈ g.edges u,
          M = (((g.getData u).id : Int) - ((g.getData v).id : Int)).natAbs) ∨ M = 0) ∧
      ((∀ u < g.size, g.edges u = []) → M = 0) := by
  have habs : ∀ u < g.size, ∀ v ∈ g.edges u,
      absDiff (g.getData u).id (g.getData v).id =
        (((g.getData u).id : Int) - ((g.getData v).id : Int)).natAbs := by
    intro u hu v hv
    exact absDiff_small _ _ (hid u hu).1 ((hid u hu).2 v hv)
  have hmax : (∀ x ∈ allDiffs g,
        x ≤ (allDiffs g).foldl (fun m d => if d > m then d else m) 0) ∧
      ((allDiffs g).foldl (fun m d => if d > m then d else m) 0 = 0 ∨
        ∃ x ∈ allDiffs g, (allDiffs g).foldl (fun m d => if d > m then d else m) 0 = x) :=
    (foldl_max_spec (fun x : Nat => x) (allDiffs g) 0).2
  obtain ⟨h2, h3⟩ := hmax
  have hdisj : (∃ u < g.size, ∃ v ∈ g.edges u,
      (allDiffs g).foldl (fun m d => if d > m then d else m) 0 =
        (((g.getData u).id : Int) - ((g.getData v).id : Int)).natAbs) ∨
      (allDiffs g).foldl (fun m d => if d > m then d else m) 0 =
        0 := by
    rcases h3 with h3 | ⟨x, hx, h3⟩
    · right; exact h3
    · left
      obtain ⟨u, hu, v, hv, hxe⟩ := (mem_allDiffs g x).mp hx
      exact ⟨u, hu, v, hv, by rw [h3, ← habs u hu v hv]; exact hxe⟩
  refine ⟨_, bandwidth_one_thread g n hn, ?_, hdisj, ?_⟩
  · intro u hu v hv
    rw [← habs u hu v hv]
    exact h2 _ ((mem_allDiffs g _).mpr ⟨u, hu, v, hv, rfl⟩)
  · intro hno
    rcases hdisj with ⟨u, hu, v, hv, _⟩ | h0
    · rw [hno u hu] at hv
      cases hv
    · exact h0

end Sloan

/-- C26: on the graph of six nodes numbered by position with the edges 0 - 2 and
3 - 4, whose greatest |id (u) - id (v)| is 2, `bandwidth` with two threads, the
nodes 0, 1, 2 on the first and 3, 4, 5 on the second, prints 1 under this
order of the accesses to `maxband`: the second thread reads `max` = 0 for its
`diff` = 1; the first thread stores 2 and ends; the compare-and-swap of the
second thread fails, it reads `max` = 2, the test `!diff > max` does not leave
the loop, and the next compare-and-swap stores 1 over 2. With one thread the
value is 2. -/
theorem C26_bandwidth_lost_update :
    (∀ u < Sloan.twoPairs.size, (Sloan.twoPairs.getData u).id < 2 ^ 31) ∧
    ([[0, 1, 2], [3, 4, 5]] : List (List Sloan.GNode)).flatten =
      List.range Sloan.twoPairs.size ∧
    (∀ u < Sloan.twoPairs.size, ∀ v ∈ Sloan.twoPairs.edges u,
      (((Sloan.twoPairs.getData u).id : Int) - ((Sloan.twoPairs.getData v).id : Int)).natAbs
        ≤ 2) ∧
    2 ∈ Sloan.twoPairs.edges 0 ∧
    ((((Sloan.twoPairs.getData 0).id : Int) - ((Sloan.twoPairs.getData 2).id : Int)).natAbs
      = 2) ∧
    Sloan.bandwidth Sloan.twoPairs [[0, 1, 2], [3, 4, 5]] [1, 0, 0, 0, 1, 1, 1, 1] = some 1 ∧
    Sloan.bandwidth Sloan.twoPairs [List.range Sloan.twoPairs.size] (List.replicate 8 0) =
      some 2 :=
  ⟨by decide, by decide, by decide, by decide, by decide, by decide, by decide⟩

/-! ## Sloan's reordering: the runs of `go` -/

/-- C24: on the path 0 - 1 with the start node 0 and the terminal node 1 the
program is not aborted by `readGraph`, `go` ends, and `verify (source)` returns
false: the breadth-first search starts from the terminal, so the distance of the
source is 1 and not 0. With the start node equal to the terminal, `verify`
returns true on the same graph. -/
theorem C24_verify_rejects_run :
    (Sloan.readGraph Sloan.path2 0 1).map (fun r => r.2) = some (0, 1) ∧
    (Sloan.go Sloan.fifo (Sloan.startGlobals Sloan.path2) 0 1).map
        (fun p => ((p.graph.getData 0).dist, Sloan.verify p.graph 0)) = some (1, false) ∧
    (Sloan.go Sloan.fifo (Sloan.startGlobals Sloan.path2) 0 0).map
        (fun p => ((p.graph.getData 0).dist, Sloan.verify p.graph 0)) = some (0, true) := by
  decide

/-- C25: on the path 0 - 1 with the start node and the terminal node 0, the first
`go` gives the permutation 0, 1 and leaves the request (1, -1) in the queue,
which `resetGraph` does not clear; the second `go` then starts with that request
in the queue and gives the permutation 1, 0. -/
theorem C25_second_run_differs :
    (Sloan.go Sloan.fifo (Sloan.startGlobals Sloan.path2) 0 0).map
        (fun p => (p.perm, p.pq, (Sloan.resetGraph p).perm, (Sloan.resetGraph p).pq)) =
      some ([0, 1], [⟨1, -1⟩], [], [⟨1, -1⟩]) ∧
    ((Sloan.go Sloan.fifo (Sloan.startGlobals Sloan.path2) 0 0).bind
        (fun p => Sloan.go Sloan.fifo (Sloan.resetGraph p) 0 0)).map (fun p => p.perm) =
      some [1, 0] := by
  decide

/-! ## The gate evaluator of the specification -/

/-- C27: in the three-valued truth tables AND2 with one input 0 yields 0 and OR2
with one input 1 yields 1, whatever the other input is, X included; with no
input 0 an input X of AND2 yields X, and with no input 1 an input X of OR2
yields X. For every kind of two inputs, an input X yields the output X when no
input has the controlling value of the kind, and an input with the controlling
value yields a defined output; INV of X is X. -/
theorem C27_controlling_input_wins :
    (∀ v, Simulator.evalGate .AND2 [.zero, v] = .zero ∧
      Simulator.evalGate .AND2 [v, .zero] = .zero) ∧
    (∀ v, Simulator.evalGate .OR2 [.one, v] = .one ∧
      Simulator.evalGate .OR2 [v, .one] = .one) ∧
    (∀ a b, a ≠ .zero → b ≠ .zero → (a = .X ∨ b = .X) →
      Simulator.evalGate .AND2 [a, b] = .X) ∧
    (∀ a b, a ≠ .one → b ≠ .one → (a = .X ∨ b = .X) →
      Simulator.evalGate .OR2 [a, b] = .X) ∧
    (∀ (k : Simulator.GateKind) (a b : Simulator.Value), k.arity = 2 →
      (a = .X ∨ b = .X) → k.controlling ≠ some a → k.controlling ≠ some b →
      Simulator.evalGate k [a, b] = .X) ∧
    (∀ (k : Simulator.GateKind) (a b : Simulator.Value),
      (k.controlling = some a ∨ k.controlling = some b) →
      Simulator.evalGate k [a, b] ≠ .X) ∧
    Simulator.evalGate .INV [.X] = .X := by
  refine ⟨?_, ?_, ?_, ?_, ?_, ?_, ?_⟩
  · intro v; cases v <;> decide
  · intro v; cases v <;> decide
  · intro a b; cases a <;> cases b <;> decide
  · intro a b; cases a <;> cases b <;> decide
  · intro k a b; cases k <;> cases a <;> cases b <;> decide
  · intro k a b; cases k <;> cases a <;> cases b <;> decide
  · decide

/-! ## The simulation driver of the specification -/

namespace Simulator

theorem step_round (d : Driver) (t : SimTime) (hp : d.phase = .Running)
    (ht : d.queue.peekTime = some t) (hf : t ≤ d.finishTime) : step d = doRound d t := by
  unfold step
  rw [hp]
  simp only [ht]
  rw [if_neg (not_lt.mpr hf)]

theorem run_succ (n : Nat) (d : Driver) : run (n + 1) d = step (run n d) := by
  induction n generalizing d with
  | zero => rfl
  | succ k ih =>
    show run (k + 1) (step d) = step (run k (step d))
    exact ih (step d)

theorem run_add (a b : Nat) (d : Driver) : run (a + b) d = run b (run a d) := by
  induction b with
  | zero => rfl
  | succ k ih =>
    rw [← Nat.add_assoc, run_succ, run_succ, ih]

theorem oscillating_step (d : Driver) (h : Oscillating d) : Oscillating (step d) := by
  obtain ⟨hp, hf, b, s, hg, ha, hn, hq⟩ := h
  have hpeek : d.queue.peekTime = some 5 := by rw [hq]; rfl
  rw [step_round d 5 hp hpeek (by rw [hf]; decide)]
  have hround : d.queue.round 5 = [⟨5, ['n'], Value.ofBool b, s⟩] := by
    rw [hq]; rfl
  have hrest : d.queue.rest 5 = [⟨10, ['b'], .one, 2⟩] := by
    rw [hq]; rfl
  have hva : applyEvents d.values (d.queue.round 5) ['a'] = .one := by
    rw [hround]
    show Function.update d.values ['n'] (Value.ofBool b) ['a'] = .one
    rw [Function.update_noteq (by decide), ha]
  have hvn : applyEvents d.values (d.queue.round 5) ['n'] = Value.ofBool b := by
    rw [hround]
    show Function.update d.values ['n'] (Value.ofBool b) ['n'] = Value.ofBool b
    rw [Function.update_same]
  have hev : evaluateRound d.values (applyEvents d.values (d.queue.round 5)) 5 d.gates
      d.nextSequence =
      ([⟨.NAND2, [['a'], ['n']], ['n'], 0, Value.ofBool (!b)⟩],
        [⟨5, ['n'], Value.ofBool (!b), d.nextSequence⟩], d.nextSequence + 1) := by
    rw [hg]
    simp only [evaluateRound, List.foldl_cons, List.foldl_nil, Gate.affected, List.any_cons,
      List.any_nil, hva, hvn, ha, hn, reevaluate, List.map_cons, List.map_nil]
    cases b
    · rw [if_pos (by decide), if_neg (by decide)]; rfl
    · rw [if_pos (by decide), if_neg (by decide)]; rfl
  refine ⟨hp, hf, !b, d.nextSequence, ?_, hva, ?_, ?_⟩
  · show (evaluateRound d.values (applyEvents d.values (d.queue.round 5)) 5 d.gates
      d.nextSequence).1 = _
    rw [hev]
  · rw [Bool.not_not]
    exact hvn
  · show d.queue.rest 5 ++ (evaluateRound d.values (applyEvents d.values (d.queue.round 5)) 5
      d.gates d.nextSequence).2.1 = _
    rw [hev, hrest]
    rfl

theorem oscillating_run (n : Nat) (d : Driver) (h : Oscillating d) : Oscillating (run n d) := by
  induction n with
  | zero => exact h
  | succ k ih => rw [run_succ]; exact oscillating_step _ ih

theorem oscillator_run3 : Oscillating (run 3 oscillator) := by
  refine ⟨by decide, by decide, false, 4, by decide, by decide, by decide, by decide⟩

/-- A cycle of delay 0, which the specification leaves out of its goals: in the
oscillator, a NAND2 gate of delay 0 that reads its own output, the driver stays
`Running` in rounds at the time 5 and the stimulus of `b` for the time 10 stays
pending. -/
theorem oscillator_never_done (n : Nat) :
    (run n oscillator).phase = .Running ∧
      (⟨10, ['b'], .one, 2⟩ : Event) ∈ (run n oscillator).queue := by
  by_cases hn : 3 ≤ n
  · have h := oscillating_run (n - 3) _ oscillator_run3
    rw [← run_add, show 3 + (n - 3) = n by omega] at h
    obtain ⟨hp, _, b, s, _, _, _, hq⟩ := h
    exact ⟨hp, by rw [hq]; exact List.mem_cons_self _ _⟩
  · have h3 : n = 0 ∨ n = 1 ∨ n = 2 := by omega
    rcases h3 with rfl | rfl | rfl <;> decide

end Simulator

namespace KTruss

theorem countEdge_fold (n : GNode) : ∀ (l : List CsrEdge) (a b : Nat),
    l.foldl (countEdge n) (a, b) =
      (if validDsts l = [] then a else 1,
        b + ((validDsts l).filter (fun d => decide (d > n))).length) := by
  intro l
  induction l with
  | nil => intro a b; simp [validDsts]
  | cons e r ih =>
    intro a b
    rw [List.foldl_cons]
    by_cases hr : isRemoved e = true
    · have h1 : countEdge n (a, b) e = (a, b) := by simp [countEdge, hr]
      rw [h1, ih]
      simp [validDsts, hr]
    · have hr1 : isRemoved e = false := by simpa using hr
      have h1 : countEdge n (a, b) e = (1, if e.dst > n then b + 1 else b) := by
        simp [countEdge, hr1]
      rw [h1, ih]
      by_cases hd : e.dst > n
      · simp [validDsts, hr1, hd]
        omega
      · simp [validDsts, hr1, hd]

theorem countNode_fold (g : Graph) : ∀ (l : List GNode) (a b : Nat),
    l.foldl (countNode g) (a, b) =
      (a + (l.map (fun n => if validDsts (edges g n) = [] then 0 else 1)).sum,
        b + (l.map (fun n =>
          ((validDsts (edges g n)).filter (fun d => decide (d > n))).length)).sum) := by
  intro l
  induction l with
  | nil => intro a b; simp
  | cons n r ih =>
    intro a b
    rw [List.foldl_cons]
    have h1 : countNode g (a, b) n =
        (a + (if validDsts (edges g n) = [] then 0 else 1),
          b + ((validDsts (edges g n)).filter (fun d => decide (d > n))).length) := by
      simp only [countNode, countEdge_fold]
    rw [h1, ih]
    simp only [List.map_cons, List.sum_cons]
    congr 1 <;> omega

theorem sum_range_map (f : Nat → Nat) (n : Nat) :
    ((List.range n).map f).sum = (Finset.range n).sum f := by
  induction n with
  | zero => simp
  | succ k ih =>
    rw [List.range_succ, List.map_append, List.sum_append, ih, Finset.sum_range_succ]
    simp

theorem countValidNodesAndEdges_eq (g : Graph) :
    countValidNodesAndEdges g =
      ((Finset.range g.length).sum (fun n => if validDsts (edges g n) = [] then 0 else 1),
        (Finset.range g.length).sum (fun n =>
          ((validDsts (edges g n)).filter (fun d => decide (d > n))).length)) := by
  unfold countValidNodesAndEdges
  rw [countNode_fold, sum_range_map, sum_range_map]
  simp

theorem validDsts_nodup (adj : List CsrEdge) (h : (adj.map CsrEdge.dst).Nodup) :
    (validDsts adj).Nodup := by
  unfold validDsts
  exact List.Nodup.sublist (List.Sublist.map _ (List.filter_sublist _)) h

theorem filter_length_eq_sum (N : Nat) (p : Nat → Bool) (l : List Nat) (hn : l.Nodup)
    (hlt : ∀ d ∈ l, d < N) :
    (l.filter p).length =
      (Finset.range N).sum (fun d => if d ∈ l ∧ p d = true then 1 else 0) := by
  have h1 : (l.filter p).length = (l.filter p).toFinset.card :=
    (List.toFinset_card_of_nodup (hn.filter _)).symm
  have h2 : (l.filter p).toFinset =
      (Finset.range N).filter (fun d => d ∈ l ∧ p d = true) := by
    ext d
    simp only [List.mem_toFinset, List.mem_filter, Finset.mem_filter, Finset.mem_range]
    constructor
    · rintro ⟨a, b⟩
      exact ⟨hlt d a, a, b⟩
    · rintro ⟨_, a, b⟩
      exact ⟨a, b⟩
  rw [h1, h2, Finset.card_filter]

theorem mem_validDsts_edges (g : Graph) (n d : GNode) :
    d ∈ validDsts (edges g n) ↔ ValidEdge g n d := by
  rw [mem_validDsts]
  rfl

/-- In a simple graph with symmetric validity in which every valid edge has
support at least `k - 2`, a node with a valid edge has at least `k - 1` valid
neighbours. -/
theorem validDegree_ge (g : Graph) (k : Nat) (hk : 2 ≤ k) (hsimple : Simple g)
    (hsup : ∀ i j, ValidEdge g i j → k - 2 ≤ support g i j) (n : GNode)
    (hn : validDsts (edges g n) ≠ []) : k - 1 ≤ validDegree g n := by
  obtain ⟨j, hj⟩ := List.exists_mem_of_ne_nil _ hn
  have hv : ValidEdge g n j := (mem_validDsts_edges g n j).mp hj
  have h1 := hsup n j hv
  have hsub : commonValidNeighbours g n j ⊆ (validDsts (edges g n)).toFinset.erase j := by
    intro x hx
    obtain ⟨hx1, hx2⟩ := (mem_commonValidNeighbours g n j x).mp hx
    rw [Finset.mem_erase, List.mem_toFinset]
    refine ⟨?_, (mem_validDsts_edges g n x).mpr hx1⟩
    rintro rfl
    obtain ⟨c, hc, hcd, _⟩ := hx2
    exact ((hsimple x).2 c hc).1 hcd
  have h2 := Finset.card_le_card hsub
  have h3 : ((validDsts (edges g n)).toFinset.erase j).card =
      (validDsts (edges g n)).toFinset.card - 1 :=
    Finset.card_erase_of_mem (List.mem_toFinset.mpr hj)
  have h4 : 0 < (validDsts (edges g n)).toFinset.card :=
    Finset.card_pos.mpr ⟨j, List.mem_toFinset.mpr hj⟩
  unfold validDegree
  unfold support at h1
  omega

/-- The valid edges with `dst > src`, summed over the nodes, are half of the
valid neighbours, summed over the nodes. -/
theorem sum_validDegree (g : Graph) (hsimple : Simple g)
    (hsym : ∀ i j, ValidEdge g i j → ValidEdge g j i) :
    (Finset.range g.length).sum (fun n => validDegree g n) =
      2 * (Finset.range g.length).sum (fun n =>
        ((validDsts (edges g n)).filter (fun d => decide (d > n))).length) := by
  have hnd : ∀ n, (validDsts (edges g n)).Nodup := fun n =>
    validDsts_nodup _ (hsimple n).1
  have hlt : ∀ n, ∀ d ∈ validDsts (edges g n), d < g.length := by
    intro n d hd
    obtain ⟨c, hc, hcd, _⟩ := (mem_validDsts _ _).mp hd
    rw [← hcd]
    exact ((hsimple n).2 c hc).2
  have hne : ∀ n : Nat, ∀ d ∈ validDsts (edges g n), ¬ @Eq Nat d n := by
    intro n d hd
    obtain ⟨c, hc, hcd, _⟩ := (mem_validDsts _ _).mp hd
    rw [← hcd]
    exact ((hsimple n).2 c hc).1
  have hsymm : ∀ n d, d ∈ validDsts (edges g n) ↔ n ∈ validDsts (edges g d) := by
    intro n d
    rw [mem_validDsts_edges, mem_validDsts_edges]
    exact ⟨hsym n d, hsym d n⟩
  have hup : ∀ n, ((validDsts (edges g n)).filter (fun d => decide (d > n))).length =
      (Finset.range g.length).sum
        (fun d => if d ∈ validDsts (edges g n) ∧ n < d then 1 else 0) := by
    intro n
    rw [filter_length_eq_sum g.length _ _ (hnd n) (hlt n)]
    apply Finset.sum_congr rfl
    intro d _
    simp
  have hdeg : ∀ n : Nat, validDegree g n =
      (Finset.range g.length).sum
          (fun d => if d ∈ validDsts (edges g n) ∧ n < d then 1 else 0) +
        (Finset.range g.length).sum
          (fun d => if d ∈ validDsts (edges g n) ∧ d < n then 1 else 0) := by
    intro n
    unfold validDegree
    rw [List.toFinset_card_of_nodup (hnd n)]
    have h0 : (validDsts (edges g n)).length =
        ((validDsts (edges g n)).filter (fun _ => true)).length := by
      rw [List.filter_true]
    rw [h0, filter_length_eq_sum g.length _ _ (hnd n) (hlt n), ← Finset.sum_add_distrib]
    apply Finset.sum_congr rfl
    intro d _
    by_cases hd : d ∈ validDsts (edges g n)
    · have h3 : ¬ @Eq Nat d n := hne n d hd
      by_cases h1 : @LT.lt Nat _ n d
      · simp [hd, h1, Nat.lt_asymm h1]
      · have h2 : d < n := by omega
        simp [hd, h1, h2]
    · simp [hd]
  have hswap : (Finset.range g.length).sum (fun n => (Finset.range g.length).sum
        (fun d => if d ∈ validDsts (edges g n) ∧ d < n then 1 else 0)) =
      (Finset.range g.length).sum (fun n => (Finset.range g.length).sum
        (fun d => if d ∈ validDsts (edges g n) ∧ n < d then 1 else 0)) := by
    rw [Finset.sum_comm]
    apply Finset.sum_congr rfl
    intro n _
    apply Finset.sum_congr rfl
    intro d _
    exact if_congr (and_congr (hsymm n d).symm Iff.rfl) rfl rfl
  calc (Finset.range g.length).sum (fun n => validDegree g n)
      = (Finset.range g.length).sum (fun n =>
          (Finset.range g.length).sum
              (fun d => if d ∈ validDsts (edges g n) ∧ n < d then 1 else 0) +
            (Finset.range g.length).sum
              (fun d => if d ∈ validDsts (edges g n) ∧ d < n then 1 else 0)) :=
        Finset.sum_congr rfl (fun n _ => hdeg n)
    _ = 2 * (Finset.range g.length).sum (fun n => (Finset.range g.length).sum
          (fun d => if d ∈ validDsts (edges g n) ∧ n < d then 1 else 0)) := by
        rw [Finset.sum_add_distrib, hswap]
        omega
    _ = 2 * (Finset.range g.length).sum (fun n =>
          ((validDsts (edges g n)).filter (fun d => decide (d > n))).length) := by
        congr 1
        exact Finset.sum_congr rfl (fun n _ => (hup n).symm)

theorem edges_of_ge (g : Graph) (n : GNode) (h : g.length ≤ n) : edges g n = [] :=
  List.getD_eq_default g [] h

theorem triangle_cases (P : Nat → Nat → Prop) (h01 : P 0 1) (h02 : P 0 2) (h10 : P 1 0)
    (h12 : P 1 2) (h20 : P 2 0) (h21 : P 2 1) :
    ∀ i j : Nat, (∃ c ∈ edges triangle i, c.dst = j) → P i j := by
  intro i j ⟨c, hc, hcd⟩
  by_cases hi : 3 ≤ i
  · rw [edges_of_ge triangle i hi] at hc
    cases hc
  · have hi3 : i < 3 := by omega
    subst hcd
    interval_cases i
    · have h : c = ⟨1, 0⟩ ∨ c = ⟨2, 0⟩ := by simpa [edges, triangle] using hc
      rcases h with rfl | rfl
      · exact h01
      · exact h02
    · have h : c = ⟨0, 0⟩ ∨ c = ⟨2, 0⟩ := by simpa [edges, triangle] using hc
      rcases h with rfl | rfl
      · exact h10
      · exact h12
    · have h : c = ⟨0, 0⟩ ∨ c = ⟨1, 0⟩ := by simpa [edges, triangle] using hc
      rcases h with rfl | rfl
      · exact h20
      · exact h21

theorem triangle_simple : Simple triangle := by
  intro (n : Nat)
  by_cases hn : 3 ≤ n
  · rw [edges_of_ge triangle n hn]
    exact ⟨List.nodup_nil, fun e he => absurd he (List.not_mem_nil e)⟩
  · have hn3 : n < 3 := by omega
    interval_cases n <;> decide

theorem triangle_valid_symm : ∀ i j, ValidEdge triangle i j → ValidEdge triangle j i := by
  intro i j h
  obtain ⟨c, hc, hcd, _⟩ := h
  exact triangle_cases (fun i j => ValidEdge triangle j i)
    ((mem_validDsts_edges triangle 1 0).mp (by decide)) ((mem_validDsts_edges triangle 2 0).mp (by decide))
    ((mem_validDsts_edges triangle 0 1).mp (by decide)) ((mem_validDsts_edges triangle 2 1).mp (by decide))
    ((mem_validDsts_edges triangle 0 2).mp (by decide)) ((mem_validDsts_edges triangle 1 2).mp (by decide))
    i j ⟨c, hc, hcd⟩

theorem triangle_support : ∀ i j, ValidEdge triangle i j → 3 - 2 ≤ support triangle i j := by
  intro i j h
  obtain ⟨c, hc, hcd, _⟩ := h
  exact triangle_cases (fun i j => 3 - 2 ≤ support triangle i j)
    (by show 3 - 2 ≤ support triangle 0 1; decide) (by show 3 - 2 ≤ support triangle 0 2; decide)
    (by show 3 - 2 ≤ support triangle 1 0; decide) (by show 3 - 2 ≤ support triangle 1 2; decide)
    (by show 3 - 2 ≤ support triangle 2 0; decide) (by show 3 - 2 ≤ support triangle 2 1; decide)
    i j ⟨c, hc, hcd⟩

end KTruss

/-- C21: for every simple undirected graph with symmetric edge validity and every
trussNum >= 2, if every valid edge has support >= trussNum - 2, then every node
with a valid edge has at least trussNum - 1 valid neighbours, and the two counts
that `countValidNodesAndEdges` returns satisfy
numValidNodes * (trussNum - 1) / 2 <= numValidEdges. The first count is the
number of nodes with a valid edge, and twice the second is the number of valid
neighbours summed over the nodes. -/
theorem C21_edge_count_bound (g : KTruss.Graph) (trussNum : Nat) (hk : 2 ≤ trussNum)
    (hsimple : KTruss.Simple g)
    (hsym : ∀ i j, KTruss.ValidEdge g i j → KTruss.ValidEdge g j i)
    (hsup : ∀ i j, KTruss.ValidEdge g i j → trussNum - 2 ≤ KTruss.support g i j) :
    (∀ n, KTruss.validDsts (KTruss.edges g n) ≠ [] → trussNum - 1 ≤ KTruss.validDegree g n) ∧
    (KTruss.countValidNodesAndEdges g).1 * (trussNum - 1) / 2 ≤
      (KTruss.countValidNodesAndEdges g).2 ∧
    (KTruss.countValidNodesAndEdges g).1 =
      ((Finset.range g.length).filter
        (fun n => KTruss.validDsts (KTruss.edges g n) ≠ [])).card ∧
    2 * (KTruss.countValidNodesAndEdges g).2 =
      (Finset.range g.length).sum (fun n => KTruss.validDegree g n) := by
  have hdeg := KTruss.validDegree_ge g trussNum hk hsimple hsup
  have hsum := KTruss.sum_validDegree g hsimple hsym
  rw [KTruss.countValidNodesAndEdges_eq]
  have hnodes : (Finset.range g.length).sum
        (fun n => if KTruss.validDsts (KTruss.edges g n) = [] then 0 else 1) * (trussNum - 1) ≤
      (Finset.range g.length).sum (fun n => KTruss.validDegree g n) := by
    rw [Finset.sum_mul]
    apply Finset.sum_le_sum
    intro n _
    by_cases hn : KTruss.validDsts (KTruss.edges g n) = []
    · simp [hn]
    · simp only [hn, if_false, Nat.one_mul]
      exact hdeg n hn
  refine ⟨hdeg, ?_, ?_, hsum.symm⟩
  · show _ / 2 ≤ _
    rw [hsum] at hnodes
    apply Nat.div_le_of_le_mul
    exact hnodes
  · show (Finset.range g.length).sum _ = _
    rw [Finset.card_filter]
    apply Finset.sum_congr rfl
    intro n _
    by_cases hn : KTruss.validDsts (KTruss.edges g n) = [] <;> simp [hn]

/-- C21 at the triangle with all edges valid and trussNum 3: three valid nodes,
three valid edges, and 3 * 2 / 2 <= 3. -/
theorem C21_edge_count_bound_witness :
    KTruss.countValidNodesAndEdges KTruss.triangle = (3, 3) ∧
    (KTruss.countValidNodesAndEdges KTruss.triangle).1 * (3 - 1) / 2 ≤
      (KTruss.countValidNodesAndEdges KTruss.triangle).2 :=
  ⟨by decide, (C21_edge_count_bound KTruss.triangle 3 (by decide) KTruss.triangle_simple
    KTruss.triangle_valid_symm KTruss.triangle_support).2.1⟩

/-! ## Sloan's reordering: the breadth-first search -/

namespace Sloan

theorem edges_eq_of_adj (g1 g : Graph) (h : g1.adj = g.adj) (n : Nat) :
    g1.edges n = g.edges n := by
  unfold Graph.edges
  rw [h]

theorem size_eq_of_adj (g1 g : Graph) (h : g1.adj = g.adj) : g1.size = g.size := by
  unfold Graph.size
  rw [h]

theorem lt_size_of_mem_edges (g : Graph) (n v : Nat) (h : v ∈ g.edges n) : n < g.size := by
  by_contra hn
  unfold Graph.edges at h
  rw [List.getD_eq_default _ _ (Nat.le_of_not_lt hn)] at h
  cases h

theorem dist_setData (g : Graph) (n : Nat) (d : SNode) (x : Nat) :
    dist (g.setData n d) x = if x = n then d.dist else dist g x := by
  unfold dist Graph.getData Graph.setData
  by_cases h : x = n
  · subst h
    simp
  · simp [Function.update_noteq h, h]

theorem bfsRelax_adj (nd : Nat) (st : Graph × List GNode) (d : Nat) :
    (bfsRelax nd st d).1.adj = st.1.adj := by
  unfold bfsRelax
  split <;> rfl

theorem bfsRelax_dist (nd : Nat) (st : Graph × List GNode) (d x : Nat) :
    dist (bfsRelax nd st d).1 x = if x = d ∧ nd < dist st.1 x then nd else dist st.1 x := by
  unfold bfsRelax
  by_cases h : nd < (st.1.getData d).dist
  · rw [if_pos h]
    rw [dist_setData]
    by_cases hx : x = d
    · subst hx
      simp [dist, h]
    · simp [hx]
  · rw [if_neg h]
    by_cases hx : x = d
    · subst hx
      simp [dist, h]
    · simp [hx]

theorem bfsRelax_pushed (nd : Nat) (st : Graph × List GNode) (d : Nat) :
    (bfsRelax nd st d).2 = if nd < dist st.1 d then st.2 ++ [d] else st.2 := by
  unfold bfsRelax dist
  split <;> rfl

theorem relaxFold_adj (nd : Nat) : ∀ (es : List GNode) (st : Graph × List GNode),
    (es.foldl (bfsRelax nd) st).1.adj = st.1.adj := by
  intro es
  induction es with
  | nil => intro st; rfl
  | cons d r ih =>
    intro st
    rw [List.foldl_cons, ih, bfsRelax_adj]

theorem relaxFold_dist (nd : Nat) : ∀ (es : List GNode) (st : Graph × List GNode) (x : Nat),
    dist (es.foldl (bfsRelax nd) st).1 x =
      if x ∈ es ∧ nd < dist st.1 x then nd else dist st.1 x := by
  intro es
  induction es with
  | nil => intro st x; simp
  | cons d r ih =>
    intro st x
    rw [List.foldl_cons, ih, bfsRelax_dist]
    by_cases hx : x = d
    · subst hx
      by_cases h : nd < dist st.1 x
      · simp [h]
      · simp [h]
    · simp [hx]

theorem relaxFold_pushed (nd : Nat) : ∀ (es : List GNode) (st : Graph × List GNode) (x : Nat),
    x ∈ (es.foldl (bfsRelax nd) st).2 ↔ x ∈ st.2 ∨ (x ∈ es ∧ nd < dist st.1 x) := by
  intro es
  induction es with
  | nil => intro st x; simp
  | cons d r ih =>
    intro st x
    rw [List.foldl_cons, ih, bfsRelax_pushed, bfsRelax_dist]
    by_cases hd : nd < dist st.1 d
    · rw [if_pos hd]
      by_cases hx : x = d
      · subst hx
        simp [hd]
      · simp [hx]
    · rw [if_neg hd]
      by_cases hx : x = d
      · subst hx
        simp [hd]
      · simp [hx]

theorem distSum_setData (g : Graph) (d nd : Nat) (hd : d < g.size) (h : nd < dist g d) :
    distSum (g.setData d { g.getData d with dist := nd }) + 1 ≤ distSum g := by
  unfold distSum
  have hs : (g.setData d { g.getData d with dist := nd }).size = g.size := rfl
  rw [hs]
  have hmem : d ∈ Finset.range g.size := Finset.mem_range.mpr hd
  rw [← Finset.add_sum_erase _ _ hmem, ← Finset.add_sum_erase (Finset.range g.size) (dist g) hmem]
  have h1 : dist (g.setData d { g.getData d with dist := nd }) d = nd := by
    rw [dist_setData]; simp
  have h2 : ((Finset.range g.size).erase d).sum
      (fun v => dist (g.setData d { g.getData d with dist := nd }) v) =
      ((Finset.range g.size).erase d).sum (fun v => dist g v) := by
    apply Finset.sum_congr rfl
    intro v hv
    rw [dist_setData, if_neg (Finset.ne_of_mem_erase hv)]
  rw [h1, h2]
  omega

theorem bfsRelax_measure (nd : Nat) (st : Graph × List GNode) (d : Nat) (hd : d < st.1.size) :
    distSum (bfsRelax nd st d).1 + (bfsRelax nd st d).2.length ≤
      distSum st.1 + st.2.length := by
  unfold bfsRelax
  by_cases h : nd < (st.1.getData d).dist
  · rw [if_pos h]
    have h3 := distSum_setData st.1 d nd hd h
    show distSum (st.1.setData d { st.1.getData d with dist := nd }) + (st.2 ++ [d]).length ≤
      distSum st.1 + st.2.length
    rw [List.length_append, List.length_singleton]
    omega
  · rw [if_neg h]

theorem relaxFold_measure (nd : Nat) : ∀ (es : List GNode) (st : Graph × List GNode),
    (∀ d ∈ es, d < st.1.size) →
    distSum (es.foldl (bfsRelax nd) st).1 + (es.foldl (bfsRelax nd) st).2.length ≤
      distSum st.1 + st.2.length := by
  intro es
  induction es with
  | nil => intro st _; exact Nat.le_refl _
  | cons d r ih =>
    intro st hlt
    rw [List.foldl_cons]
    have h1 := bfsRelax_measure nd st d (hlt d (List.mem_cons_self _ _))
    have hsz : (bfsRelax nd st d).1.size = st.1.size :=
      size_eq_of_adj _ _ (bfsRelax_adj nd st d)
    have h2 := ih (bfsRelax nd st d) (by
      intro x hx
      rw [hsz]
      exact hlt x (List.mem_cons_of_mem _ hx))
    omega

theorem mem_eraseIdx_of_ne (l : List Nat) (i : Nat) (hi : i < l.length) (x : Nat)
    (hx : x ∈ l) (hne : x ≠ l[i]) : x ∈ l.eraseIdx i := by
  rw [List.mem_eraseIdx_iff_getElem]
  obtain ⟨j, hj, hjx⟩ := List.getElem_of_mem hx
  refine ⟨j, hj, ?_, hjx⟩
  rintro rfl
  exact hne hjx.symm

/-- One application of the operator of `bfsFn` to the pending node at the
position `i` keeps the invariant, with the pushed nodes pending behind the
others, and lowers the sum of the distances by the number of pushes at least. -/
theorem bfsOperator_inv (g : Graph) (s : Nat) (hwf : WellFormed g) (g1 : Graph)
    (wl : List Nat) (maxDist i : Nat) (hi : i < wl.length) (hinv : BfsInv g s g1 wl) :
    BfsInv g s (bfsOperator g1 maxDist wl[i]).1
        (wl.eraseIdx i ++ (bfsOperator g1 maxDist wl[i]).2.2) ∧
      distSum (bfsOperator g1 maxDist wl[i]).1 + (bfsOperator g1 maxDist wl[i]).2.2.length ≤
        distSum g1 := by
  have hedges : g1.edges wl[i] = g.edges wl[i] := edges_eq_of_adj _ _ hinv.adj _
  have hsize : g1.size = g.size := size_eq_of_adj _ _ hinv.adj
  have hd : ∀ x : Nat, dist (bfsOperator g1 maxDist wl[i]).1 x =
      if x ∈ g.edges wl[i] ∧ (dist g1 wl[i] + 1) % UINT_SIZE < dist g1 x then
        (dist g1 wl[i] + 1) % UINT_SIZE
      else dist g1 x := by
    intro x
    have h1 : (bfsOperator g1 maxDist wl[i]).1 =
        ((g1.edges wl[i]).foldl (bfsRelax ((dist g1 wl[i] + 1) % UINT_SIZE)) (g1, [])).1 := rfl
    rw [h1, relaxFold_dist, hedges]
  have hp : ∀ x : Nat, x ∈ (bfsOperator g1 maxDist wl[i]).2.2 ↔
      (x ∈ g.edges wl[i] ∧ (dist g1 wl[i] + 1) % UINT_SIZE < dist g1 x) := by
    intro x
    have h1 : (bfsOperator g1 maxDist wl[i]).2.2 =
        ((g1.edges wl[i]).foldl (bfsRelax ((dist g1 wl[i] + 1) % UINT_SIZE)) (g1, [])).2 := rfl
    rw [h1, relaxFold_pushed, hedges]
    simp
  have hnd : ∀ x : Nat, x ∈ g.edges wl[i] →
      (dist g1 wl[i] + 1) % UINT_SIZE = dist g1 wl[i] + 1 := by
    intro x hx
    have hn := lt_size_of_mem_edges g _ x hx
    have hb := hinv.bound _ hn
    apply Nat.mod_eq_of_lt
    unfold DIST_INFINITY at hb
    unfold UINT_SIZE
    omega
  have hle : ∀ x : Nat, dist (bfsOperator g1 maxDist wl[i]).1 x ≤ dist g1 x := by
    intro x
    rw [hd]
    split
    · rename_i h; exact Nat.le_of_lt h.2
    · exact Nat.le_refl _
  constructor
  · constructor
    · exact (relaxFold_adj _ _ _).trans hinv.adj
    · intro v hv
      exact Nat.le_trans (hle v) (hinv.bound v hv)
    · have h0 := hle s
      rw [hinv.source] at h0
      omega
    · intro v hv hlt
      rw [hd] at hlt ⊢
      by_cases hc : v ∈ g.edges wl[i] ∧ (dist g1 wl[i] + 1) % UINT_SIZE < dist g1 v
      · rw [if_pos hc] at hlt ⊢
        rw [hnd v hc.1] at hlt ⊢
        have hn := lt_size_of_mem_edges g _ v hc.1
        exact Walk.snoc (hinv.walk _ hn (by omega)) hc.1
      · rw [if_neg hc] at hlt ⊢
        exact hinv.walk v hv hlt
    · intro u hu hnot v hv
      have hnp : u ∉ (bfsOperator g1 maxDist wl[i]).2.2 := fun h =>
        hnot (List.mem_append_right _ h)
      have hue : dist (bfsOperator g1 maxDist wl[i]).1 u = dist g1 u := by
        rw [hd]
        rw [hp] at hnp
        rw [if_neg hnp]
      rw [hue]
      by_cases hun : u = wl[i]
      · subst hun
        rw [hd]
        by_cases hc : v ∈ g.edges wl[i] ∧ (dist g1 wl[i] + 1) % UINT_SIZE < dist g1 v
        · rw [if_pos hc, hnd v hv]
        · rw [if_neg hc]
          have := hnd v hv
          have hc2 : ¬ (dist g1 wl[i] + 1) % UINT_SIZE < dist g1 v := fun h => hc ⟨hv, h⟩
          omega
      · have huw : u ∉ wl := by
          intro hmem
          exact hnot (List.mem_append_left _ (mem_eraseIdx_of_ne wl i hi u hmem hun))
        exact Nat.le_trans (hle v) (hinv.relaxed u hu huw v hv)
  · have := relaxFold_measure ((dist g1 wl[i] + 1) % UINT_SIZE) (g1.edges wl[i]) (g1, []) (by
      intro d hd1
      rw [hedges] at hd1
      show d < g1.size
      rw [hsize]
      exact hwf _ d hd1)
    have h1 : (bfsOperator g1 maxDist wl[i]).1 =
        ((g1.edges wl[i]).foldl (bfsRelax ((dist g1 wl[i] + 1) % UINT_SIZE)) (g1, [])).1 := rfl
    have h2 : (bfsOperator g1 maxDist wl[i]).2.2 =
        ((g1.edges wl[i]).foldl (bfsRelax ((dist g1 wl[i] + 1) % UINT_SIZE)) (g1, [])).2 := rfl
    rw [h1, h2]
    simpa using this

end Sloan

namespace Sloan

theorem bfsForEach_nil (fuel : Nat) (sched : Nat → Nat) (g : Graph) (maxDist : Nat) :
    bfsForEach fuel sched g maxDist [] = some (g, maxDist) := by
  cases fuel <;> rfl

theorem bfsForEach_cons (fuel : Nat) (sched : Nat → Nat) (g : Graph) (maxDist : Nat)
    (w : GNode) (ws : List GNode) :
    bfsForEach (fuel + 1) sched g maxDist (w :: ws) =
      bfsForEach fuel (fun k => sched (k + 1))
        (bfsOperator g maxDist ((w :: ws).getD (sched 0 % (w :: ws).length) w)).1
        (bfsOperator g maxDist ((w :: ws).getD (sched 0 % (w :: ws).length) w)).2.1
        ((w :: ws).eraseIdx (sched 0 % (w :: ws).length) ++
          (bfsOperator g maxDist ((w :: ws).getD (sched 0 % (w :: ws).length) w)).2.2) := rfl

/-- The loop of `bfsFn` ends within the sum of the distances plus the number of
pending nodes applications of the operator, whatever the order of the work
list, and at its end the invariant holds with no node pending. -/
theorem bfsForEach_spec (g : Graph) (s : Nat) (hwf : WellFormed g) :
    ∀ (fuel : Nat) (sched : Nat → Nat) (g1 : Graph) (maxDist : Nat) (wl : List Nat),
      BfsInv g s g1 wl → distSum g1 + wl.length < fuel →
      ∃ r, bfsForEach fuel sched g1 maxDist wl = some r ∧ BfsInv g s r.1 [] := by
  intro fuel
  induction fuel with
  | zero => intro _ _ _ _ _ h; omega
  | succ k ih =>
    intro sched g1 maxDist wl hinv hm
    cases wl with
    | nil => exact ⟨(g1, maxDist), rfl, hinv⟩
    | cons w ws =>
      rw [bfsForEach_cons]
      have hi : sched 0 % (w :: ws).length < (w :: ws).length :=
        Nat.mod_lt _ (Nat.succ_pos _)
      rw [List.getD_eq_getElem (w :: ws) w hi]
      obtain ⟨h1, h2⟩ := bfsOperator_inv g s hwf g1 (w :: ws) maxDist _ hi hinv
      apply ih _ _ _ _ h1
      rw [List.length_append, List.length_eraseIdx_of_lt hi]
      omega

theorem walk_lt (g : Graph) (s : Nat) (hwf : WellFormed g) (hs : s < g.size) :
    ∀ (v k : Nat), Walk g s v k → v < g.size := by
  intro v k h
  induction h with
  | nil => exact hs
  | snoc _ he _ => exact hwf _ _ he

theorem dist_le_of_walk (g : Graph) (s : Nat) (hwf : WellFormed g) (hs : s < g.size)
    (g2 : Graph) (hinv : BfsInv g s g2 []) :
    ∀ (v k : Nat), Walk g s v k → dist g2 v ≤ k := by
  intro v k h
  induction h with
  | nil => rw [hinv.source]
  | snoc hw he ih =>
    have hu := walk_lt g s hwf hs _ _ hw
    have := hinv.relaxed _ hu (List.not_mem_nil _) _ he
    omega

theorem isDist_pred (g : Graph) (s v k : Nat) (h : IsDist g s v (k + 1)) :
    ∃ u, IsDist g s u k := by
  obtain ⟨hw, hmin⟩ := h
  cases hw with
  | snoc hu he =>
    rename_i u
    refine ⟨u, hu, ?_⟩
    intro j hj
    have := hmin (j + 1) (Walk.snoc hj he)
    omega

theorem isDist_levels (g : Graph) (s : Nat) : ∀ (k v : Nat), IsDist g s v k →
    ∀ j, j ≤ k → ∃ u, IsDist g s u j := by
  intro k
  induction k with
  | zero =>
    intro v h j hj
    have : j = 0 := by omega
    subst this
    exact ⟨v, h⟩
  | succ k ih =>
    intro v h j hj
    by_cases hjk : j = k + 1
    · subst hjk
      exact ⟨v, h⟩
    · obtain ⟨u, hu⟩ := isDist_pred g s v k h
      exact ih u hu j (by omega)

/-- A shortest path has fewer edges than the graph has nodes. -/
theorem isDist_lt_size (g : Graph) (s : Nat) (hwf : WellFormed g) (hs : s < g.size)
    (v k : Nat) (h : IsDist g s v k) : k < g.size := by
  have hl : ∀ j, ∃ u, j ≤ k → IsDist g s u j := by
    intro j
    by_cases hj : j ≤ k
    · obtain ⟨u, hu⟩ := isDist_levels g s k v h j hj
      exact ⟨u, fun _ => hu⟩
    · exact ⟨0, fun h1 => absurd h1 hj⟩
  choose f hf using hl
  have hcard := Finset.card_le_card_of_injOn (s := Finset.range (k + 1))
    (t := Finset.range g.size) f
    (by
      intro j hj
      have hj1 : j ≤ k := by
        have := Finset.mem_range.mp hj
        omega
      exact Finset.mem_range.mpr (walk_lt g s hwf hs _ _ (hf j hj1).1))
    (by
      intro a ha b hb hab
      have ha1 : a ≤ k := by
        have := Finset.mem_range.mp ha
        omega
      have hb1 : b ≤ k := by
        have := Finset.mem_range.mp hb
        omega
      have h1 := hf a ha1
      have h2 := hf b hb1
      rw [hab] at h1
      exact Nat.le_antisymm (h1.2 b h2.1) (h2.2 a h1.1))
  simp only [Finset.card_range] at hcard
  omega

/-- The distances that `bfsFn::go` leaves, for every order of the work list. -/
theorem bfsGo_spec (p : Globals) (s : Nat) (sched : Nat → Nat) (hwf : WellFormed p.graph)
    (hs : s < p.graph.size) (hsize : p.graph.size ≤ DIST_INFINITY + 1)
    (hinit : ∀ n : Nat, n < p.graph.size → dist p.graph n = DIST_INFINITY) :
    ∃ p1, bfsGo sched p s = some p1 ∧ p1.graph.adj = p.graph.adj ∧
      p1.perm = p.perm ∧ p1.pq = p.pq ∧
      (∀ v : Nat, v < p.graph.size → ∀ k, IsDist p.graph s v k → dist p1.graph v = k) ∧
      (∀ v : Nat, v < p.graph.size → (∀ k, ¬ Walk p.graph s v k) →
        dist p1.graph v = DIST_INFINITY) := by
  have hd0 : ∀ x : Nat, dist (p.graph.setData s { p.graph.getData s with dist := 0 }) x =
      if x = s then 0 else dist p.graph x := by
    intro x
    rw [dist_setData]
  have hinv : BfsInv p.graph s (p.graph.setData s { p.graph.getData s with dist := 0 }) [s] := by
    constructor
    · rfl
    · intro v hv
      rw [hd0]
      split
      · exact Nat.zero_le _
      · rw [hinit v hv]
    · rw [hd0, if_pos rfl]
    · intro v hv hlt
      rw [hd0] at hlt ⊢
      by_cases hvs : v = s
      · rw [if_pos hvs, hvs]
        exact Walk.nil
      · rw [if_neg hvs, hinit v hv] at hlt
        omega
    · intro u hu hnot v hv
      have hus : u ≠ s := fun h => hnot (by rw [h]; exact List.mem_singleton_self _)
      rw [hd0 u, if_neg hus, hinit u hu, hd0]
      split
      · omega
      · rw [hinit v (hwf u v hv)]
        omega
  have hsum : distSum (p.graph.setData s { p.graph.getData s with dist := 0 }) ≤
      p.graph.size * DIST_INFINITY := by
    unfold distSum
    have h := Finset.sum_le_card_nsmul (Finset.range p.graph.size)
      (fun v => dist (p.graph.setData s { p.graph.getData s with dist := 0 }) v)
      DIST_INFINITY (by
        intro v hv
        exact hinv.bound v (Finset.mem_range.mp hv))
    simpa using h
  obtain ⟨r, hr, hfin⟩ := bfsForEach_spec p.graph s hwf (bfsFuel p.graph) sched _ p.maxDist [s]
    hinv (by
      show distSum _ + 1 < bfsFuel p.graph
      unfold bfsFuel
      omega)
  refine ⟨{ p with graph := r.1, maxDist := r.2 }, ?_, hfin.adj, rfl, rfl, ?_, ?_⟩
  · unfold bfsGo
    rw [hr]
  · intro v hv k hk
    have hle := dist_le_of_walk p.graph s hwf hs r.1 hfin v k hk.1
    have hkn := isDist_lt_size p.graph s hwf hs v k hk
    by_cases hlt : dist r.1 v < DIST_INFINITY
    · have := hk.2 _ (hfin.walk v hv hlt)
      show dist r.1 v = k
      omega
    · have := hfin.bound v hv
      show dist r.1 v = k
      omega
  · intro v hv hno
    have := hfin.bound v hv
    by_cases hlt : dist r.1 v < DIST_INFINITY
    · exact absurd (hfin.walk v hv hlt) (hno _)
    · show dist r.1 v = DIST_INFINITY
      omega

end Sloan

/-- C23: let the edges of the graph lead to nodes of the graph, let the graph
have at most 2^32 - 1 nodes, all with dist = DIST_INFINITY, and let s be a node.
Then for every order in which the work list hands out the pushed nodes
`bfsFn::go (s)` ends, and afterwards every node reachable from s has dist equal to
the number of edges of a shortest path from s (so dist (s) = 0), and every node
that is not reachable still has dist = DIST_INFINITY; the distances are the same
for every order. -/
theorem C23_bfs_distances (p : Sloan.Globals) (s : Nat) (sched : Nat → Nat)
    (hwf : Sloan.WellFormed p.graph) (hs : s < p.graph.size)
    (hsize : p.graph.size ≤ Sloan.DIST_INFINITY + 1)
    (hinit : ∀ n : Nat, n < p.graph.size → Sloan.dist p.graph n = Sloan.DIST_INFINITY) :
    ∃ p1, Sloan.bfsGo sched p s = some p1 ∧
      Sloan.dist p1.graph s = 0 ∧
      (∀ v : Nat, v < p.graph.size → ∀ k, Sloan.IsDist p.graph s v k →
        Sloan.dist p1.graph v = k) ∧
      (∀ v : Nat, v < p.graph.size → (∀ k, ¬ Sloan.Walk p.graph s v k) →
        Sloan.dist p1.graph v = Sloan.DIST_INFINITY) ∧
      (∀ sched2 : Nat → Nat, ∃ p2, Sloan.bfsGo sched2 p s = some p2 ∧
        ∀ v : Nat, v < p.graph.size → Sloan.dist p2.graph v = Sloan.dist p1.graph v) := by
  obtain ⟨p1, h1, _, _, _, hr1, hu1⟩ := Sloan.bfsGo_spec p s sched hwf hs hsize hinit
  refine ⟨p1, h1, ?_, hr1, hu1, ?_⟩
  · exact hr1 s hs 0 ⟨Sloan.Walk.nil, fun _ _ => Nat.zero_le _⟩
  · intro sched2
    obtain ⟨p2, h2, _, _, _, hr2, hu2⟩ := Sloan.bfsGo_spec p s sched2 hwf hs hsize hinit
    refine ⟨p2, h2, ?_⟩
    intro v hv
    classical
    by_cases hex : ∃ k, Sloan.Walk p.graph s v k
    · have hd : Sloan.IsDist p.graph s v (Nat.find hex) :=
        ⟨Nat.find_spec hex, fun j hj => Nat.find_min' hex hj⟩
      rw [hr1 v hv _ hd, hr2 v hv _ hd]
    · have hno : ∀ k, ¬ Sloan.Walk p.graph s v k := fun k hk => hex ⟨k, hk⟩
      rw [hu1 v hv hno, hu2 v hv hno]

theorem Sloan.wellFormed_of_bounded (g : Sloan.Graph)
    (h : ∀ n : Nat, n < g.size → ∀ d ∈ g.edges n, d < g.size) : Sloan.WellFormed g :=
  fun n d hd => h n (Sloan.lt_size_of_mem_edges g n d hd) d hd

/-- C23 at the path 0 - 1 beside the node 2 without edges, from the node 0 in
first-in first-out order: the distances are 0 and 1, and the node 2 keeps
DIST_INFINITY. -/
theorem C23_bfs_distances_witness :
    (∃ p1, Sloan.bfsGo Sloan.fifo (Sloan.startGlobals Sloan.pathAndNode) 0 = some p1 ∧
      Sloan.dist p1.graph 0 = 0) ∧
    (Sloan.bfsGo Sloan.fifo (Sloan.startGlobals Sloan.pathAndNode) 0).map
        (fun p => (Sloan.dist p.graph 0, Sloan.dist p.graph 1, Sloan.dist p.graph 2)) =
      some (0, 1, Sloan.DIST_INFINITY) := by
  obtain ⟨p1, h1, h2, _⟩ := C23_bfs_distances (Sloan.startGlobals Sloan.pathAndNode) 0
    Sloan.fifo (Sloan.wellFormed_of_bounded _ (by decide)) (by decide) (by decide)
    (fun _ _ => rfl)
  exact ⟨⟨p1, h1, h2⟩, by decide⟩

/-! ## Sloan's reordering: the permutation -/

namespace Sloan

namespace PriorityQueue

theorem top_eq_none (q : PriorityQueue) : q.top = none ↔ q = [] := by
  cases q with
  | nil => simp [top]
  | cons r rs =>
    simp only [top]
    cases top rs with
    | none => simp
    | some t => simp only; split <;> simp

theorem top_mem : ∀ (q : PriorityQueue) (t : UpdateRequest), q.top = some t → t ∈ q := by
  intro q
  induction q with
  | nil => intro t h; simp [top] at h
  | cons r rs ih =>
    intro t h
    simp only [top] at h
    cases hr : top rs with
    | none =>
      rw [hr] at h
      simp only [Option.some.injEq] at h
      rw [← h]
      exact List.mem_cons_self _ _
    | some t1 =>
      rw [hr] at h
      simp only at h
      split at h
      · simp only [Option.some.injEq] at h
        rw [← h]
        exact List.mem_cons_of_mem _ (ih t1 hr)
      · simp only [Option.some.injEq] at h
        rw [← h]
        exact List.mem_cons_self _ _

theorem pop_eq (q : PriorityQueue) (t : UpdateRequest) (h : q.top = some t) :
    q.pop = q.erase t := by
  unfold pop
  rw [h]

theorem mem_pop_of_ne (q : PriorityQueue) (t r : UpdateRequest) (h : q.top = some t)
    (hr : r ∈ q) (hne : r ≠ t) : r ∈ q.pop := by
  rw [pop_eq q t h]
  exact (List.mem_erase_of_ne hne).mpr hr

theorem mem_of_mem_pop (q : PriorityQueue) (r : UpdateRequest) (hr : r ∈ q.pop) : r ∈ q := by
  unfold pop at hr
  cases h : q.top with
  | none => rw [h] at hr; exact hr
  | some t => rw [h] at hr; exact List.mem_of_mem_erase hr

theorem length_pop (q : PriorityQueue) (t : UpdateRequest) (h : q.top = some t) :
    q.pop.length + 1 = q.length := by
  rw [pop_eq q t h, List.length_erase_of_mem (top_mem q t h)]
  have : 0 < q.length := List.length_pos_of_mem (top_mem q t h)
  omega

theorem mem_push (q : PriorityQueue) (x r : UpdateRequest) : r ∈ q.push x ↔ r ∈ q ∨ r = x := by
  unfold push
  simp

end PriorityQueue

theorem status_setData (g : Graph) (n : Nat) (d : SNode) (x : Nat) :
    status (g.setData n d) x = if x = n then d.status else status g x := by
  unfold status Graph.getData Graph.setData
  by_cases h : x = n
  · subst h
    simp
  · simp [Function.update_noteq h, h]

theorem Ext.refl (N : Nat) (a : Graph × PriorityQueue) : Ext N a a :=
  ⟨rfl, fun _ => Iff.rfl, fun _ h => h, fun _ h => h, fun _ h => Or.inl h,
    fun _ h => absurd rfl h, fun _ h => Or.inl h⟩

theorem Ext.trans (N : Nat) (a b c : Graph × PriorityQueue) (h1 : Ext N a b)
    (h2 : Ext N b c) : Ext N a c := by
  constructor
  · exact h2.adj.trans h1.adj
  · intro x
    exact (h2.numbered x).trans (h1.numbered x)
  · intro x h
    exact h2.touched x (h1.touched x h)
  · intro r h
    exact h2.keep r (h1.keep r h)
  · intro r h
    rcases h2.fresh r h with h | h
    · rcases h1.fresh r h with h | h
      · exact Or.inl h
      · exact Or.inr ⟨h.1, h2.touched _ h.2⟩
    · exact Or.inr h
  · intro x h
    by_cases hc : status c.1 x = status b.1 x
    · rw [hc] at h
      obtain ⟨r, hr, hx⟩ := h1.changed x h
      exact ⟨r, h2.keep r hr, hx⟩
    · exact h2.changed x hc
  · intro x h
    rcases h2.settled x h with h | h
    · rcases h1.settled x h with h | h
      · exact Or.inl h
      · right
        intro v hv
        rw [edges_eq_of_adj c.1 b.1 h2.adj] at hv
        exact h2.touched v (h v hv)
    · exact Or.inr h

/-- Raising a node of the graph. -/
theorem raisePrio_ext (N : Nat) (st : Graph × PriorityQueue) (c : Nat) (hc : c < N) :
    Ext N st (raisePrio st c) ∧ status (raisePrio st c).1 c ≠ INACTIVE := by
  unfold raisePrio
  by_cases hn : (st.1.getData c).status = NUMBERED
  · rw [if_pos hn]
    refine ⟨Ext.refl N st, ?_⟩
    show (st.1.getData c).status ≠ INACTIVE
    rw [hn]
    decide
  · rw [if_neg hn]
    have hs : ∀ x : Nat, status (st.1.setData c
        { st.1.getData c with
          status := if (st.1.getData c).status = INACTIVE then PREACTIVE
            else (st.1.getData c).status
          prio := (st.1.getData c).prio + W2 }) x =
        if x = c then (if status st.1 c = INACTIVE then PREACTIVE else status st.1 c)
        else status st.1 x := by
      intro x
      rw [status_setData]
      rfl
    have hcne : (if status st.1 c = INACTIVE then PREACTIVE else status st.1 c) ≠ INACTIVE := by
      split
      · decide
      · assumption
    have hcnn : (if status st.1 c = INACTIVE then PREACTIVE else status st.1 c) ≠ NUMBERED := by
      split
      · decide
      · exact hn
    refine ⟨⟨rfl, ?_, ?_, ?_, ?_, ?_, ?_⟩, ?_⟩
    · intro x
      show status _ x = NUMBERED ↔ _
      rw [hs]
      by_cases hx : x = c
      · rw [if_pos hx, hx]
        exact ⟨fun h => absurd h hcnn, fun h => absurd h hn⟩
      · rw [if_neg hx]
    · intro x h
      show status _ x ≠ INACTIVE
      rw [hs]
      by_cases hx : x = c
      · rw [if_pos hx]; exact hcne
      · rw [if_neg hx]; exact h
    · intro r hr
      exact (PriorityQueue.mem_push _ _ _).mpr (Or.inl hr)
    · intro r hr
      rcases (PriorityQueue.mem_push _ _ _).mp hr with h | h
      · exact Or.inl h
      · right
        rw [h]
        refine ⟨hc, ?_⟩
        show status _ c ≠ INACTIVE
        rw [hs, if_pos rfl]
        exact hcne
    · intro x h
      have hx : x = c := by
        by_contra hx
        apply h
        show status _ x = _
        rw [hs, if_neg hx]
      exact ⟨_, (PriorityQueue.mem_push _ _ _).mpr (Or.inr rfl), hx.symm⟩
    · intro x h
      left
      obtain ⟨h1, h2⟩ := h
      change status _ x ≠ INACTIVE at h1
      change status _ x ≠ PREACTIVE at h2
      rw [hs] at h1 h2
      by_cases hx : x = c
      · rw [if_pos hx] at h1 h2
        rw [hx]
        by_cases hi : status st.1 c = INACTIVE
        · rw [if_pos hi] at h2
          exact absurd rfl h2
        · rw [if_neg hi] at h2
          exact ⟨hi, h2⟩
      · rw [if_neg hx] at h1 h2
        exact ⟨h1, h2⟩
    · show status _ c ≠ INACTIVE
      rw [hs, if_pos rfl]
      exact hcne

/-- Raising the nodes of a list: none of them is inactive afterwards. -/
theorem raiseFold_ext (N : Nat) : ∀ (es : List GNode) (st : Graph × PriorityQueue),
    (∀ c ∈ es, c < N) →
    Ext N st (es.foldl raisePrio st) ∧ ∀ c ∈ es, status (es.foldl raisePrio st).1 c ≠ INACTIVE := by
  intro es
  induction es with
  | nil =>
    intro st _
    exact ⟨Ext.refl N st, fun c hc => absurd hc (List.not_mem_nil c)⟩
  | cons d r ih =>
    intro st hlt
    rw [List.foldl_cons]
    obtain ⟨h1, h2⟩ := raisePrio_ext N st d (hlt d (List.mem_cons_self _ _))
    obtain ⟨h3, h4⟩ := ih (raisePrio st d) (fun c hc => hlt c (List.mem_cons_of_mem _ hc))
    refine ⟨Ext.trans N _ _ _ h1 h3, ?_⟩
    intro c hc
    rcases List.mem_cons.mp hc with rfl | hc
    · exact h3.touched _ h2
    · exact h4 c hc

end Sloan

namespace Sloan

/-- Activating a node of the graph whose children are nodes of the graph. -/
theorem activate_ext (N : Nat) (st : Graph × PriorityQueue) (c : Nat) (hc : c < N)
    (hch : ∀ v ∈ st.1.edges c, v < N) : Ext N st (activate st c) := by
  unfold activate
  by_cases hp : (st.1.getData c).status = PREACTIVE
  · rw [if_pos hp]
    have hp1 : status st.1 c = PREACTIVE := hp
    have hs : ∀ x : Nat, status (st.1.setData c
        { st.1.getData c with status := ACTIVE, prio := (st.1.getData c).prio + W2 }) x =
        if x = c then ACTIVE else status st.1 x := by
      intro x
      rw [status_setData]
    obtain ⟨hE, hP⟩ := raiseFold_ext N (st.1.edges c)
      (st.1.setData c
        { st.1.getData c with status := ACTIVE, prio := (st.1.getData c).prio + W2 },
       st.2.push ⟨c, (st.1.getData c).prio + W2⟩) hch
    constructor
    · exact hE.adj
    · intro x
      refine (hE.numbered x).trans ?_
      show status _ x = NUMBERED ↔ _
      rw [hs]
      by_cases hx : x = c
      · rw [if_pos hx, hx, hp1]
        decide
      · rw [if_neg hx]
    · intro x h
      apply hE.touched
      show status _ x ≠ INACTIVE
      rw [hs]
      by_cases hx : x = c
      · rw [if_pos hx]; decide
      · rw [if_neg hx]; exact h
    · intro r hr
      exact hE.keep r ((PriorityQueue.mem_push _ _ _).mpr (Or.inl hr))
    · intro r hr
      rcases hE.fresh r hr with h | h
      · rcases (PriorityQueue.mem_push _ _ _).mp h with h | h
        · exact Or.inl h
        · right
          rw [h]
          refine ⟨hc, hE.touched c ?_⟩
          show status _ c ≠ INACTIVE
          rw [hs, if_pos rfl]
          decide
      · exact Or.inr h
    · intro x h
      by_cases h1 : status ((st.1.edges c).foldl raisePrio
          (st.1.setData c
            { st.1.getData c with status := ACTIVE, prio := (st.1.getData c).prio + W2 },
           st.2.push ⟨c, (st.1.getData c).prio + W2⟩)).1 x =
          status (st.1.setData c
            { st.1.getData c with status := ACTIVE, prio := (st.1.getData c).prio + W2 }) x
      · rw [h1, hs] at h
        have hx : x = c := by
          by_contra hx
          rw [if_neg hx] at h
          exact h rfl
        exact ⟨_, hE.keep _ ((PriorityQueue.mem_push _ _ _).mpr (Or.inr rfl)), hx.symm⟩
      · exact hE.changed x h1
    · intro x h
      rcases hE.settled x h with h1 | h1
      · by_cases hx : x = c
        · right
          intro v hv
          rw [hx, edges_eq_of_adj _ _ hE.adj] at hv
          exact hP v hv
        · left
          obtain ⟨h2, h3⟩ := h1
          change status _ x ≠ INACTIVE at h2
          change status _ x ≠ PREACTIVE at h3
          rw [hs, if_neg hx] at h2 h3
          exact ⟨h2, h3⟩
      · exact Or.inr h1
  · rw [if_neg hp]
    exact Ext.refl N st

theorem activateFold_ext (g : Graph) (hwf : WellFormed g) :
    ∀ (es : List GNode) (st : Graph × PriorityQueue), st.1.adj = g.adj →
      (∀ c ∈ es, c < g.size) → Ext g.size st (es.foldl activate st) := by
  intro es
  induction es with
  | nil => intro st _ _; exact Ext.refl _ st
  | cons d r ih =>
    intro st hadj hlt
    rw [List.foldl_cons]
    have h1 := activate_ext g.size st d (hlt d (List.mem_cons_self _ _)) (by
      intro v hv
      rw [edges_eq_of_adj _ _ hadj] at hv
      exact hwf d v hv)
    have h2 := ih (activate st d) (h1.adj.trans hadj)
      (fun c hc => hlt c (List.mem_cons_of_mem _ hc))
    exact Ext.trans _ _ _ _ h1 h2

/-- The loop that skips the requests of numbered nodes ends at a request of a
node that is not numbered, when the queue holds one; only requests of numbered
nodes and the request found leave the queue. -/
theorem skipNumbered_spec (g : Graph) : ∀ (fuel : Nat) (next : UpdateRequest)
    (q : PriorityQueue), q.length < fuel →
    (∃ r ∈ next :: q, status g r.node ≠ NUMBERED) →
    ∃ next1 q1, skipNumbered g fuel next q = some (next1, q1) ∧
      status g next1.node ≠ NUMBERED ∧ next1 ∈ next :: q ∧ (∀ r ∈ q1, r ∈ q) ∧
      (∀ r ∈ next :: q, status g r.node ≠ NUMBERED → r = next1 ∨ r ∈ q1) := by
  intro fuel
  induction fuel with
  | zero => intro _ _ h; omega
  | succ k ih =>
    intro next q hlen hex
    unfold skipNumbered
    by_cases hn : (g.getData next.node).status = NUMBERED
    · rw [if_pos hn]
      cases ht : q.top with
      | none =>
        exfalso
        have hq := (PriorityQueue.top_eq_none q).mp ht
        obtain ⟨r, hr, hrn⟩ := hex
        rw [hq] at hr
        rw [List.mem_singleton] at hr
        rw [hr] at hrn
        exact hrn hn
      | some t =>
        simp only
        have hl := PriorityQueue.length_pop q t ht
        obtain ⟨next1, q1, h1, h2, h3, h4, h5⟩ := ih t q.pop (by omega) (by
          obtain ⟨r, hr, hrn⟩ := hex
          rcases List.mem_cons.mp hr with rfl | hr
          · exact absurd hn hrn
          · by_cases hrt : r = t
            · exact ⟨r, by rw [hrt]; exact List.mem_cons_self _ _, hrn⟩
            · exact ⟨r, List.mem_cons_of_mem _ (PriorityQueue.mem_pop_of_ne q t r ht hr hrt),
                hrn⟩)
        refine ⟨next1, q1, h1, h2, ?_, ?_, ?_⟩
        · rcases List.mem_cons.mp h3 with h | h
          · rw [h]
            exact List.mem_cons_of_mem _ (PriorityQueue.top_mem q t ht)
          · exact List.mem_cons_of_mem _ (PriorityQueue.mem_of_mem_pop q _ h)
        · intro r hr
          exact PriorityQueue.mem_of_mem_pop q r (h4 r hr)
        · intro r hr hrn
          rcases List.mem_cons.mp hr with rfl | hr
          · exact absurd hn hrn
          · apply h5 r _ hrn
            by_cases hrt : r = t
            · rw [hrt]; exact List.mem_cons_self _ _
            · exact List.mem_cons_of_mem _ (PriorityQueue.mem_pop_of_ne q t r ht hr hrt)
    · rw [if_neg hn]
      refine ⟨next, q, rfl, hn, List.mem_cons_self _ _, fun r hr => hr, ?_⟩
      intro r hr _
      rcases List.mem_cons.mp hr with h | h
      · exact Or.inl h
      · exact Or.inr h

end Sloan

namespace Sloan

theorem numberParent_eq (p : Globals) (parent : GNode) (pq : PriorityQueue) :
    numberParent p parent pq =
      { p with
        graph := ((p.graph.edges parent).foldl activate
          ((if status p.graph parent = PREACTIVE then
              (p.graph.edges parent).foldl raisePrio (p.graph, pq)
            else (p.graph, pq)).1.setData parent
            { (if status p.graph parent = PREACTIVE then
                (p.graph.edges parent).foldl raisePrio (p.graph, pq)
              else (p.graph, pq)).1.getData parent with status := NUMBERED },
           (if status p.graph parent = PREACTIVE then
              (p.graph.edges parent).foldl raisePrio (p.graph, pq)
            else (p.graph, pq)).2)).1
        perm := p.perm ++ [parent]
        pq := ((p.graph.edges parent).foldl activate
          ((if status p.graph parent = PREACTIVE then
              (p.graph.edges parent).foldl raisePrio (p.graph, pq)
            else (p.graph, pq)).1.setData parent
            { (if status p.graph parent = PREACTIVE then
                (p.graph.edges parent).foldl raisePrio (p.graph, pq)
              else (p.graph, pq)).1.getData parent with status := NUMBERED },
           (if status p.graph parent = PREACTIVE then
              (p.graph.edges parent).foldl raisePrio (p.graph, pq)
            else (p.graph, pq)).2)).2 } := rfl

/-- Numbering a parent that is neither numbered nor inactive keeps the invariant,
when the queue taken over holds a request for every other node that needs
one. -/
theorem numberParent_inv (g : Graph) (source : Nat) (hwf : WellFormed g) (p : Globals)
    (hinv : SloanInv g source p) (parent : Nat) (q : PriorityQueue) (hpl : parent < g.size)
    (hpn : status p.graph parent ≠ NUMBERED) (hpi : status p.graph parent ≠ INACTIVE)
    (hq : ∀ x : Nat, x < g.size → x ≠ parent → status p.graph x ≠ NUMBERED →
      status p.graph x ≠ INACTIVE → Queued q x)
    (he : ∀ r ∈ q, r.node < g.size ∧ status p.graph r.node ≠ INACTIVE) :
    SloanInv g source (numberParent p parent q) := by
  rw [numberParent_eq]
  have hedges : p.graph.edges parent = g.edges parent := edges_eq_of_adj _ _ hinv.adj _
  have hchild : ∀ c ∈ p.graph.edges parent, c < g.size := by
    intro c hc
    rw [hedges] at hc
    exact hwf parent c hc
  -- the state behind the first loop
  obtain ⟨a1, ha1, hE1, hC1⟩ : ∃ a1 : Graph × PriorityQueue,
      (if status p.graph parent = PREACTIVE then
          (p.graph.edges parent).foldl raisePrio (p.graph, q)
        else (p.graph, q)) = a1 ∧ Ext g.size (p.graph, q) a1 ∧
      ∀ c ∈ g.edges parent, status a1.1 c ≠ INACTIVE := by
    by_cases hpp : status p.graph parent = PREACTIVE
    · rw [if_pos hpp]
      obtain ⟨h1, h2⟩ := raiseFold_ext g.size (p.graph.edges parent) (p.graph, q) hchild
      refine ⟨_, rfl, h1, ?_⟩
      intro c hc
      rw [← hedges] at hc
      exact h2 c hc
    · rw [if_neg hpp]
      exact ⟨_, rfl, Ext.refl _ _, hinv.settled parent hpl ⟨hpi, hpp⟩⟩
  rw [ha1]
  have hs2 : ∀ x : Nat, status (a1.1.setData parent
      { a1.1.getData parent with status := NUMBERED }) x =
      if x = parent then NUMBERED else status a1.1 x := by
    intro x
    rw [status_setData]
  have hadj2 : (a1.1.setData parent { a1.1.getData parent with status := NUMBERED }).adj =
      g.adj := hE1.adj.trans hinv.adj
  have hE3 := activateFold_ext g hwf (p.graph.edges parent)
    (a1.1.setData parent { a1.1.getData parent with status := NUMBERED }, a1.2) hadj2 hchild
  obtain ⟨a3, ha3⟩ : ∃ a3 : Graph × PriorityQueue,
      (p.graph.edges parent).foldl activate
        (a1.1.setData parent { a1.1.getData parent with status := NUMBERED }, a1.2) = a3 :=
    ⟨_, rfl⟩
  rw [ha3] at hE3 ⊢
  -- a status that is not inactive stays so to the end
  have htouch : ∀ x : Nat, status a1.1 x ≠ INACTIVE → status a3.1 x ≠ INACTIVE := by
    intro x h
    apply hE3.touched
    show status _ x ≠ INACTIVE
    rw [hs2]
    split
    · decide
    · exact h
  have hnum : ∀ x : Nat, status a3.1 x = NUMBERED ↔ (x = parent ∨ status p.graph x = NUMBERED) := by
    intro x
    refine (hE3.numbered x).trans ?_
    show status _ x = NUMBERED ↔ _
    rw [hs2]
    by_cases hx : x = parent
    · rw [if_pos hx]
      exact ⟨fun _ => Or.inl hx, fun _ => rfl⟩
    · rw [if_neg hx]
      refine (hE1.numbered x).trans ?_
      exact ⟨fun h => Or.inr h, fun h => h.resolve_left hx⟩
  constructor
  · exact hE3.adj.trans hadj2
  · show (p.perm ++ [parent]).Nodup
    rw [List.nodup_append]
    refine ⟨hinv.permNodup, List.nodup_singleton _, ?_⟩
    intro x hx hx1
    rw [List.mem_singleton] at hx1
    rw [hx1] at hx
    exact hpn (hinv.permLt _ hx).2
  · intro x hx
    show x < g.size ∧ status a3.1 x = NUMBERED
    rcases List.mem_append.mp hx with h | h
    · exact ⟨(hinv.permLt x h).1, (hnum x).mpr (Or.inr (hinv.permLt x h).2)⟩
    · rw [List.mem_singleton] at h
      exact ⟨by rw [h]; exact hpl, (hnum x).mpr (Or.inl h)⟩
  · intro x hx hxn
    show x ∈ p.perm ++ [parent]
    rcases (hnum x).mp hxn with h | h
    · exact List.mem_append_right _ (by rw [h]; exact List.mem_singleton_self _)
    · exact List.mem_append_left _ (hinv.numbered x hx h)
  · intro x hx hxn hxi
    show Queued a3.2 x
    change status a3.1 x ≠ NUMBERED at hxn
    change status a3.1 x ≠ INACTIVE at hxi
    have hxp : x ≠ parent := fun h => hxn ((hnum x).mpr (Or.inl h))
    have hxn0 : status p.graph x ≠ NUMBERED := fun h => hxn ((hnum x).mpr (Or.inr h))
    by_cases h3 : status a3.1 x =
        status (a1.1.setData parent { a1.1.getData parent with status := NUMBERED }) x
    · rw [hs2, if_neg hxp] at h3
      by_cases h1 : status a1.1 x = status p.graph x
      · rw [h3, h1] at hxi
        obtain ⟨r, hr, hrx⟩ := hq x hx hxp hxn0 hxi
        exact ⟨r, hE3.keep r (hE1.keep r hr), hrx⟩
      · obtain ⟨r, hr, hrx⟩ := hE1.changed x h1
        exact ⟨r, hE3.keep r hr, hrx⟩
    · exact hE3.changed x h3
  · intro r hr
    show r.node < g.size ∧ status a3.1 r.node ≠ INACTIVE
    rcases hE3.fresh r hr with h | h
    · rcases hE1.fresh r h with h | h
      · exact ⟨(he r h).1, htouch _ (hE1.touched _ (he r h).2)⟩
      · exact ⟨h.1, htouch _ h.2⟩
    · exact h
  · intro u hu hset v hv
    show status a3.1 v ≠ INACTIVE
    change Settled a3.1 u at hset
    rcases hE3.settled u hset with h | h
    · by_cases hup : u = parent
      · rw [hup] at hv
        exact htouch v (hC1 v hv)
      · obtain ⟨h1, h2⟩ := h
        change status _ u ≠ INACTIVE at h1
        change status _ u ≠ PREACTIVE at h2
        rw [hs2, if_neg hup] at h1 h2
        rcases hE1.settled u ⟨h1, h2⟩ with h3 | h3
        · exact htouch v (hE1.touched v (hinv.settled u hu h3 v hv))
        · apply htouch v
          apply h3 v
          rw [edges_eq_of_adj a1.1 g (hE1.adj.trans hinv.adj)]
          exact hv
    · apply h v
      rw [edges_eq_of_adj a3.1 g (hE3.adj.trans hadj2)]
      exact hv
  · show status a3.1 source ≠ INACTIVE
    exact htouch _ (hE1.touched _ hinv.source)

end Sloan

namespace Sloan

/-- While a node is not numbered, some node of the graph is neither numbered nor
inactive: the first node that is not numbered on a walk from the source. -/
theorem exists_pending (g : Graph) (source : Nat) (hwf : WellFormed g) (hs : source < g.size)
    (p : Globals) (hinv : SloanInv g source p) :
    ∀ (v k : Nat), Walk g source v k → status p.graph v ≠ NUMBERED →
      ∃ y : Nat, y < g.size ∧ status p.graph y ≠ NUMBERED ∧ status p.graph y ≠ INACTIVE := by
  intro v k h
  induction h with
  | nil => intro hn; exact ⟨source, hs, hn, hinv.source⟩
  | snoc hw he ih =>
    rename_i u v k
    intro hn
    by_cases hu : status p.graph u = NUMBERED
    · have hset : Settled p.graph u := by
        unfold Settled
        rw [hu]
        decide
      exact ⟨v, hwf u v he, hn, hinv.settled u (walk_lt g source hwf hs u k hw) hset v he⟩
    · exact ih hu

theorem exists_not_mem_perm (N : Nat) (perm : List Nat) (h : perm.length < N) :
    ∃ x : Nat, x < N ∧ x ∉ perm := by
  by_contra hno
  have hsub : Finset.range N ⊆ perm.toFinset := by
    intro x hx
    rw [List.mem_toFinset]
    by_contra hx1
    exact hno ⟨x, Finset.mem_range.mp hx, hx1⟩
  have h1 := Finset.card_le_card hsub
  have h2 := List.toFinset_card_le perm
  rw [Finset.card_range] at h1
  omega

/-- A round of the loop of `sloanFn`, while fewer nodes are numbered than the
graph has: the queue holds a request of a node that is not numbered, the round
numbers such a node, and the invariant holds behind it. -/
theorem sloanRound_inv (g : Graph) (source : Nat) (hwf : WellFormed g) (hs : source < g.size)
    (hreach : ∀ v : Nat, v < g.size → ∃ k, Walk g source v k) (p : Globals)
    (hinv : SloanInv g source p) (hlen : p.perm.length < g.size) :
    ∃ p1, sloanRound p = some p1 ∧ SloanInv g source p1 ∧
      p1.perm.length = p.perm.length + 1 := by
  obtain ⟨x, hx, hxp⟩ := exists_not_mem_perm g.size p.perm hlen
  have hxn : status p.graph x ≠ NUMBERED := fun h => hxp (hinv.numbered x hx h)
  obtain ⟨k, hk⟩ := hreach x hx
  obtain ⟨y, hy, hyn, hyi⟩ := exists_pending g source hwf hs p hinv x k hk hxn
  obtain ⟨r, hr, hry⟩ := hinv.queued y hy hyn hyi
  cases ht : p.pq.top with
  | none =>
    rw [(PriorityQueue.top_eq_none _).mp ht] at hr
    cases hr
  | some next0 =>
    have hmem : ∀ r ∈ p.pq, r ∈ next0 :: p.pq.pop := by
      intro r hr
      by_cases hrt : r = next0
      · rw [hrt]; exact List.mem_cons_self _ _
      · exact List.mem_cons_of_mem _ (PriorityQueue.mem_pop_of_ne _ _ _ ht hr hrt)
    have hback : ∀ r ∈ next0 :: p.pq.pop, r ∈ p.pq := by
      intro r hr
      rcases List.mem_cons.mp hr with h | h
      · rw [h]; exact PriorityQueue.top_mem _ _ ht
      · exact PriorityQueue.mem_of_mem_pop _ _ h
    obtain ⟨next1, q1, h1, h2, h3, h4, h5⟩ := skipNumbered_spec p.graph (p.pq.pop.length + 1)
      next0 p.pq.pop (Nat.lt_succ_self _) ⟨r, hmem r hr, by rw [hry]; exact hyn⟩
    have hn1 := hinv.entries next1 (hback next1 h3)
    refine ⟨numberParent p next1.node q1, ?_, ?_, ?_⟩
    · unfold sloanRound
      rw [ht]
      simp only
      rw [h1]
    · apply numberParent_inv g source hwf p hinv next1.node q1 hn1.1 h2 hn1.2
      · intro z hz hzp hzn hzi
        obtain ⟨r1, hr1, hrz⟩ := hinv.queued z hz hzn hzi
        rcases h5 r1 (hmem r1 hr1) (by rw [hrz]; exact hzn) with h | h
        · exact absurd (by rw [← hrz, h]) hzp
        · exact ⟨r1, h, hrz⟩
      · intro r1 hr1
        exact hinv.entries r1 (PriorityQueue.mem_of_mem_pop _ _ (h4 r1 hr1))
    · rw [numberParent_eq]
      show (p.perm ++ [next1.node]).length = _
      rw [List.length_append, List.length_singleton]

theorem sloanLoop_spec (g : Graph) (source : Nat) (hwf : WellFormed g) (hs : source < g.size)
    (hreach : ∀ v : Nat, v < g.size → ∃ k, Walk g source v k) :
    ∀ (n : Nat) (p : Globals), SloanInv g source p → p.perm.length + n = g.size →
      ∃ p1, sloanLoop n p = some p1 ∧ SloanInv g source p1 ∧ p1.perm.length = g.size := by
  intro n
  induction n with
  | zero =>
    intro p hinv hlen
    exact ⟨p, rfl, hinv, by omega⟩
  | succ k ih =>
    intro p hinv hlen
    obtain ⟨p1, h1, h2, h3⟩ := sloanRound_inv g source hwf hs hreach p hinv (by omega)
    obtain ⟨p2, h4, h5, h6⟩ := ih p1 h2 (by omega)
    refine ⟨p2, ?_, h5, h6⟩
    unfold sloanLoop
    rw [h1]
    exact h4

/-- The invariant at the start of the loop of `sloanFn`. -/
theorem sloanFn_start (p : Globals) (source : Nat) (hs : source < p.graph.size)
    (hst : ∀ n : Nat, n < p.graph.size → status p.graph n = INACTIVE) (hperm : p.perm = [])
    (hpq : p.pq = []) :
    SloanInv p.graph source
      { p with
        graph := p.graph.setData source { p.graph.getData source with status := PREACTIVE }
        pq := p.pq.push ⟨source, (p.graph.getData source).prio⟩ } := by
  have hsd : ∀ x : Nat, status (p.graph.setData source
      { p.graph.getData source with status := PREACTIVE }) x =
      if x = source then PREACTIVE else status p.graph x := by
    intro x
    rw [status_setData]
  have hnn : ∀ x : Nat, x < p.graph.size → status (p.graph.setData source
      { p.graph.getData source with status := PREACTIVE }) x ≠ NUMBERED := by
    intro x hx
    rw [hsd]
    split
    · decide
    · rw [hst x hx]; decide
  constructor
  · rfl
  · show p.perm.Nodup
    rw [hperm]
    exact List.nodup_nil
  · intro x hx
    change x ∈ p.perm at hx
    rw [hperm] at hx
    cases hx
  · intro x hx hn
    exact absurd hn (hnn x hx)
  · intro x hx _ hi
    change status _ x ≠ INACTIVE at hi
    rw [hsd] at hi
    have hxs : x = source := by
      by_contra hxs
      rw [if_neg hxs] at hi
      exact hi (hst x hx)
    exact ⟨_, (PriorityQueue.mem_push _ _ _).mpr (Or.inr rfl), hxs.symm⟩
  · intro r hr
    change r ∈ p.pq.push _ at hr
    rw [hpq] at hr
    rcases (PriorityQueue.mem_push _ _ _).mp hr with h | h
    · cases h
    · rw [h]
      refine ⟨hs, ?_⟩
      show status _ source ≠ INACTIVE
      rw [hsd, if_pos rfl]
      decide
  · intro u hu hset
    exfalso
    obtain ⟨h1, h2⟩ := hset
    change status _ u ≠ INACTIVE at h1
    change status _ u ≠ PREACTIVE at h2
    rw [hsd] at h1 h2
    by_cases hus : u = source
    · rw [if_pos hus] at h2
      exact h2 rfl
    · rw [if_neg hus] at h1
      exact h1 (hst u hu)
  · show status _ source ≠ INACTIVE
    rw [hsd, if_pos rfl]
    decide

end Sloan

/-- C22: let the edges of the graph lead to nodes of the graph, let every node
be reachable from the source, and let every node be inactive, as `initFn` leaves
it. Starting from an empty priority queue and an empty perm, `sloanFn` ends
without asking an empty queue for its top, and afterwards perm has the length
`graph.size ()` and contains every node of the graph exactly once. -/
theorem C22_sloan_permutation (p : Sloan.Globals) (source : Nat)
    (hwf : Sloan.WellFormed p.graph) (hs : source < p.graph.size)
    (hreach : ∀ v : Nat, v < p.graph.size → ∃ k, Sloan.Walk p.graph source v k)
    (hst : ∀ n : Nat, n < p.graph.size → Sloan.status p.graph n = Sloan.INACTIVE)
    (hperm : p.perm = []) (hpq : p.pq = []) :
    ∃ p1, Sloan.sloanFn p source = some p1 ∧ p1.perm.length = p.graph.size ∧
      p1.perm.Nodup ∧ (∀ v : Nat, v ∈ p1.perm ↔ v < p.graph.size) ∧
      (∀ v : Nat, v < p.graph.size → p1.perm.count v = 1) ∧
      p1.perm.Perm (List.range p.graph.size) := by
  have hstart := Sloan.sloanFn_start p source hs hst hperm hpq
  obtain ⟨p1, h1, h2, h3⟩ := Sloan.sloanLoop_spec p.graph source hwf hs hreach p.graph.size _
    hstart (by
      show p.perm.length + p.graph.size = p.graph.size
      rw [hperm]
      simp)
  have hmem : ∀ v : Nat, v ∈ p1.perm ↔ v < p.graph.size := by
    intro v
    constructor
    · intro hv
      exact (h2.permLt v hv).1
    · intro hv
      have hsub : p1.perm.toFinset ⊆ Finset.range p.graph.size := by
        intro x hx
        exact Finset.mem_range.mpr (h2.permLt x (List.mem_toFinset.mp hx)).1
      have hcard : (Finset.range p.graph.size).card ≤ p1.perm.toFinset.card := by
        rw [List.toFinset_card_of_nodup h2.permNodup, h3, Finset.card_range]
      have heq := Finset.eq_of_subset_of_card_le hsub hcard
      have : v ∈ p1.perm.toFinset := by
        rw [heq]
        exact Finset.mem_range.mpr hv
      exact List.mem_toFinset.mp this
  refine ⟨p1, h1, h3, h2.permNodup, hmem, ?_, ?_⟩
  · intro v hv
    exact List.count_eq_one_of_mem h2.permNodup ((hmem v).mpr hv)
  · apply (List.perm_ext_iff_of_nodup h2.permNodup (List.nodup_range _)).mpr
    intro v
    rw [hmem, List.mem_range]

/-- C22 at the star with the centre 3 and the leaves 0, 1, 2, from the leaf 0:
the permutation is 0, 3, 1, 2. -/
theorem C22_sloan_permutation_witness :
    (∃ p1, Sloan.sloanFn (Sloan.startGlobals Sloan.star3) 0 = some p1 ∧
      p1.perm.length = 4 ∧ p1.perm.Nodup ∧ ∀ v : Nat, v ∈ p1.perm ↔ v < 4) ∧
    (Sloan.sloanFn (Sloan.startGlobals Sloan.star3) 0).map (fun p => p.perm) =
      some [0, 3, 1, 2] := by
  obtain ⟨p1, h1, h2, h3, h4, _⟩ := C22_sloan_permutation (Sloan.startGlobals Sloan.star3) 0
    (Sloan.wellFormed_of_bounded _ (by decide)) (by decide)
    (by
      intro v hv
      have hv4 : v < 4 := hv
      interval_cases v
      · exact ⟨0, Sloan.Walk.nil⟩
      · exact ⟨2, Sloan.Walk.snoc (Sloan.Walk.snoc Sloan.Walk.nil (by decide : 3 ∈ _))
          (by decide : 1 ∈ Sloan.star3.edges 3)⟩
      · exact ⟨2, Sloan.Walk.snoc (Sloan.Walk.snoc Sloan.Walk.nil (by decide : 3 ∈ _))
          (by decide : 2 ∈ Sloan.star3.edges 3)⟩
      · exact ⟨1, Sloan.Walk.snoc Sloan.Walk.nil (by decide : 3 ∈ Sloan.star3.edges 0)⟩)
    (fun _ _ => rfl) rfl rfl
  exact ⟨⟨p1, h1, h2, h3, h4⟩, by decide⟩
